import Mathlib

/-!
# Verification of the vacs-profileeditor document core

A shallow embedding, in Lean 4, of the JSON document core of the
vacs-profileeditor repository:

* `src/lib/serializeProfile.ts` — the canonical pretty-printer
  (`serializeProfile`, `format`, `formatObject`, `formatInline`,
  `isPrimitive`, `profileToJson`, `tabToJson`, `pageToJson`, `keyToJson`);
* `src/lib/validation.ts` — `validateProfile`, `normalizeProfile`,
  `normalizePage`;
* `src/hooks/useProfileHistory.ts` — the undo/redo history manager;
* `src/App.tsx` — the path-addressed mutators (`getPageAtPath`,
  `mutatePageAtPath`, `updateKeyAtPath`), the clipboard operations
  (`copyKeys`, `cutKeys`, `pasteKeys`) and the file export
  (`downloadProfile`).

Modelling conventions:

* Parsed JSON values are modelled by the inductive type `Json`.  A JSON
  number is modelled exactly as a finite decimal `mant / 10 ^ exp`
  (every JavaScript double is a finite decimal, and JSON text denotes
  finite decimals).  The model does not renormalize numbers, so `2.5`
  and `2.50` are distinct model values; nothing in the verified code
  renormalizes numbers either, so all theorems are stated up to this
  finer-grained equality, which implies the JavaScript `deepEqual` used
  by the repository's round-trip script.  NaN and the infinities are
  outside the model: the embedding of `normalizeProfile` returns `none`
  where the JavaScript would throw a `TypeError` or where a `rows` field
  would coerce to NaN.
* JavaScript string `.length` counts UTF-16 code units; the function
  `strLen16` below reproduces that count for Lean strings.
* JavaScript member access `o.f` yields the value of the last `f`
  binding of an object, `undefined` (here: `none`) on objects without
  the field, on arrays and on primitives, and throws on `null` and
  `undefined`; the throwing cases are matched explicitly where they can
  occur.
-/

namespace Vacs

/-! ## Characters, whitespace, UTF-16 lengths -/

/-- JSON insignificant whitespace characters (space, tab, line feed,
carriage return), as skipped by `JSON.parse`. -/
def isWs (c : Char) : Bool :=
  c = ' ' || c = '\t' || c = '\n' || c = '\r'

/-- Drop leading JSON whitespace. -/
def skipWs : List Char → List Char
  | [] => []
  | c :: rest => if isWs c then skipWs rest else c :: rest

/-- UTF-16 length of a single character (JavaScript counts code units:
characters above the basic multilingual plane count twice). -/
def charLen16 (c : Char) : Nat :=
  if c.toNat ≥ 0x10000 then 2 else 1

/-- UTF-16 length of a string: the JavaScript `.length`. -/
def strLen16 (s : String) : Nat :=
  (s.data.map charLen16).sum

/-! ## Decimal digits -/

def isDigit (c : Char) : Bool :=
  48 ≤ c.toNat && c.toNat ≤ 57

def digitChar (n : Nat) : Char :=
  Char.ofNat (48 + n)

def digitVal (c : Char) : Nat :=
  c.toNat - 48

/-- Decimal digits of `n`, most significant first, by repeated division.
`natDigits 0 = ['0']`. -/
def natDigitsAux : Nat → List Char → List Char
  | 0, acc => acc
  | n+1, acc =>
    natDigitsAux ((n+1) / 10) (digitChar ((n+1) % 10) :: acc)
decreasing_by exact Nat.div_lt_self (Nat.succ_pos n) (by omega)

def natDigits (n : Nat) : List Char :=
  if n = 0 then ['0'] else natDigitsAux n []

/-- Value of a digit list (most significant first), given an accumulator. -/
def digitsVal (acc : Nat) : List Char → Nat
  | [] => acc
  | c :: rest => digitsVal (acc * 10 + digitVal c) rest

/-! ## The JSON value model -/

/-- A parsed JSON value.  Numbers are finite decimals `mant / 10 ^ exp`
(see the header comment).  Object fields are kept in insertion order;
`JSON.parse` never produces duplicate keys in a relevant way for this
development (the pretty-printers under verification never emit them). -/
inductive Json where
  | jnull : Json
  | jbool (b : Bool) : Json
  | jnum (mant : Int) (exp : Nat) : Json
  | jstr (s : String) : Json
  | jarr (elems : List Json) : Json
  | jobj (fields : List (String × Json)) : Json
  deriving Repr

/- Boolean equality on `Json` (structural). -/
mutual
def jsonBEq : Json → Json → Bool
  | .jnull, .jnull => true
  | .jbool a, .jbool b => a = b
  | .jnum m e, .jnum m' e' => m = m' && e = e'
  | .jstr s, .jstr t => s = t
  | .jarr l, .jarr l' => jsonBEqList l l'
  | .jobj l, .jobj l' => jsonBEqFields l l'
  | _, _ => false
def jsonBEqList : List Json → List Json → Bool
  | [], [] => true
  | x :: xs, y :: ys => jsonBEq x y && jsonBEqList xs ys
  | _, _ => false
def jsonBEqFields : List (String × Json) → List (String × Json) → Bool
  | [], [] => true
  | (k, v) :: xs, (k', v') :: ys => k = k' && jsonBEq v v' && jsonBEqFields xs ys
  | _, _ => false
end

mutual
theorem jsonBEq_eq : ∀ a b : Json, jsonBEq a b = true ↔ a = b
  | .jnull, .jnull => by simp [jsonBEq]
  | .jbool _, .jbool _ => by simp [jsonBEq]
  | .jnum _ _, .jnum _ _ => by simp [jsonBEq]
  | .jstr _, .jstr _ => by simp [jsonBEq]
  | .jarr l, .jarr l' => by simp [jsonBEq, jsonBEqList_eq l l']
  | .jobj l, .jobj l' => by simp [jsonBEq, jsonBEqFields_eq l l']
  | .jnull, .jbool _ => by simp [jsonBEq]
  | .jnull, .jnum _ _ => by simp [jsonBEq]
  | .jnull, .jstr _ => by simp [jsonBEq]
  | .jnull, .jarr _ => by simp [jsonBEq]
  | .jnull, .jobj _ => by simp [jsonBEq]
  | .jbool _, .jnull => by simp [jsonBEq]
  | .jbool _, .jnum _ _ => by simp [jsonBEq]
  | .jbool _, .jstr _ => by simp [jsonBEq]
  | .jbool _, .jarr _ => by simp [jsonBEq]
  | .jbool _, .jobj _ => by simp [jsonBEq]
  | .jnum _ _, .jnull => by simp [jsonBEq]
  | .jnum _ _, .jbool _ => by simp [jsonBEq]
  | .jnum _ _, .jstr _ => by simp [jsonBEq]
  | .jnum _ _, .jarr _ => by simp [jsonBEq]
  | .jnum _ _, .jobj _ => by simp [jsonBEq]
  | .jstr _, .jnull => by simp [jsonBEq]
  | .jstr _, .jbool _ => by simp [jsonBEq]
  | .jstr _, .jnum _ _ => by simp [jsonBEq]
  | .jstr _, .jarr _ => by simp [jsonBEq]
  | .jstr _, .jobj _ => by simp [jsonBEq]
  | .jarr _, .jnull => by simp [jsonBEq]
  | .jarr _, .jbool _ => by simp [jsonBEq]
  | .jarr _, .jnum _ _ => by simp [jsonBEq]
  | .jarr _, .jstr _ => by simp [jsonBEq]
  | .jarr _, .jobj _ => by simp [jsonBEq]
  | .jobj _, .jnull => by simp [jsonBEq]
  | .jobj _, .jbool _ => by simp [jsonBEq]
  | .jobj _, .jnum _ _ => by simp [jsonBEq]
  | .jobj _, .jstr _ => by simp [jsonBEq]
  | .jobj _, .jarr _ => by simp [jsonBEq]
theorem jsonBEqList_eq : ∀ a b : List Json, jsonBEqList a b = true ↔ a = b
  | [], [] => by simp [jsonBEqList]
  | x :: xs, y :: ys => by
    simp [jsonBEqList, jsonBEq_eq x y, jsonBEqList_eq xs ys]
  | [], _ :: _ => by simp [jsonBEqList]
  | _ :: _, [] => by simp [jsonBEqList]
theorem jsonBEqFields_eq : ∀ a b : List (String × Json), jsonBEqFields a b = true ↔ a = b
  | [], [] => by simp [jsonBEqFields]
  | (_, v) :: xs, (_, v') :: ys => by
    simp [jsonBEqFields, jsonBEq_eq v v', jsonBEqFields_eq xs ys]
  | [], _ :: _ => by simp [jsonBEqFields]
  | _ :: _, [] => by simp [jsonBEqFields]
end

instance : DecidableEq Json := fun a b =>
  decidable_of_iff (jsonBEq a b = true) (jsonBEq_eq a b)

/-- JavaScript member access `o.k` on an object's field list: the value
of the *last* binding of `k` (later assignments win when an object is
built), `none` when the field is absent. -/
def fieldGet (fields : List (String × Json)) (k : String) : Option Json :=
  match fields with
  | [] => none
  | (k', v) :: rest =>
    match fieldGet rest k with
    | some w => some w
    | none => if k' = k then some v else none

/-- JavaScript member access `o.k` for a `Json` value that is not `null`
(`null.k` and `undefined.k` throw and are handled at their use sites):
fields of objects, `undefined` (= `none`) on everything else. -/
def jsGet (j : Json) (k : String) : Option Json :=
  match j with
  | .jobj fields => fieldGet fields k
  | _ => none

theorem sizeOf_fieldGet (fields : List (String × Json)) (k : String) (v : Json)
    (h : fieldGet fields k = some v) : sizeOf v < sizeOf fields := by
  induction fields with
  | nil => simp [fieldGet] at h
  | cons p rest ih =>
    unfold fieldGet at h
    revert h
    split
    · rename_i w hw
      intro h
      cases h
      have := ih hw
      simp at this ⊢
      omega
    · split
      · intro h
        cases h
        cases p
        simp
        omega
      · intro h
        cases h

theorem sizeOf_jsGet (j : Json) (k : String) (v : Json)
    (h : jsGet j k = some v) : sizeOf v < sizeOf j := by
  cases j <;> simp [jsGet] at h
  case jobj fields =>
    have := sizeOf_fieldGet fields k v h
    simp
    omega

theorem sizeOf_mem_list {x : Json} {l : List Json} (h : x ∈ l) :
    sizeOf x < sizeOf l := by
  induction l with
  | nil => cases h
  | cons y ys ih =>
    rcases List.mem_cons.mp h with rfl | h'
    · simp; omega
    · have := ih h'; simp; omega

/-! ## Printing JSON scalars

`JSON.stringify` on numbers prints the decimal value of the double; on
our decimal model `mant / 10 ^ exp` this is the exact decimal with `exp`
fraction digits.  On strings it quotes and escapes exactly the two
characters `"` and `\`, the named control escapes, and the remaining C0
controls as lowercase `\u00xx`. -/

/-- Opening brace character, `\x7b`. -/
def obChar : Char := '\x7b'

/-- Closing brace character, `\x7d`. -/
def cbChar : Char := '\x7d'

def obStr : String := ⟨[obChar]⟩

def cbStr : String := ⟨[cbChar]⟩

def intRepr (m : Int) : String :=
  if m < 0 then "-" ++ ⟨natDigits m.natAbs⟩ else ⟨natDigits m.natAbs⟩

/-- Decimal rendering of the number `mant / 10 ^ exp`: the digits of
`mant` with a decimal point inserted `exp` places from the right (zero
padded when `mant` has at most `exp` digits). -/
def numToString (mant : Int) (exp : Nat) : String :=
  if exp = 0 then intRepr mant
  else
    let ds := natDigits mant.natAbs
    let ds := List.replicate (exp + 1 - ds.length) '0' ++ ds
    (if mant < 0 then "-" else "") ++
      ⟨ds.take (ds.length - exp)⟩ ++ "." ++ ⟨ds.drop (ds.length - exp)⟩

def hexDigit (n : Nat) : Char :=
  if n < 10 then Char.ofNat (48 + n) else Char.ofNat (87 + n)

/-- The escape `JSON.stringify` uses for one character of a string. -/
def escChar (c : Char) : List Char :=
  if c = '"' then ['\\', '"']
  else if c = '\\' then ['\\', '\\']
  else if c = '\n' then ['\\', 'n']
  else if c = '\r' then ['\\', 'r']
  else if c = '\t' then ['\\', 't']
  else if c.toNat = 8 then ['\\', 'b']
  else if c.toNat = 12 then ['\\', 'f']
  else if c.toNat < 32 then ['\\', 'u', '0', '0', hexDigit (c.toNat / 16), hexDigit (c.toNat % 16)]
  else [c]

def escBody : List Char → List Char
  | [] => []
  | c :: rest => escChar c ++ escBody rest

/-- `JSON.stringify` of a string value. -/
def jsQuote (s : String) : String :=
  ⟨'"' :: (escBody s.data ++ ['"'])⟩

/-! ## Compact `JSON.stringify` (no indent argument)

Needed by `formatInline`'s object branch and as the primitive cases of
all the printers. -/

mutual
def stringifyCompact : Json → String
  | .jnull => "null"
  | .jbool b => if b then "true" else "false"
  | .jnum m e => numToString m e
  | .jstr s => jsQuote s
  | .jarr l => "[" ++ compactElems l ++ "]"
  | .jobj fs => obStr ++ compactFields fs ++ cbStr
def compactElems : List Json → String
  | [] => ""
  | [x] => stringifyCompact x
  | x :: rest => stringifyCompact x ++ "," ++ compactElems rest
def compactFields : List (String × Json) → String
  | [] => ""
  | [(k, v)] => jsQuote k ++ ":" ++ stringifyCompact v
  | (k, v) :: rest => jsQuote k ++ ":" ++ stringifyCompact v ++ "," ++ compactFields rest
end

/-! ## The canonical serializer, from `src/lib/serializeProfile.ts`

`PRINT_WIDTH = 80`, `INDENT = '  '`.  String lengths in the width
conditions are JavaScript `.length`, i.e. `strLen16`. -/

/-- `INDENT.repeat depth`. -/
def indentRepeat (depth : Nat) : String :=
  ⟨List.replicate (2 * depth) ' '⟩

/-- `val === null || typeof val !== 'object'`: for parsed-JSON values,
everything except arrays and objects. -/
def isPrimitive : Json → Bool
  | .jarr _ => false
  | .jobj _ => false
  | _ => true

/- `formatInline`: primitives via `JSON.stringify`, arrays inline with
`", "` separators, objects via compact `JSON.stringify` (the source's
primitive and object branches both call `JSON.stringify`, which
`stringifyCompact` embeds for both). -/
mutual
def formatInline : Json → String
  | .jarr l => "[" ++ inlineElems l ++ "]"
  | v => stringifyCompact v
def inlineElems : List Json → String
  | [] => ""
  | [x] => formatInline x
  | x :: rest => formatInline x ++ ", " ++ inlineElems rest
end

/- `format`, `formatObject` and the array-element lines.  `formatObject`
takes the entry list of the object (`Object.entries`); `fmtEntry` is the
body of its `entries.map` lambda, with `comma` true on all entries but
the last, and `fmtElems` is the `arrLines` computation (elements one per
line at the given depth, `,` on all but the last, joined by LF). -/
mutual
def format (v : Json) (depth : Nat) : String :=
  match v with
  | .jarr l =>
    if l.any (fun x => !isPrimitive x) then
      "[" ++ "\n" ++ fmtElems l (depth + 1) ++ "\n" ++ indentRepeat depth ++ "]"
    else
      let compact := "[" ++ inlineElems l ++ "]"
      if strLen16 compact ≤ 80 then compact
      else "[" ++ "\n" ++ fmtElems l (depth + 1) ++ "\n" ++ indentRepeat depth ++ "]"
  | .jobj fs =>
    obStr ++ "\n" ++ formatObject fs depth ++ "\n" ++ indentRepeat depth ++ cbStr
  | v => stringifyCompact v

def fmtElems (l : List Json) (depth : Nat) : String :=
  match l with
  | [] => ""
  | [x] => indentRepeat depth ++ format x depth
  | x :: rest => indentRepeat depth ++ format x depth ++ "," ++ "\n" ++ fmtElems rest depth

def formatObject (fs : List (String × Json)) (depth : Nat) : String :=
  match fs with
  | [] => ""
  | [(k, v)] => fmtEntry k v depth false
  | (k, v) :: rest => fmtEntry k v depth true ++ "\n" ++ formatObject rest depth

def fmtEntry (k : String) (v : Json) (depth : Nat) (comma : Bool) : String :=
  let pref := indentRepeat (depth + 1)
  let keyStr := jsQuote k ++ ": "
  let suffix := if comma then "," else ""
  match v with
  | .jarr l =>
    if l.any (fun x => !isPrimitive x) then
      pref ++ keyStr ++ "[" ++ "\n" ++ fmtElems l (depth + 2) ++ "\n" ++ pref ++ "]" ++ suffix
    else
      let compact := "[" ++ inlineElems l ++ "]"
      if (strLen16 compact : Int) ≤ 80 - strLen16 keyStr - strLen16 pref then
        pref ++ keyStr ++ compact ++ suffix
      else
        pref ++ keyStr ++ "[" ++ "\n" ++ fmtElems l (depth + 2) ++ "\n" ++ pref ++ "]" ++ suffix
  | .jobj gs =>
    pref ++ keyStr ++ obStr ++ "\n" ++ formatObject gs (depth + 1) ++ "\n" ++ pref ++ cbStr ++ suffix
  | v => pref ++ keyStr ++ stringifyCompact v ++ suffix
end

/-! ## The serializer's field projection (`profileToJson` etc.)

These embed the `profileToJson`, `tabToJson`, `pageToJson`, `keyToJson`
functions of `serializeProfile.ts`, which read the profile object field
by field and rebuild it in canonical field order.  They are total here:
on shapes outside the normalizer's image, where the TypeScript would
throw or propagate `undefined`, the embedding substitutes `null`; all
claims apply them to normalized profiles only (see
`profileToJson_normal` below). -/

mutual
def pageToJson (page : Json) : Json :=
  let rows := (jsGet page "rows").getD .jnull
  match jsGet page "client_page" with
  | some cp =>
    if cp ≠ .jnull then .jobj [("rows", rows), ("client_page", cp)]
    else
      match h : jsGet page "keys" with
      | some (.jarr l) => .jobj [("rows", rows), ("keys", .jarr (keysToJson l))]
      | _ => .jobj [("rows", rows), ("keys", .jarr [])]
  | none =>
    match h : jsGet page "keys" with
    | some (.jarr l) => .jobj [("rows", rows), ("keys", .jarr (keysToJson l))]
    | _ => .jobj [("rows", rows), ("keys", .jarr [])]
termination_by sizeOf page
decreasing_by
  all_goals (have h9 := sizeOf_jsGet _ _ _ h; simp at h9 ⊢; omega)

def keysToJson : List Json → List Json
  | [] => []
  | k :: rest => keyToJson k :: keysToJson rest
termination_by l => sizeOf l
decreasing_by
  all_goals (simp; try omega)

def keyToJson (key : Json) : Json :=
  let base := [("label", (jsGet key "label").getD .jnull)]
  let withStation :=
    match jsGet key "station_id" with
    | some sid => if sid ≠ .jnull ∧ sid ≠ .jstr "" then base ++ [("station_id", sid)] else base
    | none => base
  match h : jsGet key "page" with
  | some pg => if pg ≠ .jnull then .jobj (withStation ++ [("page", pageToJson pg)]) else .jobj withStation
  | none => .jobj withStation
termination_by sizeOf key
decreasing_by
  have := sizeOf_jsGet _ _ _ h; omega
end

def tabToJson (tab : Json) : Json :=
  .jobj [("label", (jsGet tab "label").getD .jnull),
         ("page", pageToJson ((jsGet tab "page").getD .jnull))]

def profileToJson (profile : Json) : Json :=
  .jobj [("id", (jsGet profile "id").getD .jnull),
         ("type", (jsGet profile "type").getD .jnull),
         ("tabs", match jsGet profile "tabs" with
                  | some (.jarr ts) => .jarr (ts.map tabToJson)
                  | _ => .jnull)]

/-- `serializeProfile`: canonical text plus the trailing newline. -/
def serializeProfile (profile : Json) : String :=
  format (profileToJson profile) 0 ++ "\n"

/-! ## `JSON.stringify(value, null, 2)`

Used by the file-export path in `App.tsx` (`downloadProfile`). -/

mutual
def stringify2 : Json → Nat → String
  | .jarr [], _ => "[]"
  | .jarr l, d => "[" ++ "\n" ++ stringify2Elems l (d + 1) ++ "\n" ++ indentRepeat d ++ "]"
  | .jobj [], _ => obStr ++ cbStr
  | .jobj fs, d => obStr ++ "\n" ++ stringify2Fields fs (d + 1) ++ "\n" ++ indentRepeat d ++ cbStr
  | v, _ => stringifyCompact v
def stringify2Elems : List Json → Nat → String
  | [], _ => ""
  | [x], d => indentRepeat d ++ stringify2 x d
  | x :: rest, d => indentRepeat d ++ stringify2 x d ++ "," ++ "\n" ++ stringify2Elems rest d
def stringify2Fields : List (String × Json) → Nat → String
  | [], _ => ""
  | [(k, v)], d => indentRepeat d ++ jsQuote k ++ ": " ++ stringify2 v d
  | (k, v) :: rest, d =>
    indentRepeat d ++ jsQuote k ++ ": " ++ stringify2 v d ++ "," ++ "\n" ++ stringify2Fields rest d
end

/-- `JSON.stringify(v, null, 2)`. -/
def jsonStringifyPretty2 (v : Json) : String :=
  stringify2 v 0

/-! ## `JSON.parse`

A recursive-descent JSON reader over character lists, with a fuel
argument for termination; `jsonParse` supplies ample fuel (one more than
the input length; every nesting level consumes at least one character).
Strings: `\u` escapes that do not denote a Unicode scalar value (lone
surrogates, which Lean strings cannot hold) are replaced by U+FFFD; the
pretty-printers above never emit `\u` escapes for such inputs, so this
does not affect any round-trip statement. -/

def hexVal (c : Char) : Option Nat :=
  if 48 ≤ c.toNat ∧ c.toNat ≤ 57 then some (c.toNat - 48)
  else if 97 ≤ c.toNat ∧ c.toNat ≤ 102 then some (c.toNat - 87)
  else if 65 ≤ c.toNat ∧ c.toNat ≤ 70 then some (c.toNat - 55)
  else none

def escDecode (c : Char) : Option Char :=
  if c = '"' then some '"'
  else if c = '\\' then some '\\'
  else if c = '/' then some '/'
  else if c = 'b' then some (Char.ofNat 8)
  else if c = 'f' then some (Char.ofNat 12)
  else if c = 'n' then some '\n'
  else if c = 'r' then some '\r'
  else if c = 't' then some '\t'
  else none

/-- Parse the body of a string literal (after the opening quote), up to
and including the closing quote.  Unescaped control characters are
rejected, as in `JSON.parse`. -/
def parseStrBody : List Char → Option (List Char × List Char)
  | [] => none
  | c :: rest =>
    if c = '"' then some ([], rest)
    else if c = '\\' then
      match rest with
      | 'u' :: h1 :: h2 :: h3 :: h4 :: rest' => do
        let n1 ← hexVal h1
        let n2 ← hexVal h2
        let n3 ← hexVal h3
        let n4 ← hexVal h4
        let n := ((n1 * 16 + n2) * 16 + n3) * 16 + n4
        let ch := if n.isValidChar then Char.ofNat n else Char.ofNat 0xFFFD
        let (s, r) ← parseStrBody rest'
        some (ch :: s, r)
      | e :: rest' => do
        let ch ← escDecode e
        let (s, r) ← parseStrBody rest'
        some (ch :: s, r)
      | [] => none
    else if c.toNat < 32 then none
    else do
      let (s, r) ← parseStrBody rest
      some (c :: s, r)
termination_by cs => cs.length
decreasing_by all_goals (simp; try omega)

/-- Longest digit run at the head of the input. -/
def takeDigits : List Char → List Char × List Char
  | [] => ([], [])
  | c :: rest =>
    if isDigit c then
      let (ds, r) := takeDigits rest
      (c :: ds, r)
    else ([], c :: rest)

/-- Optional fraction part: `.` followed by at least one digit. -/
def parseFracPart : List Char → Option (List Char × List Char)
  | '.' :: r =>
    match takeDigits r with
    | ([], _) => none
    | (ds, rest) => some (ds, rest)
  | cs => some ([], cs)

/-- Optional exponent part: `e`/`E`, optional sign, at least one digit. -/
def parseExpPart (cs : List Char) : Option (Int × List Char) :=
  match cs with
  | c :: r =>
    if c = 'e' ∨ c = 'E' then
      let (sgn, r2) : Int × List Char :=
        match r with
        | '+' :: afterSign => (1, afterSign)
        | '-' :: afterSign => (-1, afterSign)
        | _ => (1, r)
      match takeDigits r2 with
      | ([], _) => none
      | (ds, rest) => some (sgn * (digitsVal 0 ds : Int), rest)
    else some (0, cs)
  | [] => some (0, [])

/-- Parse a number token and build the decimal `mant / 10 ^ exp`. -/
def parseNum (cs : List Char) : Option (Json × List Char) :=
  let neg : Bool := cs.head? = some '-'
  let cs1 : List Char := if neg then cs.tail else cs
  match takeDigits cs1 with
  | ([], _) => none
  | (ip, cs2) => do
    let (fp, cs3) ← parseFracPart cs2
    let (ex, cs4) ← parseExpPart cs3
    let mantNat : Nat := digitsVal 0 (ip ++ fp)
    let shift : Int := ex - fp.length
    let me : Int × Nat :=
      if 0 ≤ shift then ((mantNat : Int) * 10 ^ shift.toNat, 0)
      else ((mantNat : Int), (-shift).toNat)
    some (.jnum (if neg then -me.1 else me.1) me.2, cs4)

mutual
def parseVal : Nat → List Char → Option (Json × List Char)
  | 0, _ => none
  | fuel + 1, cs =>
    match skipWs cs with
    | [] => none
    | c :: rest =>
      if c = obChar then
        match skipWs rest with
        | c2 :: rest2 =>
          if c2 = cbChar then some (.jobj [], rest2)
          else
            match parseFields fuel (c2 :: rest2) with
            | some (fs, r) => some (.jobj fs, r)
            | none => none
        | [] => none
      else if c = '[' then
        match skipWs rest with
        | c2 :: rest2 =>
          if c2 = ']' then some (.jarr [], rest2)
          else
            match parseElems fuel (c2 :: rest2) with
            | some (vs, r) => some (.jarr vs, r)
            | none => none
        | [] => none
      else if c = '"' then
        match parseStrBody rest with
        | some (s, r) => some (.jstr ⟨s⟩, r)
        | none => none
      else if c = 't' then
        match rest with
        | 'r' :: 'u' :: 'e' :: r => some (.jbool true, r)
        | _ => none
      else if c = 'f' then
        match rest with
        | 'a' :: 'l' :: 's' :: 'e' :: r => some (.jbool false, r)
        | _ => none
      else if c = 'n' then
        match rest with
        | 'u' :: 'l' :: 'l' :: r => some (.jnull, r)
        | _ => none
      else parseNum (c :: rest)
termination_by fuel _ => (fuel, 0)

def parseElems : Nat → List Char → Option (List Json × List Char)
  | 0, _ => none
  | fuel + 1, cs => do
    let (v, rest) ← parseVal (fuel + 1) cs
    match skipWs rest with
    | c :: r2 =>
      if c = ',' then do
        let (vs, r3) ← parseElems fuel r2
        some (v :: vs, r3)
      else if c = ']' then some ([v], r2)
      else none
    | [] => none
termination_by fuel _ => (fuel, 1)

def parseFields : Nat → List Char → Option (List (String × Json) × List Char)
  | 0, _ => none
  | fuel + 1, cs =>
    match skipWs cs with
    | '"' :: r => do
      let (k, r2) ← parseStrBody r
      match skipWs r2 with
      | ':' :: r3 => do
        let (v, r4) ← parseVal (fuel + 1) r3
        match skipWs r4 with
        | c :: r5 =>
          if c = ',' then do
            let (fs, r6) ← parseFields fuel r5
            some ((⟨k⟩, v) :: fs, r6)
          else if c = cbChar then some ([(⟨k⟩, v)], r5)
          else none
        | [] => none
      | _ => none
    | _ => none
termination_by fuel _ => (fuel, 1)
end

/-- `JSON.parse`: a value, then only trailing whitespace. -/
def jsonParse (s : String) : Option Json :=
  match parseVal (s.data.length + 1) s.data with
  | some (v, rest) => if skipWs rest = [] then some v else none
  | none => none

/-! ## JavaScript coercions used by the validator and normalizer -/

/-- Characters trimmed by `String.prototype.trim` (the ASCII whitespace
characters, NBSP and the BOM; other Unicode space separators are not
modelled and do not occur in any statement below). -/
def isTrimWs (c : Char) : Bool :=
  c = ' ' || c = '\t' || c = '\n' || c = '\r' ||
  c.toNat = 0xb || c.toNat = 0xc || c.toNat = 0xa0 || c.toNat = 0xfeff

/-- JavaScript `s.trim()`. -/
def jsTrim (s : String) : String :=
  ⟨((s.data.dropWhile isTrimWs).reverse.dropWhile isTrimWs).reverse⟩

/- JavaScript `String(v)` on parsed-JSON values: strings unchanged,
`null` prints as `"null"` (but as `""` inside an array join), numbers in
decimal, arrays joined by `,`, objects as `[object Object]`. -/
mutual
def jsToString : Json → String
  | .jnull => "null"
  | .jbool b => if b then "true" else "false"
  | .jnum m e => numToString m e
  | .jstr s => s
  | .jarr l => jsJoinElems l
  | .jobj _ => "[object Object]"
def jsJoinElems : List Json → String
  | [] => ""
  | [x] => jsJoinElem x
  | x :: rest => jsJoinElem x ++ "," ++ jsJoinElems rest
def jsJoinElem : Json → String
  | .jnull => ""
  | v => jsToString v
end

/-! ## `validateProfile`, from `src/lib/validation.ts`

The result is the error list; `[]` means `ok` (with the profile being
the input value unchanged — the TypeScript merely casts it). -/

structure ValidationError where
  path : String
  message : String
  deriving Repr, DecidableEq

/-- Decimal rendering of an index, for error paths. -/
def idxStr (i : Nat) : String :=
  ⟨natDigits i⟩

/-- Is this value a JavaScript object (`typeof v === 'object'` and not
`null`)?  Arrays count. -/
def isJsObject : Json → Bool
  | .jobj _ => true
  | .jarr _ => true
  | _ => false

/-- The per-tab checks of `validateProfile` (the body of the
`tabs.forEach` loop), for the tab at index `i`. -/
def validateTab (i : Nat) (t : Json) : List ValidationError :=
  if ¬ isJsObject t then
    [⟨"tabs[" ++ idxStr i ++ "]", "Tab must be an object"⟩]
  else
    (match jsGet t "label" with
     | some (.jstr s) => if jsTrim s = "" then [⟨"tabs[" ++ idxStr i ++ "].label", "Tab label must be non-empty"⟩] else []
     | _ => [⟨"tabs[" ++ idxStr i ++ "].label", "Tab label must be non-empty"⟩]) ++
    (match jsGet t "page" with
     | some pg =>
       if ¬ isJsObject pg then [⟨"tabs[" ++ idxStr i ++ "].page", "Tab must have a page"⟩]
       else
         (match jsGet pg "rows" with
          | some (.jnum m e) => if m < 10 ^ e then [⟨"tabs[" ++ idxStr i ++ "].page.rows", "Rows must be at least 1"⟩] else []
          | _ => [⟨"tabs[" ++ idxStr i ++ "].page.rows", "Rows must be at least 1"⟩]) ++
         (match jsGet pg "keys" with
          | some (.jarr _) => []
          | some .jnull => []
          | some _ => [⟨"tabs[" ++ idxStr i ++ "].page.keys", "Keys must be an array"⟩]
          | none => [])
     | none => [⟨"tabs[" ++ idxStr i ++ "].page", "Tab must have a page"⟩])

def validateTabs (i : Nat) : List Json → List ValidationError
  | [] => []
  | t :: rest => validateTab i t ++ validateTabs (i + 1) rest

/-- `validateProfile`.  The two early returns (non-object input, wrong
`type` discriminant) produce a single error and skip everything else;
after that every check contributes independently to the error list, in
source order: `id`, `tabs`, then the per-tab checks. -/
def validateProfile (data : Json) : List ValidationError :=
  if ¬ isJsObject data then
    [⟨"", "Invalid JSON: expected an object"⟩]
  else if jsGet data "type" ≠ some (.jstr "Tabbed") then
    [⟨"type", "Only Tabbed profiles are supported"⟩]
  else
    (match jsGet data "id" with
     | some (.jstr s) => if jsTrim s = "" then [⟨"id", "Profile id must be a non-empty string"⟩] else []
     | _ => [⟨"id", "Profile id must be a non-empty string"⟩]) ++
    (match jsGet data "tabs" with
     | some (.jarr ts) =>
       (if ts = [] then [⟨"tabs", "Profile must have at least one tab"⟩] else []) ++
       validateTabs 0 ts
     | _ => [⟨"tabs", "Profile must have at least one tab"⟩])

/-! ## `normalizeProfile` / `normalizePage`, from `src/lib/validation.ts`

Embedded as `Json → Option Json`; `none` marks the inputs on which the
JavaScript throws a `TypeError` (member access on `null`, `.trim()` on a
non-string, `.map` on a non-array) — and, as a model boundary, the
inputs where a present `rows` field is neither a number nor `null` (the
JavaScript would coerce those with `ToNumber`, possibly to NaN, which
the decimal number model does not represent; no claim below exercises
that corner). -/

/-- `Math.max(1, Math.floor(page?.rows ?? 4))` — reading `rows` through
optional chaining from a possibly-absent page value. -/
def rowsOf (pageOpt : Option Json) : Option Int :=
  match pageOpt with
  | some (.jobj fs) =>
    match fieldGet fs "rows" with
    | some (.jnum m e) => some (max 1 (Int.fdiv m (10 ^ e)))
    | some .jnull => some 4
    | none => some 4
    | some _ => none
  | _ => some 4

/-- `page?.keys ?? []`, where a present non-null non-array value makes
the subsequent `.map` throw. -/
def keysOf (pageOpt : Option Json) : Option (List Json) :=
  match pageOpt with
  | some (.jobj fs) =>
    match fieldGet fs "keys" with
    | some (.jarr l) => some l
    | some .jnull => some []
    | none => some []
    | some _ => none
  | _ => some []

/-- `page?.client_page != null` — the value when the client-page branch
of `normalizeProfile` is taken. -/
def clientOf (pageOpt : Option Json) : Option Json :=
  match pageOpt with
  | some (.jobj fs) =>
    match fieldGet fs "client_page" with
    | some cp => if cp = .jnull then none else some cp
    | none => none
  | _ => none

/-- The normalized label of one key:
`Array.isArray(k.label) ? k.label.slice(0, 3).map((l) => String(l)) : []`.
Note: entries are stringified, not trimmed. -/
def normKeyLabel (k : Json) : List Json :=
  match jsGet k "label" with
  | some (.jarr l) => (l.take 3).map (fun x => .jstr (jsToString x))
  | _ => []

/-- The normalized `station_id` entry of one key: present exactly when
the source value is non-null, non-absent and not `''`, stringified. -/
def normKeyStation (k : Json) : List (String × Json) :=
  match jsGet k "station_id" with
  | some sid => if sid ≠ .jnull ∧ sid ≠ .jstr "" then [("station_id", .jstr (jsToString sid))] else []
  | none => []

theorem one_le_sizeOf_json (j : Json) : 1 ≤ sizeOf j := by
  cases j <;> (simp; try omega)

theorem sizeOf_nil_json_le (pg : Json) : sizeOf ([] : List Json) ≤ sizeOf pg := by
  have := one_le_sizeOf_json pg
  simp only [List.nil.sizeOf_spec]
  omega

theorem sizeOf_keysOf (pg : Json) (l : List Json) (h : keysOf (some pg) = some l) :
    sizeOf l ≤ sizeOf pg := by
  cases pg <;> simp [keysOf] at h
  case jnull => subst h; exact sizeOf_nil_json_le _
  case jbool => subst h; exact sizeOf_nil_json_le _
  case jnum => subst h; exact sizeOf_nil_json_le _
  case jstr => subst h; exact sizeOf_nil_json_le _
  case jarr => subst h; exact sizeOf_nil_json_le _
  case jobj fs =>
    rcases hf : fieldGet fs "keys" with - | v
    · rw [hf] at h
      simp at h
      subst h
      exact sizeOf_nil_json_le _
    · rw [hf] at h
      have hs := sizeOf_fieldGet _ _ _ hf
      cases v <;> simp at h
      case jnull => subst h; exact sizeOf_nil_json_le _
      case jarr l' =>
        subst h
        simp at hs ⊢
        omega

mutual
def normalizePage (pg : Json) : Option Json :=
  match rowsOf (some pg) with
  | none => none
  | some rows =>
    match h : keysOf (some pg) with
    | none => none
    | some keys => do
      let keys' ← normKeys keys
      pure (.jobj [("rows", .jnum rows 0), ("keys", .jarr keys')])
termination_by (sizeOf pg, 1)
decreasing_by
  have hle := sizeOf_keysOf _ _ h
  rcases Nat.lt_or_ge (sizeOf keys) (sizeOf pg) with hlt | hge
  · exact Prod.Lex.left _ _ hlt
  · have heq : sizeOf keys = sizeOf pg := Nat.le_antisymm hle hge
    rw [heq]
    exact Prod.Lex.right _ (by omega)

def normKeys : List Json → Option (List Json)
  | [] => some []
  | k :: rest => do
    let a ← normKey k
    let b ← normKeys rest
    pure (a :: b)
termination_by l => (sizeOf l, 0)
decreasing_by
  all_goals (simp; try omega)

def normKey (k : Json) : Option Json :=
  if k = .jnull then none
  else do
    let pagePart ←
      match h : jsGet k "page" with
      | some pg =>
        if pg = .jnull then pure ([] : List (String × Json))
        else do
          let p' ← normalizePage pg
          pure [("page", p')]
      | none => pure ([] : List (String × Json))
    pure (.jobj ([("label", .jarr (normKeyLabel k))] ++ normKeyStation k ++ pagePart))
termination_by (sizeOf k, 2)
decreasing_by
  have := sizeOf_jsGet _ _ _ h
  exact Prod.Lex.left _ _ this
end

/-- One tab of `normalizeProfile`'s `tabs.map`. -/
def normTab (t : Json) : Option Json := do
  let label ←
    match jsGet t "label" with
    | some (.jstr s) => some s
    | _ => none
  let pageOpt := jsGet t "page"
  match clientOf pageOpt with
  | some cp => do
    let rows ← rowsOf pageOpt
    pure (.jobj [("label", .jstr (jsTrim label)),
                 ("page", .jobj [("rows", .jnum rows 0), ("client_page", cp)])])
  | none => do
    let rows ← rowsOf pageOpt
    let keys ← keysOf pageOpt
    let keys' ← normKeys keys
    pure (.jobj [("label", .jstr (jsTrim label)),
                 ("page", .jobj [("rows", .jnum rows 0), ("keys", .jarr keys')])])

def normTabs : List Json → Option (List Json)
  | [] => some []
  | t :: rest => do
    let a ← normTab t
    let b ← normTabs rest
    pure (a :: b)

/-- `normalizeProfile`. -/
def normalizeProfile (j : Json) : Option Json := do
  let id ←
    match jsGet j "id" with
    | some (.jstr s) => some s
    | _ => none
  let ts ←
    match jsGet j "tabs" with
    | some (.jarr ts) => some ts
    | _ => none
  let tabs' ← normTabs ts
  pure (.jobj [("id", .jstr (jsTrim id)), ("type", .jstr "Tabbed"), ("tabs", .jarr tabs')])

/-! ## The typed in-editor document model, from `src/types.ts`

`TabbedProfile` → `Tab` → `DirectAccessPage` → `DirectAccessKey`.  The
`type: 'Tabbed'` discriminant is a constant and is reattached by
`memJson`.  Note one quirk of the repository faithfully *not* papered
over here: `types.ts` declares `Tab.label : string[]` (the shape used by
`App.tsx` and by `createDefaultProfile`), while `validation.ts` treats
the tab label as a single string; the typed model below follows
`types.ts`, the `Json`-level normalizer above follows `validation.ts`. -/

/- A single nested inductive (mutual inductives compile recursion on
them to well-founded definitions that the kernel cannot evaluate): a
key is the triple (label, station_id, page). -/
inductive DirectAccessPage where
  | mk (rows : Int)
       (keys : Option (List (List String × Option String × Option DirectAccessPage)))
       (client_page : Option Json) : DirectAccessPage

/-- A `DirectAccessKey`: `(label, station_id, subpage)`. -/
abbrev DirectAccessKey := List String × Option String × Option DirectAccessPage

def DirectAccessPage.rows : DirectAccessPage → Int
  | .mk r _ _ => r

def DirectAccessPage.keys : DirectAccessPage → Option (List DirectAccessKey)
  | .mk _ k _ => k

def DirectAccessPage.client : DirectAccessPage → Option Json
  | .mk _ _ c => c

def keyLabel (k : DirectAccessKey) : List String := k.1

def keyStation (k : DirectAccessKey) : Option String := k.2.1

def keyPage (k : DirectAccessKey) : Option DirectAccessPage := k.2.2

mutual
def pageBEq : DirectAccessPage → DirectAccessPage → Bool
  | .mk r k c, .mk r' k' c' =>
    r = r' && c = c' &&
    (match k, k' with
     | none, none => true
     | some a, some b => keyListBEq a b
     | _, _ => false)
def keyListBEq : List DirectAccessKey → List DirectAccessKey → Bool
  | [], [] => true
  | (l, s, p) :: xs, (l', s', p') :: ys =>
    l = l' && s = s' && pageOptBEq p p' && keyListBEq xs ys
  | _, _ => false
def pageOptBEq : Option DirectAccessPage → Option DirectAccessPage → Bool
  | none, none => true
  | some a, some b => pageBEq a b
  | _, _ => false
end

mutual
theorem pageBEq_eq : ∀ a b : DirectAccessPage, pageBEq a b = true ↔ a = b
  | .mk r none c, .mk r' none c' => by simp [pageBEq]
  | .mk r (some a) c, .mk r' (some b) c' => by
    simp [pageBEq, keyListBEq_eq a b]
    tauto
  | .mk r none c, .mk r' (some _) c' => by simp [pageBEq]
  | .mk r (some _) c, .mk r' none c' => by simp [pageBEq]
theorem keyListBEq_eq : ∀ a b : List DirectAccessKey, keyListBEq a b = true ↔ a = b
  | [], [] => by simp [keyListBEq]
  | (l, s, p) :: xs, (l', s', p') :: ys => by
    simp [keyListBEq, pageOptBEq_eq p p', keyListBEq_eq xs ys, Prod.ext_iff, and_assoc]
  | [], _ :: _ => by simp [keyListBEq]
  | _ :: _, [] => by simp [keyListBEq]
theorem pageOptBEq_eq : ∀ a b : Option DirectAccessPage, pageOptBEq a b = true ↔ a = b
  | none, none => by simp [pageOptBEq]
  | some a, some b => by simp [pageOptBEq, pageBEq_eq a b]
  | none, some _ => by simp [pageOptBEq]
  | some _, none => by simp [pageOptBEq]
end

instance : DecidableEq DirectAccessPage := fun a b =>
  decidable_of_iff (pageBEq a b = true) (pageBEq_eq a b)

structure Tab where
  label : List String
  page : DirectAccessPage
  deriving DecidableEq

structure TabbedProfile where
  id : String
  tabs : List Tab
  deriving DecidableEq

/-- `createDefaultProfile` from `src/types.ts`. -/
def createDefaultProfile : TabbedProfile :=
  ⟨"NEW", [⟨["Tab 1"], .mk 4 (some []) none⟩]⟩

/-! ## The in-memory profile as a JSON value

`memJson` is the JavaScript object the editor holds (fields in
construction order), as consumed by `JSON.stringify` in
`downloadProfile` and by the field reads of `serializeProfile`. -/

mutual
def pageMemJson : DirectAccessPage → Json
  | .mk r k c =>
    .jobj ([("rows", .jnum r 0)] ++
      (match k with
       | some ks => [("keys", .jarr (keyListMemJson ks))]
       | none => []) ++
      (match c with
       | some cp => [("client_page", cp)]
       | none => []))
def keyListMemJson : List DirectAccessKey → List Json
  | [] => []
  | (l, s, p) :: rest =>
    .jobj ([("label", .jarr (l.map .jstr))] ++
      (match s with
       | some sid => [("station_id", .jstr sid)]
       | none => []) ++
      (match p with
       | some pg => [("page", pageMemJson pg)]
       | none => [])) :: keyListMemJson rest
end

/-- The in-memory JSON of a single key (the head case of
`keyListMemJson`). -/
def keyMemJson (k : DirectAccessKey) : Json :=
  .jobj ([("label", .jarr (keyLabel k |>.map .jstr))] ++
    (match keyStation k with
     | some sid => [("station_id", .jstr sid)]
     | none => []) ++
    (match keyPage k with
     | some pg => [("page", pageMemJson pg)]
     | none => []))

def tabMemJson (t : Tab) : Json :=
  .jobj [("label", .jarr (t.label.map .jstr)), ("page", pageMemJson t.page)]

def memJson (p : TabbedProfile) : Json :=
  .jobj [("id", .jstr p.id), ("type", .jstr "Tabbed"), ("tabs", .jarr (p.tabs.map tabMemJson))]

/-- Does this suffix end the string (JavaScript `String.prototype.endsWith`)? -/
def strEndsWith (s t : String) : Bool :=
  t.data.isSuffixOf s.data

/-- `downloadProfile` from `App.tsx`: the name and content of the file
handed to the browser.  The content is
`JSON.stringify(profile, null, 2)`; the name gets `.json` appended
unless already present. -/
def downloadProfile (profile : TabbedProfile) (filename : String) : String × String :=
  (if strEndsWith filename ".json" then filename else filename ++ ".json",
   jsonStringifyPretty2 (memJson profile))

/-- `serializeProfile` applied to the in-editor (typed) profile: the
TypeScript reads the same in-memory object that `memJson` renders. -/
def serializeTyped (p : TabbedProfile) : String :=
  serializeProfile (memJson p)

/-! ## History manager, from `src/hooks/useProfileHistory.ts`

Generic in the document type, exactly as the hook is generic in what it
stores. -/

structure HistoryState (D : Type) where
  history : List D
  index : Nat

def initHistory {D : Type} (d : D) : HistoryState D :=
  ⟨[d], 0⟩

/-- `history[index]` — the current document (`undefined`, i.e. `none`,
if the index were out of range; the invariant theorem shows it never is). -/
def currentDoc {D : Type} (s : HistoryState D) : Option D :=
  s.history.get? s.index

/-- `mutateProfile`: truncate after the cursor, append `updater current`,
move the cursor to the new end.  The `none` case (cursor out of range)
is unreachable from the initial state — see the invariant theorem — and
keeps the state unchanged here. -/
def mutateProfile {D : Type} (updater : D → D) (s : HistoryState D) : HistoryState D :=
  match s.history.get? s.index with
  | some cur =>
    let truncated := s.history.take (s.index + 1)
    ⟨truncated ++ [updater cur], truncated.length⟩
  | none => s

/-- `replaceProfile`: reset to a single-snapshot history. -/
def replaceProfile {D : Type} (p : D) (_s : HistoryState D) : HistoryState D :=
  ⟨[p], 0⟩

/-- `undo`: step the cursor back unless at 0. -/
def undo {D : Type} (s : HistoryState D) : HistoryState D :=
  if 0 < s.index then ⟨s.history, s.index - 1⟩ else s

/-- `redo`: step the cursor forward unless at the end. -/
def redo {D : Type} (s : HistoryState D) : HistoryState D :=
  if s.index < s.history.length - 1 then ⟨s.history, s.index + 1⟩ else s

inductive HistoryOp (D : Type) where
  | mutate (updater : D → D) : HistoryOp D
  | replace (p : D) : HistoryOp D
  | undo : HistoryOp D
  | redo : HistoryOp D

def applyOp {D : Type} : HistoryOp D → HistoryState D → HistoryState D
  | .mutate u, s => mutateProfile u s
  | .replace p, s => replaceProfile p s
  | .undo, s => undo s
  | .redo, s => redo s

def applyOps {D : Type} : List (HistoryOp D) → HistoryState D → HistoryState D
  | [], s => s
  | op :: rest, s => applyOps rest (applyOp op s)

/-! ## Path-addressed access and mutation, from `App.tsx`

A subpage path is a list of key indices.  Indices are modelled as `Nat`
(the UI produces non-negative indices only; a JavaScript negative index
reads `undefined`, i.e. behaves like any other out-of-range index in
`getPageAtPath`, and fails the `ki >= 0` guard in the mutators). -/

/-- The loop of `getPageAtPath` below the tab lookup. -/
def walkPath : List Nat → DirectAccessPage → Option DirectAccessPage
  | [], page => some page
  | ki :: rest, page =>
    match (page.keys.getD []).get? ki with
    | some key =>
      match keyPage key with
      | some sub => walkPath rest sub
      | none => none
    | none => none

def getPageAtPath (p : TabbedProfile) (tabIndex : Nat) (path : List Nat) :
    Option DirectAccessPage :=
  match p.tabs.get? tabIndex with
  | some tab => walkPath path tab.page
  | none => none

/-- `getKeysAtPath`: `[]` for unresolvable paths and for client pages. -/
def getKeysAtPath (p : TabbedProfile) (tabIndex : Nat) (path : List Nat) :
    List DirectAccessKey :=
  match getPageAtPath p tabIndex path with
  | some page =>
    match page.client with
    | some cp => if cp = .jnull then page.keys.getD [] else []
    | none => page.keys.getD []
  | none => []

/-- Replace the element at an index, identity when out of range —
`tabs.map((t, i) => i === tabIndex ? f t : t)`. -/
def updateAt {α : Type} (f : α → α) : Nat → List α → List α
  | _, [] => []
  | 0, x :: rest => f x :: rest
  | n + 1, x :: rest => x :: updateAt f n rest

/-- The recursive `apply` of `mutatePageAtPath`: walk the path; at its
end apply `mutate`; off the end (index out of range or no subpage) leave
the keys as they are.  Note the faithful quirk: every page the walk
touches is rebuilt as `{ ...page, keys: nextKeys }`, which *materializes*
an absent `keys` field as `[]`. -/
def applyMutate (mutate : DirectAccessPage → DirectAccessPage) :
    List Nat → DirectAccessPage → DirectAccessPage
  | [], page => mutate page
  | ki :: rest, page =>
    let keys := page.keys.getD []
    let nextKeys :=
      match keys.get? ki with
      | some key =>
        match keyPage key with
        | some sub =>
          updateAt (fun k => (keyLabel k, keyStation k, some (applyMutate mutate rest sub))) ki keys
        | none => keys
      | none => keys
    .mk page.rows (some nextKeys) page.client

/-- `mutatePageAtPath` (with the surrounding `mutateProfile` updater
made explicit: this is the pure profile-to-profile function). -/
def mutatePageAtPath (p : TabbedProfile) (tabIndex : Nat) (path : List Nat)
    (mutate : DirectAccessPage → DirectAccessPage) : TabbedProfile :=
  match p.tabs.get? tabIndex with
  | none => p
  | some _ =>
    ⟨p.id, updateAt (fun t => ⟨t.label, applyMutate mutate path t.page⟩) tabIndex p.tabs⟩

/-- The recursive `apply` of `updateKeyAtPath`: same spine walk, and at
the path's end rewrite the key at `keyIndex` when in range. -/
def applyKeyUpdate (keyIndex : Nat) (updater : DirectAccessKey → DirectAccessKey) :
    List Nat → DirectAccessPage → DirectAccessPage
  | [], page =>
    let keys := page.keys.getD []
    let nextKeys :=
      match keys.get? keyIndex with
      | some key => updateAt (fun _ => updater key) keyIndex keys
      | none => keys
    .mk page.rows (some nextKeys) page.client
  | ki :: rest, page =>
    let keys := page.keys.getD []
    let nextKeys :=
      match keys.get? ki with
      | some key =>
        match keyPage key with
        | some sub =>
          updateAt (fun k => (keyLabel k, keyStation k, some (applyKeyUpdate keyIndex updater rest sub))) ki keys
        | none => keys
      | none => keys
    .mk page.rows (some nextKeys) page.client

def updateKeyAtPath (p : TabbedProfile) (tabIndex : Nat) (path : List Nat)
    (keyIndex : Nat) (updater : DirectAccessKey → DirectAccessKey) : TabbedProfile :=
  match p.tabs.get? tabIndex with
  | none => p
  | some _ =>
    ⟨p.id, updateAt (fun t => ⟨t.label, applyKeyUpdate keyIndex updater path t.page⟩) tabIndex p.tabs⟩

/-! ## Clipboard and selection, from `App.tsx`

The relevant component state: the profile, the current tab and subpage
path, the selected indices and the clipboard (`keyClipboardRef`).  The
clipboard holds deep copies — JSON round-trips of the keys, which for
the typed model are the values themselves. -/

structure EditorState where
  profile : TabbedProfile
  selectedTabIndex : Nat
  subpagePath : List Nat
  selectedKeyIndices : List Nat
  clipboard : Option (List DirectAccessKey × Bool)

def currentKeysOf (s : EditorState) : List DirectAccessKey :=
  getKeysAtPath s.profile s.selectedTabIndex s.subpagePath

/-- Ascending insertion sort — `selectedKeyIndices.sort((a, b) => a - b)`. -/
def insertSorted (n : Nat) : List Nat → List Nat
  | [] => [n]
  | x :: rest => if n ≤ x then n :: x :: rest else x :: insertSorted n rest

def sortAsc : List Nat → List Nat
  | [] => []
  | x :: rest => insertSorted x (sortAsc rest)

/-- `.map((i) => currentKeys[i]).filter(Boolean)`. -/
def pickKeys (keys : List DirectAccessKey) : List Nat → List DirectAccessKey
  | [] => []
  | i :: rest =>
    match keys.get? i with
    | some k => k :: pickKeys keys rest
    | none => pickKeys keys rest

/-- `keys.filter((_, i) => !selectedKeyIndices.includes(i))`, with `i`
counted from `start`. -/
def dropSelected (sel : List Nat) (start : Nat) : List DirectAccessKey → List DirectAccessKey
  | [] => []
  | k :: rest =>
    if start ∈ sel then dropSelected sel (start + 1) rest
    else k :: dropSelected sel (start + 1) rest

/-- `Math.max(...sel)` over a list of naturals. -/
def listMax : List Nat → Nat
  | [] => 0
  | x :: rest => max x (listMax rest)

/-- `copyKeys`: snapshot the selected keys (ascending) into the
clipboard with `cut: false`.  The in-place `.sort` of the selection is
reflected by storing the sorted selection back. -/
def copyKeys (s : EditorState) : EditorState :=
  if s.selectedKeyIndices = [] then s
  else
    let sorted := sortAsc s.selectedKeyIndices
    let keys := pickKeys (currentKeysOf s) sorted
    if keys = [] then { s with selectedKeyIndices := sorted }
    else { s with selectedKeyIndices := sorted, clipboard := some (keys, false) }

/-- `cutKeys`: like `copyKeys` with `cut: true`, and additionally remove
the selected keys from the current page and clear the selection. -/
def cutKeys (s : EditorState) : EditorState :=
  if s.selectedKeyIndices = [] then s
  else
    let sorted := sortAsc s.selectedKeyIndices
    let keys := pickKeys (currentKeysOf s) sorted
    if keys = [] then { s with selectedKeyIndices := sorted }
    else
      { s with
        profile := mutatePageAtPath s.profile s.selectedTabIndex s.subpagePath
          (fun page => .mk page.rows (some (dropSelected sorted 0 (page.keys.getD []))) page.client),
        selectedKeyIndices := [],
        clipboard := some (keys, true) }

/-- `pasteKeys`: insert the clipboard block after the highest selected
index (at the end when nothing is selected), select the inserted range,
and consume the clipboard when it came from a cut. -/
def pasteKeys (s : EditorState) : EditorState :=
  match s.clipboard with
  | none => s
  | some (clipKeys, cut) =>
    if clipKeys = [] then s
    else
      let insertAt :=
        if s.selectedKeyIndices ≠ [] then listMax s.selectedKeyIndices + 1
        else (currentKeysOf s).length
      { s with
        profile := mutatePageAtPath s.profile s.selectedTabIndex s.subpagePath
          (fun page =>
            let keys := page.keys.getD []
            .mk page.rows (some (keys.take insertAt ++ clipKeys ++ keys.drop insertAt)) page.client),
        selectedKeyIndices := (List.range clipKeys.length).map (insertAt + ·),
        clipboard := if cut then none else s.clipboard }

/-!
# Theorems

## C10 — the history invariant
-/

/-- The invariant of claim C10, for one history state. -/
def HistoryInv {D : Type} (s : HistoryState D) : Prop :=
  s.index < s.history.length

theorem historyInv_step {D : Type} (op : HistoryOp D) (s : HistoryState D)
    (h : HistoryInv s) : HistoryInv (applyOp op s) := by
  rcases s with ⟨hist, idx⟩
  have h' : idx < hist.length := h
  cases op with
  | mutate u =>
    simp only [applyOp, mutateProfile]
    split
    · simp [HistoryInv]
    · exact h
  | replace p =>
    simp [applyOp, replaceProfile, HistoryInv]
  | undo =>
    simp only [applyOp, undo]
    split
    · show idx - 1 < hist.length
      omega
    · exact h
  | redo =>
    simp only [applyOp, redo]
    split
    · rename_i hlt
      show idx + 1 < hist.length
      omega
    · exact h

theorem historyInv_ops {D : Type} (ops : List (HistoryOp D)) (s : HistoryState D)
    (h : HistoryInv s) : HistoryInv (applyOps ops s) := by
  induction ops generalizing s with
  | nil => simpa [applyOps] using h
  | cons op rest ih => exact ih _ (historyInv_step op s h)

/-- C10: starting from the initial single-snapshot state, after any
sequence of Mutate, Replace, Undo and Redo operations the snapshot
stack is non-empty, the cursor satisfies `index ≤ length - 1`, and the
current document (the snapshot at the cursor) is defined. -/
theorem c10_history_invariant {D : Type} (d0 : D) (ops : List (HistoryOp D)) :
    (applyOps ops (initHistory d0)).history ≠ [] ∧
    (applyOps ops (initHistory d0)).index ≤ (applyOps ops (initHistory d0)).history.length - 1 ∧
    (currentDoc (applyOps ops (initHistory d0))).isSome := by
  have hinv : HistoryInv (applyOps ops (initHistory d0)) :=
    historyInv_ops ops _ (by simp [HistoryInv, initHistory])
  unfold HistoryInv at hinv
  refine ⟨?_, by omega, ?_⟩
  · intro hnil
    rw [hnil] at hinv
    simp at hinv
  · unfold currentDoc
    rw [List.get?_eq_getElem?, List.getElem?_eq_getElem hinv]
    rfl

/-! ## C3 — the undo/redo scenario -/

theorem redo_fixpoint_replicate {D : Type} (s : HistoryState D)
    (hfix : redo s = s) (k : Nat) :
    applyOps (List.replicate k .redo) s = s := by
  induction k with
  | zero => rfl
  | succ n ih =>
    rw [List.replicate_succ]
    show applyOps (List.replicate n .redo) (redo s) = s
    rw [hfix, ih]

/-- C3: from `d0`, three mutations produce `d1, d2, d3`; three undos
return to `d0`, three redos return to `d3`; after one undo (current
`d2`) a new mutation discards `d3`: the new stack is `[d0, d1, d2, d4]`
and no sequence of redos can make `d3` current again (where
`d4 = u4 d2` is the new edit's result, assumed distinct from `d3`). -/
theorem c3_history_scenario {D : Type} (d0 : D) (u1 u2 u3 u4 : D → D)
    (hne : u4 (u2 (u1 d0)) ≠ u3 (u2 (u1 d0))) :
    currentDoc (undo (undo (undo (mutateProfile u3 (mutateProfile u2 (mutateProfile u1
      (initHistory d0))))))) = some d0 ∧
    currentDoc (redo (redo (redo (undo (undo (undo (mutateProfile u3 (mutateProfile u2
      (mutateProfile u1 (initHistory d0)))))))))) = some (u3 (u2 (u1 d0))) ∧
    (mutateProfile u4 (undo (mutateProfile u3 (mutateProfile u2 (mutateProfile u1
      (initHistory d0)))))).history = [d0, u1 d0, u2 (u1 d0), u4 (u2 (u1 d0))] ∧
    ∀ k : Nat,
      currentDoc (applyOps (List.replicate k .redo)
        (mutateProfile u4 (undo (mutateProfile u3 (mutateProfile u2 (mutateProfile u1
          (initHistory d0))))))) ≠ some (u3 (u2 (u1 d0))) := by
  have hs3 : mutateProfile u3 (mutateProfile u2 (mutateProfile u1 (initHistory d0))) =
      ⟨[d0, u1 d0, u2 (u1 d0), u3 (u2 (u1 d0))], 3⟩ := by
    simp [mutateProfile, initHistory, List.get?]
  have hs' : mutateProfile u4 (undo (mutateProfile u3 (mutateProfile u2 (mutateProfile u1
      (initHistory d0))))) = ⟨[d0, u1 d0, u2 (u1 d0), u4 (u2 (u1 d0))], 3⟩ := by
    rw [hs3]
    simp [undo, mutateProfile, List.get?]
  refine ⟨?_, ?_, ?_, ?_⟩
  · rw [hs3]
    simp [undo, currentDoc, List.get?]
  · rw [hs3]
    simp [undo, redo, currentDoc, List.get?]
  · rw [hs']
  · intro k
    rw [hs', redo_fixpoint_replicate _ (by simp [redo])]
    simpa [currentDoc, List.get?] using fun h => hne h

/-- Concrete instance of the C3 scenario on natural numbers. -/
theorem c3_history_scenario_witness :
    (10 : Nat) + 10 ≠ 3 ∧
    currentDoc (undo (undo (undo (mutateProfile (· + 1) (mutateProfile (· + 1)
      (mutateProfile (· + 1) (initHistory (0 : Nat)))))))) = some 0 :=
  ⟨by decide,
   (c3_history_scenario 0 (· + 1) (· + 1) (· + 1) (· + 10) (by decide)).1⟩

/-! ## C4 — the path mutators on unresolvable paths

The claim as stated is false: the mutators rebuild every page the walk
touches as `{ ...page, keys: nextKeys }`, so a page whose `keys` field
is absent (a client page, or a `{rows}`-only page) gains an explicit
`keys: []` even when nothing else happens.  On profiles whose pages all
carry a present `keys` list the claim holds. -/

/- Every page of the tree stores a present `keys` list. -/
mutual
def pageKeysTotal : DirectAccessPage → Bool
  | .mk _ none _ => false
  | .mk _ (some ks) _ => keyListKeysTotal ks
def keyListKeysTotal : List DirectAccessKey → Bool
  | [] => true
  | (_, _, p) :: rest =>
    (match p with
     | none => true
     | some pg => pageKeysTotal pg) && keyListKeysTotal rest
end

def profileKeysTotal (p : TabbedProfile) : Bool :=
  p.tabs.all (fun t => pageKeysTotal t.page)

theorem updateAt_self {α : Type} (f : α → α) (n : Nat) (l : List α) (x : α)
    (hget : l[n]? = some x) (hfx : f x = x) : updateAt f n l = l := by
  induction l generalizing n with
  | nil => simp at hget
  | cons y rest ih =>
    cases n with
    | zero =>
      simp only [List.getElem?_cons_zero] at hget
      cases hget
      simp [updateAt, hfx]
    | succ m =>
      simp only [List.getElem?_cons_succ] at hget
      simp [updateAt, ih m hget]

theorem keyListKeysTotal_cons : ∀ (y : DirectAccessKey) (rest : List DirectAccessKey),
    keyListKeysTotal (y :: rest) =
      ((match keyPage y with
        | none => true
        | some pg => pageKeysTotal pg) && keyListKeysTotal rest)
  | (_, _, none), _ => rfl
  | (_, _, some _), _ => rfl

theorem keyListKeysTotal_get {ks : List DirectAccessKey} {i : Nat} {k : DirectAccessKey}
    (h : keyListKeysTotal ks = true) (hget : ks[i]? = some k) :
    ∀ pg, keyPage k = some pg → pageKeysTotal pg = true := by
  induction ks generalizing i with
  | nil => simp at hget
  | cons y rest ih =>
    rcases y with ⟨l, st, p⟩
    have h2 := h
    rw [keyListKeysTotal_cons, Bool.and_eq_true] at h2
    cases i with
    | zero =>
      simp only [List.getElem?_cons_zero] at hget
      cases hget
      intro pg hpg
      rw [hpg] at h2
      simpa using h2.1
    | succ m =>
      simp only [List.getElem?_cons_succ] at hget
      exact ih h2.2 hget

theorem applyMutate_unresolved (f : DirectAccessPage → DirectAccessPage)
    (path : List Nat) (page : DirectAccessPage)
    (htot : pageKeysTotal page = true) (hwalk : walkPath path page = none) :
    applyMutate f path page = page := by
  induction path generalizing page with
  | nil => simp [walkPath] at hwalk
  | cons ki rest ih =>
    rcases page with ⟨r, ks?, c⟩
    rcases ks? with - | ks
    · rw [pageKeysTotal] at htot; cases htot
    · rw [pageKeysTotal] at htot
      rcases hget : ks[ki]? with - | key
      · simp [applyMutate, DirectAccessPage.keys, hget,
          DirectAccessPage.rows, DirectAccessPage.client]
      · simp only [walkPath, DirectAccessPage.keys, Option.getD_some,
          List.get?_eq_getElem?, hget] at hwalk
        rcases hpg : keyPage key with - | sub
        · simp only [hpg] at hwalk
          simp [applyMutate, DirectAccessPage.keys, hget, hpg,
            DirectAccessPage.rows, DirectAccessPage.client]
        · simp only [hpg] at hwalk
          have hkt := keyListKeysTotal_get htot hget sub hpg
          have hrec := ih sub hkt hwalk
          have hfix : (fun k => (keyLabel k, keyStation k, some (applyMutate f rest sub))) key = key := by
            rcases key with ⟨kl, kst, kpg⟩
            simp only [keyPage] at hpg
            subst hpg
            simp [keyLabel, keyStation, hrec]
          have hupd : updateAt (fun k => (keyLabel k, keyStation k, some (applyMutate f rest sub))) ki ks = ks :=
            updateAt_self _ _ _ _ hget hfix
          simp [applyMutate, DirectAccessPage.keys, hget, hpg,
            DirectAccessPage.rows, DirectAccessPage.client, hupd]

theorem applyKeyUpdate_unresolved (keyIndex : Nat)
    (updater : DirectAccessKey → DirectAccessKey)
    (path : List Nat) (page : DirectAccessPage)
    (htot : pageKeysTotal page = true) (hwalk : walkPath path page = none) :
    applyKeyUpdate keyIndex updater path page = page := by
  induction path generalizing page with
  | nil => simp [walkPath] at hwalk
  | cons ki rest ih =>
    rcases page with ⟨r, ks?, c⟩
    rcases ks? with - | ks
    · rw [pageKeysTotal] at htot; cases htot
    · rw [pageKeysTotal] at htot
      rcases hget : ks[ki]? with - | key
      · simp [applyKeyUpdate, DirectAccessPage.keys, hget,
          DirectAccessPage.rows, DirectAccessPage.client]
      · simp only [walkPath, DirectAccessPage.keys, Option.getD_some,
          List.get?_eq_getElem?, hget] at hwalk
        rcases hpg : keyPage key with - | sub
        · simp only [hpg] at hwalk
          simp [applyKeyUpdate, DirectAccessPage.keys, hget, hpg,
            DirectAccessPage.rows, DirectAccessPage.client]
        · simp only [hpg] at hwalk
          have hkt := keyListKeysTotal_get htot hget sub hpg
          have hrec := ih sub hkt hwalk
          have hfix : (fun k => (keyLabel k, keyStation k, some (applyKeyUpdate keyIndex updater rest sub))) key = key := by
            rcases key with ⟨kl, kst, kpg⟩
            simp only [keyPage] at hpg
            subst hpg
            simp [keyLabel, keyStation, hrec]
          have hupd : updateAt (fun k => (keyLabel k, keyStation k, some (applyKeyUpdate keyIndex updater rest sub))) ki ks = ks :=
            updateAt_self _ _ _ _ hget hfix
          simp [applyKeyUpdate, DirectAccessPage.keys, hget, hpg,
            DirectAccessPage.rows, DirectAccessPage.client, hupd]

theorem applyKeyUpdate_outOfRange (keyIndex : Nat)
    (updater : DirectAccessKey → DirectAccessKey)
    (path : List Nat) (page tpage : DirectAccessPage)
    (htot : pageKeysTotal page = true) (hwalk : walkPath path page = some tpage)
    (hidx : (tpage.keys.getD []).length ≤ keyIndex) :
    applyKeyUpdate keyIndex updater path page = page := by
  induction path generalizing page with
  | nil =>
    rw [walkPath] at hwalk
    have heq : page = tpage := by injection hwalk
    subst heq
    rcases page with ⟨r, ks?, c⟩
    rcases ks? with - | ks
    · rw [pageKeysTotal] at htot; cases htot
    · rcases hget : ks[keyIndex]? with - | key
      · simp [applyKeyUpdate, DirectAccessPage.keys, hget,
          DirectAccessPage.rows, DirectAccessPage.client]
      · simp only [DirectAccessPage.keys, Option.getD_some] at hidx
        rw [List.getElem?_eq_none hidx] at hget
        cases hget
  | cons ki rest ih =>
    rcases page with ⟨r, ks?, c⟩
    rcases ks? with - | ks
    · rw [pageKeysTotal] at htot; cases htot
    · rw [pageKeysTotal] at htot
      rcases hget : ks[ki]? with - | key
      · simp only [walkPath, DirectAccessPage.keys, Option.getD_some,
          List.get?_eq_getElem?, hget] at hwalk
        cases hwalk
      · simp only [walkPath, DirectAccessPage.keys, Option.getD_some,
          List.get?_eq_getElem?, hget] at hwalk
        rcases hpg : keyPage key with - | sub
        · simp only [hpg] at hwalk
          cases hwalk
        · simp only [hpg] at hwalk
          have hkt := keyListKeysTotal_get htot hget sub hpg
          have hrec := ih sub hkt hwalk
          have hfix : (fun k => (keyLabel k, keyStation k, some (applyKeyUpdate keyIndex updater rest sub))) key = key := by
            rcases key with ⟨kl, kst, kpg⟩
            simp only [keyPage] at hpg
            subst hpg
            simp [keyLabel, keyStation, hrec]
          have hupd : updateAt (fun k => (keyLabel k, keyStation k, some (applyKeyUpdate keyIndex updater rest sub))) ki ks = ks :=
            updateAt_self _ _ _ _ hget hfix
          simp [applyKeyUpdate, DirectAccessPage.keys, hget, hpg,
            DirectAccessPage.rows, DirectAccessPage.client, hupd]

/-- C4, counterexample: on a profile whose only tab holds a client page
(no `keys` field), `mutatePageAtPath` with the unresolvable path `[0]`
does *not* return the original profile — it materializes `keys: []` on
the client page (and `updateKeyAtPath` with out-of-range `keyIndex 0`
does the same), contradicting the claimed no-op. -/
theorem c4_counterexample :
    (getPageAtPath ⟨"P", [⟨["T"], .mk 4 none (some (.jstr "x"))⟩]⟩ 0 [0] = none) ∧
    mutatePageAtPath ⟨"P", [⟨["T"], .mk 4 none (some (.jstr "x"))⟩]⟩ 0 [0] (fun pg => pg) ≠
      ⟨"P", [⟨["T"], .mk 4 none (some (.jstr "x"))⟩]⟩ ∧
    updateKeyAtPath ⟨"P", [⟨["T"], .mk 4 none (some (.jstr "x"))⟩]⟩ 0 [] 0 (fun k => k) ≠
      ⟨"P", [⟨["T"], .mk 4 none (some (.jstr "x"))⟩]⟩ := by
  refine ⟨rfl, ?_, ?_⟩
  · have : mutatePageAtPath ⟨"P", [⟨["T"], .mk 4 none (some (.jstr "x"))⟩]⟩ 0 [0] (fun pg => pg) =
        ⟨"P", [⟨["T"], .mk 4 (some []) (some (.jstr "x"))⟩]⟩ := rfl
    rw [this]
    intro h
    cases h
  · have : updateKeyAtPath ⟨"P", [⟨["T"], .mk 4 none (some (.jstr "x"))⟩]⟩ 0 [] 0 (fun k => k) =
        ⟨"P", [⟨["T"], .mk 4 (some []) (some (.jstr "x"))⟩]⟩ := rfl
    rw [this]
    intro h
    cases h

/-- C4, amended: on profiles whose every page stores a present `keys`
list (which holds for all pages the editor itself builds, except client
pages), the claimed no-ops are exact: an out-of-range tab index, an
unresolvable path (for both mutators), or an out-of-range `keyIndex`
(for `updateKeyAtPath`) return the original profile unchanged.  Without
that condition the walk materializes absent `keys` fields as `[]` (see
the counterexample). -/
theorem c4_mutators_noop (p : TabbedProfile) (tabIndex : Nat) (path : List Nat)
    (f : DirectAccessPage → DirectAccessPage)
    (keyIndex : Nat) (updater : DirectAccessKey → DirectAccessKey)
    (htot : profileKeysTotal p = true) :
    (p.tabs.get? tabIndex = none →
      mutatePageAtPath p tabIndex path f = p ∧ updateKeyAtPath p tabIndex path keyIndex updater = p) ∧
    (getPageAtPath p tabIndex path = none →
      mutatePageAtPath p tabIndex path f = p ∧ updateKeyAtPath p tabIndex path keyIndex updater = p) ∧
    (∀ tpage, getPageAtPath p tabIndex path = some tpage →
      (tpage.keys.getD []).length ≤ keyIndex →
      updateKeyAtPath p tabIndex path keyIndex updater = p) := by
  rcases p with ⟨pid, tabs⟩
  have htabs : ∀ (i : Nat) (t : Tab), tabs[i]? = some t → pageKeysTotal t.page = true := by
    intro i t hget
    have hmem : t ∈ tabs := List.get?_mem (by rw [List.get?_eq_getElem?]; exact hget)
    have := List.all_eq_true.mp htot
    exact this t hmem
  refine ⟨?_, ?_, ?_⟩
  · intro hnone
    constructor
    · unfold mutatePageAtPath
      rw [hnone]
    · unfold updateKeyAtPath
      rw [hnone]
  · intro hnone
    unfold getPageAtPath at hnone
    rcases hget : tabs.get? tabIndex with - | tab
    · constructor
      · unfold mutatePageAtPath; rw [hget]
      · unfold updateKeyAtPath; rw [hget]
    · rw [hget] at hnone
      simp only at hnone
      have hget2 : tabs[tabIndex]? = some tab := by
        rw [← List.get?_eq_getElem?]; exact hget
      have htp := htabs _ _ hget2
      constructor
      · unfold mutatePageAtPath
        rw [hget]
        simp only
        rw [updateAt_self _ _ _ _ hget2]
        rcases tab with ⟨tl, tp⟩
        simp [applyMutate_unresolved f path tp htp hnone]
      · unfold updateKeyAtPath
        rw [hget]
        simp only
        rw [updateAt_self _ _ _ _ hget2]
        rcases tab with ⟨tl, tp⟩
        simp [applyKeyUpdate_unresolved keyIndex updater path tp htp hnone]
  · intro tpage hsome hlen
    unfold getPageAtPath at hsome
    rcases hget : tabs.get? tabIndex with - | tab
    · rw [hget] at hsome; cases hsome
    · rw [hget] at hsome
      simp only at hsome
      have hget2 : tabs[tabIndex]? = some tab := by
        rw [← List.get?_eq_getElem?]; exact hget
      have htp := htabs _ _ hget2
      unfold updateKeyAtPath
      rw [hget]
      simp only
      rw [updateAt_self _ _ _ _ hget2]
      rcases tab with ⟨tl, tp⟩
      simp [applyKeyUpdate_outOfRange keyIndex updater path tp tpage htp hsome hlen]

/-! ## C9 — cut followed by paste is a move

Supporting lemmas: mutating at a resolvable path rewrites exactly the
target page. -/

theorem updateAt_get_self {α : Type} (g : α → α) (n : Nat) (l : List α) (x : α)
    (h : l[n]? = some x) : (updateAt g n l)[n]? = some (g x) := by
  induction l generalizing n with
  | nil => simp at h
  | cons y rest ih =>
    cases n with
    | zero =>
      simp only [List.getElem?_cons_zero] at h
      cases h
      simp [updateAt]
    | succ m =>
      simp only [List.getElem?_cons_succ] at h
      simp [updateAt, ih m h]

theorem walkPath_applyMutate (f : DirectAccessPage → DirectAccessPage) :
    ∀ (path : List Nat) (page tpage : DirectAccessPage),
      walkPath path page = some tpage →
      walkPath path (applyMutate f path page) = some (f tpage) := by
  intro path
  induction path with
  | nil =>
    intro page tpage h
    rw [walkPath] at h
    cases h
    simp [applyMutate, walkPath]
  | cons ki rest ih =>
    intro page tpage h
    rcases page with ⟨r, ks?, c⟩
    rcases ks? with - | ks
    · simp [walkPath, DirectAccessPage.keys] at h
    · simp only [walkPath, DirectAccessPage.keys, Option.getD_some,
        List.get?_eq_getElem?] at h
      rcases hget : ks[ki]? with - | key
      · rw [hget] at h; cases h
      · rw [hget] at h
        simp only at h
        rcases hpg : keyPage key with - | sub
        · rw [hpg] at h; cases h
        · rw [hpg] at h
          simp only at h
          have hrec := ih sub tpage h
          have hupd := updateAt_get_self
            (fun k => (keyLabel k, keyStation k, some (applyMutate f rest sub))) ki ks key hget
          have hpg2 : key.2.2 = some sub := hpg
          simp [applyMutate, walkPath, DirectAccessPage.keys, hget, keyPage, hpg2,
            List.get?_eq_getElem?, hupd, hrec]

theorem getPageAtPath_mutate (p : TabbedProfile) (tabIndex : Nat) (path : List Nat)
    (f : DirectAccessPage → DirectAccessPage) (page : DirectAccessPage)
    (h : getPageAtPath p tabIndex path = some page) :
    getPageAtPath (mutatePageAtPath p tabIndex path f) tabIndex path = some (f page) := by
  rcases p with ⟨pid, tabs⟩
  unfold getPageAtPath at h ⊢
  unfold mutatePageAtPath
  rcases hget : tabs.get? tabIndex with - | tab
  · rw [hget] at h; cases h
  · rw [hget] at h
    simp only at h ⊢
    have hget2 : tabs[tabIndex]? = some tab := by
      rw [← List.get?_eq_getElem?]; exact hget
    have hupd := updateAt_get_self
      (fun t => ⟨t.label, applyMutate f path t.page⟩) tabIndex tabs tab hget2
    rw [List.get?_eq_getElem?, hupd]
    simp only
    exact walkPath_applyMutate f path tab.page page h

/- sortAsc leaves an already (strictly) sorted selection unchanged. -/
theorem insertSorted_head (n : Nat) (l : List Nat) (h : ∀ y ∈ l, n ≤ y) :
    insertSorted n l = n :: l := by
  cases l with
  | nil => rfl
  | cons y rest =>
    have := h y (by simp)
    simp [insertSorted, this]

theorem sortAsc_sorted_id (l : List Nat) (h : l.Sorted (· ≤ ·)) : sortAsc l = l := by
  induction l with
  | nil => rfl
  | cons x rest ih =>
    rw [List.sorted_cons] at h
    rw [sortAsc, ih h.2, insertSorted_head x rest h.1]

theorem pickKeys_ne_nil (ks : List DirectAccessKey) (sel : List Nat)
    (hne : sel ≠ []) (hrange : ∀ i ∈ sel, i < ks.length) :
    pickKeys ks sel ≠ [] := by
  cases sel with
  | nil => cases hne rfl
  | cons i rest =>
    have hi : i < ks.length := hrange i (by simp)
    rw [pickKeys]
    rcases hget : ks.get? i with - | k
    · rw [List.get?_eq_getElem?, List.getElem?_eq_getElem hi] at hget
      cases hget
    · simp

theorem pasteKeys_noop (s : EditorState) (h : s.clipboard = none) : pasteKeys s = s := by
  unfold pasteKeys
  rw [h]

theorem currentKeys_eq (s : EditorState) (rows : Int) (ks : List DirectAccessKey)
    (hpage : getPageAtPath s.profile s.selectedTabIndex s.subpagePath =
      some (.mk rows (some ks) none)) :
    currentKeysOf s = ks := by
  unfold currentKeysOf getKeysAtPath
  rw [hpage]
  simp [DirectAccessPage.client, DirectAccessPage.keys]

/- Pasting on a state with an empty selection and a cut-filled clipboard:
the block lands at the end of the current key list and the clipboard is
consumed. -/
theorem pasteKeys_after_cut (s : EditorState) (clip : List DirectAccessKey)
    (rows : Int) (ks : List DirectAccessKey)
    (hclip : s.clipboard = some (clip, true)) (hclipne : clip ≠ [])
    (hsel : s.selectedKeyIndices = [])
    (hpage : getPageAtPath s.profile s.selectedTabIndex s.subpagePath =
      some (.mk rows (some ks) none)) :
    getPageAtPath (pasteKeys s).profile s.selectedTabIndex s.subpagePath =
      some (.mk rows (some (ks ++ clip)) none) ∧
    (pasteKeys s).selectedTabIndex = s.selectedTabIndex ∧
    (pasteKeys s).subpagePath = s.subpagePath ∧
    (pasteKeys s).clipboard = none ∧
    pasteKeys (pasteKeys s) = pasteKeys s := by
  have hcur : currentKeysOf s = ks := currentKeys_eq s rows ks hpage
  have hdef : pasteKeys s =
      { s with
        profile := mutatePageAtPath s.profile s.selectedTabIndex s.subpagePath
          (fun page =>
            let keys := page.keys.getD []
            .mk page.rows (some (keys.take ks.length ++ clip ++ keys.drop ks.length)) page.client),
        selectedKeyIndices := (List.range clip.length).map (ks.length + ·),
        clipboard := none } := by
    unfold pasteKeys
    rw [hclip]
    simp only [if_neg hclipne, hsel, ne_eq, not_true_eq_false, if_false, hcur, reduceIte]
  have hmut := getPageAtPath_mutate s.profile s.selectedTabIndex s.subpagePath
    (fun page =>
      let keys := page.keys.getD []
      .mk page.rows (some (keys.take ks.length ++ clip ++ keys.drop ks.length)) page.client)
    _ hpage
  refine ⟨?_, by rw [hdef], by rw [hdef], by rw [hdef], ?_⟩
  · rw [hdef]
    simp only
    rw [hmut]
    simp [DirectAccessPage.rows, DirectAccessPage.keys, DirectAccessPage.client]
  · apply pasteKeys_noop
    rw [hdef]

/-- C9: cut followed by paste has move semantics.  On the current page
(resolvable, not a client page, `keys` present) with a non-empty,
strictly ascending, in-range selection: cutting removes exactly the
selected keys (`dropSelected`) from the page and stores the keys at the
selected indices, in ascending index order (`pickKeys`), as the
clipboard with the cut flag; a paste then inserts that block once — the
selection is empty after a cut, so it lands at the end of the list —
and consumes the clipboard, so a second paste without an intervening
copy or cut changes nothing. -/
theorem c9_cut_paste (s : EditorState) (rows : Int) (ks : List DirectAccessKey)
    (hpath : getPageAtPath s.profile s.selectedTabIndex s.subpagePath =
      some (.mk rows (some ks) none))
    (hsorted : s.selectedKeyIndices.Sorted (· < ·))
    (hne : s.selectedKeyIndices ≠ [])
    (hrange : ∀ i ∈ s.selectedKeyIndices, i < ks.length) :
    (cutKeys s).clipboard = some (pickKeys ks s.selectedKeyIndices, true) ∧
    (cutKeys s).selectedKeyIndices = [] ∧
    getPageAtPath (cutKeys s).profile s.selectedTabIndex s.subpagePath =
      some (.mk rows (some (dropSelected s.selectedKeyIndices 0 ks)) none) ∧
    getPageAtPath (pasteKeys (cutKeys s)).profile s.selectedTabIndex s.subpagePath =
      some (.mk rows (some (dropSelected s.selectedKeyIndices 0 ks ++
        pickKeys ks s.selectedKeyIndices)) none) ∧
    (pasteKeys (cutKeys s)).clipboard = none ∧
    pasteKeys (pasteKeys (cutKeys s)) = pasteKeys (cutKeys s) := by
  have hsort : sortAsc s.selectedKeyIndices = s.selectedKeyIndices :=
    sortAsc_sorted_id _ (hsorted.imp (fun h => Nat.le_of_lt h))
  have hcur : currentKeysOf s = ks := currentKeys_eq s rows ks hpath
  have hpick : pickKeys ks s.selectedKeyIndices ≠ [] := pickKeys_ne_nil ks _ hne hrange
  have hcutdef : cutKeys s =
      { s with
        profile := mutatePageAtPath s.profile s.selectedTabIndex s.subpagePath
          (fun page => .mk page.rows
            (some (dropSelected (sortAsc s.selectedKeyIndices) 0 (page.keys.getD []))) page.client),
        selectedKeyIndices := [],
        clipboard := some (pickKeys ks s.selectedKeyIndices, true) } := by
    unfold cutKeys
    rw [if_neg hne, hcur, hsort, if_neg hpick]
  have hmut := getPageAtPath_mutate s.profile s.selectedTabIndex s.subpagePath
    (fun page => .mk page.rows
      (some (dropSelected (sortAsc s.selectedKeyIndices) 0 (page.keys.getD []))) page.client)
    _ hpath
  have hcutpage : getPageAtPath (cutKeys s).profile s.selectedTabIndex s.subpagePath =
      some (.mk rows (some (dropSelected s.selectedKeyIndices 0 ks)) none) := by
    rw [hcutdef]
    simp only
    rw [hmut, hsort]
    simp [DirectAccessPage.rows, DirectAccessPage.keys, DirectAccessPage.client]
  have hpaste := pasteKeys_after_cut (cutKeys s) (pickKeys ks s.selectedKeyIndices)
    rows (dropSelected s.selectedKeyIndices 0 ks)
    (by rw [hcutdef]) hpick (by rw [hcutdef])
    (by
      rw [show (cutKeys s).selectedTabIndex = s.selectedTabIndex from by rw [hcutdef],
        show (cutKeys s).subpagePath = s.subpagePath from by rw [hcutdef]]
      exact hcutpage)
  refine ⟨by rw [hcutdef], by rw [hcutdef], hcutpage, ?_, hpaste.2.2.2.1, hpaste.2.2.2.2⟩
  rw [show (cutKeys s).selectedTabIndex = s.selectedTabIndex from by rw [hcutdef],
    show (cutKeys s).subpagePath = s.subpagePath from by rw [hcutdef]] at hpaste
  exact hpaste.1

/-- Concrete instance of C9: cutting keys 1 and 3 from a five-key page
and pasting, with a second paste changing nothing. -/
theorem c9_cut_paste_witness :
    (cutKeys ⟨⟨"P", [⟨["T"], .mk 4 (some [(["0"], none, none), (["1"], none, none),
        (["2"], none, none), (["3"], none, none), (["4"], none, none)]) none⟩]⟩,
      0, [], [1, 3], none⟩).clipboard =
      some ([(["1"], none, none), (["3"], none, none)], true) ∧
    pasteKeys (pasteKeys (cutKeys ⟨⟨"P", [⟨["T"], .mk 4 (some [(["0"], none, none),
        (["1"], none, none), (["2"], none, none), (["3"], none, none),
        (["4"], none, none)]) none⟩]⟩, 0, [], [1, 3], none⟩)) =
      pasteKeys (cutKeys ⟨⟨"P", [⟨["T"], .mk 4 (some [(["0"], none, none),
        (["1"], none, none), (["2"], none, none), (["3"], none, none),
        (["4"], none, none)]) none⟩]⟩, 0, [], [1, 3], none⟩) := by
  have h := c9_cut_paste ⟨⟨"P", [⟨["T"], .mk 4 (some [(["0"], none, none), (["1"], none, none),
      (["2"], none, none), (["3"], none, none), (["4"], none, none)]) none⟩]⟩,
    0, [], [1, 3], none⟩ 4
    [(["0"], none, none), (["1"], none, none), (["2"], none, none), (["3"], none, none),
      (["4"], none, none)]
    rfl (by decide) (by decide) (by decide)
  exact ⟨h.1, h.2.2.2.2.2⟩

/-! ## C2 — the file export

The claim is false on the code: `downloadProfile` serializes with
`JSON.stringify(profile, null, 2)`, not with `serializeProfile` (which
`App.tsx` never imports).  The two disagree on every profile whose
serialization is non-trivial — `JSON.stringify` explodes every array,
never emits the canonical serializer's inline-array form, and emits no
trailing newline. -/

/-- C2, counterexample: already on the default profile the exported file
content differs from `serializeProfile`'s output. -/
theorem c2_download_counterexample :
    (downloadProfile createDefaultProfile "NEW.json").2 ≠
      serializeTyped createDefaultProfile := by
  decide

/-- C2, amended: the export produces `<filename>` (with `.json` appended
when absent) whose content is `JSON.stringify(profile, null, 2)` — the
pretty-printed JSON of the in-memory profile, data-equal to it but not
byte-equal to the canonical serializer's output. -/
theorem c2_download (p : TabbedProfile) (filename : String) :
    (strEndsWith filename ".json" = true → (downloadProfile p filename).1 = filename) ∧
    (strEndsWith filename ".json" = false → (downloadProfile p filename).1 = filename ++ ".json") ∧
    (downloadProfile p filename).2 = jsonStringifyPretty2 (memJson p) := by
  refine ⟨?_, ?_, rfl⟩
  · intro h
    unfold downloadProfile
    rw [if_pos h]
  · intro h
    unfold downloadProfile
    rw [if_neg (by rw [h]; exact Bool.false_ne_true)]

/-- Concrete instance of the amended C2. -/
theorem c2_download_witness :
    (downloadProfile createDefaultProfile "NEW").1 = "NEW.json" ∧
    (downloadProfile createDefaultProfile "NEW.json").1 = "NEW.json" :=
  ⟨(c2_download createDefaultProfile "NEW").2.1 rfl,
   (c2_download createDefaultProfile "NEW.json").1 rfl⟩

/-- Concrete instance of the amended C4 on the default profile. -/
theorem c4_mutators_noop_witness :
    mutatePageAtPath createDefaultProfile 0 [3] (fun pg => .mk 99 pg.keys pg.client) =
      createDefaultProfile ∧
    updateKeyAtPath createDefaultProfile 0 [] 0 (fun k => (["x"], keyStation k, keyPage k)) =
      createDefaultProfile := by
  have h := c4_mutators_noop createDefaultProfile 0 [3]
    (fun pg => .mk 99 pg.keys pg.client) 0 (fun k => (["x"], keyStation k, keyPage k)) (by rfl)
  have h2 := c4_mutators_noop createDefaultProfile 0 []
    (fun pg => .mk 99 pg.keys pg.client) 0 (fun k => (["x"], keyStation k, keyPage k)) (by rfl)
  exact ⟨(h.2.1 rfl).1, h2.2.2 (.mk 4 (some []) none) rfl (by simp [DirectAccessPage.keys])⟩

/-! ## C8 — validation error reporting

The `type` discriminant check short-circuits (a lone error); after it,
the `id` check, the `tabs` check and every per-tab check all contribute
independently to the returned list. -/

theorem len_tabs_pref (a b : String) : 5 ≤ ("tabs[" ++ a ++ b).length := by
  have h5 : ("tabs[" : String).length = 5 := rfl
  simp [String.length_append, h5]
  omega

theorem validateTab_path_len (i : Nat) (t : Json) :
    ∀ e ∈ validateTab i t, 5 ≤ e.path.length := by
  intro e he
  unfold validateTab at he
  split at he
  · simp at he
    subst he
    exact len_tabs_pref _ _
  · rcases List.mem_append.mp he with h1 | h1
    · split at h1
      · split at h1 <;> simp at h1
        subst h1
        exact len_tabs_pref _ _
      · simp at h1
        subst h1
        exact len_tabs_pref _ _
    · split at h1
      · split at h1
        · simp at h1
          subst h1
          exact len_tabs_pref _ _
        · rcases List.mem_append.mp h1 with h2 | h2
          · split at h2
            · split at h2 <;> simp at h2
              subst h2
              exact len_tabs_pref _ _
            · simp at h2
              subst h2
              exact len_tabs_pref _ _
          · split at h2 <;> simp at h2
            subst h2
            exact len_tabs_pref _ _
      · simp at h1
        subst h1
        exact len_tabs_pref _ _

theorem validateTabs_len (ts : List Json) :
    ∀ start, ∀ e ∈ validateTabs start ts, 5 ≤ e.path.length := by
  induction ts with
  | nil => intro start e he; simp [validateTabs] at he
  | cons hd tl ih =>
    intro start e he
    rcases List.mem_append.mp he with h | h
    · exact validateTab_path_len _ _ e h
    · exact ih _ e h

theorem validateTabs_sub (ts : List Json) :
    ∀ start i t, ts[i]? = some t →
      ∀ e ∈ validateTab (start + i) t, e ∈ validateTabs start ts := by
  induction ts with
  | nil => intro start i t h; simp at h
  | cons hd tl ih =>
    intro start i t h e he
    cases i with
    | zero =>
      simp at h
      subst h
      exact List.mem_append.mpr (Or.inl he)
    | succ n =>
      rw [List.getElem?_cons_succ] at h
      have harith : start + (n + 1) = (start + 1) + n := by omega
      rw [harith] at he
      exact List.mem_append.mpr (Or.inr (ih (start + 1) n t h e he))

/-- C8: validation error reporting.  (a) On an object whose `type` is
not `"Tabbed"`, `validateProfile` returns exactly the single `type`
error and runs no other check.  (b) With the correct `type`, the `id`
error is reported iff `id` is not a string with non-blank trim, the
`tabs` error is reported iff `tabs` is not a non-empty array, and every
error of every per-tab check appears in the returned list — all
violations are reported together. -/
theorem c8_validation (data : Json) (hobj : isJsObject data = true) :
    (jsGet data "type" ≠ some (.jstr "Tabbed") →
       validateProfile data = [⟨"type", "Only Tabbed profiles are supported"⟩]) ∧
    (jsGet data "type" = some (.jstr "Tabbed") →
      ((⟨"id", "Profile id must be a non-empty string"⟩ ∈ validateProfile data ↔
          ¬ ∃ s, jsGet data "id" = some (.jstr s) ∧ jsTrim s ≠ "") ∧
       (⟨"tabs", "Profile must have at least one tab"⟩ ∈ validateProfile data ↔
          ¬ ∃ ts, jsGet data "tabs" = some (.jarr ts) ∧ ts ≠ []) ∧
       (∀ ts i t, jsGet data "tabs" = some (.jarr ts) → ts[i]? = some t →
          ∀ e ∈ validateTab i t, e ∈ validateProfile data))) := by
  have hnotTabs : ∀ ts : List Json,
      (⟨"id", "Profile id must be a non-empty string"⟩ : ValidationError) ∉ validateTabs 0 ts := by
    intro ts hmem
    exact absurd (validateTabs_len ts 0 _ hmem) (by decide)
  have hnotTabs2 : ∀ ts : List Json,
      (⟨"tabs", "Profile must have at least one tab"⟩ : ValidationError) ∉ validateTabs 0 ts := by
    intro ts hmem
    exact absurd (validateTabs_len ts 0 _ hmem) (by decide)
  constructor
  · intro hty
    simp [validateProfile, hobj, hty]
  · intro hty
    refine ⟨?_, ?_, ?_⟩
    · rcases hid : jsGet data "id" with - | v
      · simp [validateProfile, hobj, hty, hid]
      · cases v <;> try simp [validateProfile, hobj, hty, hid]
        case jstr s =>
          by_cases hbl : jsTrim s = ""
          · simp [validateProfile, hobj, hty, hid, hbl]
          · rcases htabs : jsGet data "tabs" with - | w
            · simp [validateProfile, hobj, hty, hid, htabs, hbl]
            · cases w <;> simp [validateProfile, hobj, hty, hid, htabs, hbl]
              rename_i ts
              exact hnotTabs ts
    · rcases htabs : jsGet data "tabs" with - | w
      · simp [validateProfile, hobj, hty, htabs]
      · cases w <;> try simp [validateProfile, hobj, hty, htabs]
        case jarr ts =>
          have hnot := hnotTabs2 ts
          rcases hid : jsGet data "id" with - | v
          · simp [validateProfile, hobj, hty, hid, htabs, hnot]
          · cases v <;> simp [validateProfile, hobj, hty, hid, htabs, hnot]
    · intro ts i t htabs hget e he
      have hsub := validateTabs_sub ts 0 i t hget e (by rwa [Nat.zero_add])
      simp [validateProfile, hobj, hty, htabs, List.mem_append]
      exact Or.inr (Or.inr hsub)

/-! ## C6 — idempotence of normalization

As stated the claim is false: a `station_id` whose value is an exotic
non-string such as `[]` is kept by the first normalization pass (the
guard `k.station_id !== ''` is a strict comparison, so a non-string
passes it) and stringified to `""`, which the second pass then drops —
`normalize ∘ normalize ≠ normalize` on such an input.  The claim holds
for every valid input whose normalized form contains no empty
`station_id` entry; `stationsOK` below is that (output-side) condition:
every `station_id` field anywhere in the value is a non-empty string. -/

mutual
def stationsOK : Json → Bool
  | .jarr l => stationsOKList l
  | .jobj fs => stationsOKFields fs
  | _ => true
def stationsOKList : List Json → Bool
  | [] => true
  | x :: rest => stationsOK x && stationsOKList rest
def stationsOKFields : List (String × Json) → Bool
  | [] => true
  | (k, v) :: rest =>
    (if k = "station_id" then
       (match v with
        | .jstr t => decide (t ≠ "")
        | _ => false)
     else true) && stationsOK v && stationsOKFields rest
end

/-- All entries of the list are JSON strings (the shape of a normalized
key label). -/
def labelStrings : List Json → Bool
  | [] => true
  | .jstr _ :: rest => labelStrings rest
  | _ => false

/- The exact shape of `normalizePage` output (with non-empty
`station_id` entries): these predicates characterize the fixed points of
the normalizer below the tab level. -/
mutual
def goodSubPage : Json → Bool
  | .jobj [("rows", .jnum r e), ("keys", .jarr ks)] =>
    decide (1 ≤ r) && decide (e = 0) && goodKeyList ks
  | _ => false
def goodKeyList : List Json → Bool
  | [] => true
  | k :: rest => goodKey k && goodKeyList rest
def goodKey : Json → Bool
  | .jobj (("label", .jarr ls) :: rest) =>
    labelStrings ls && decide (ls.length ≤ 3) && goodKeyRest rest
  | _ => false
def goodKeyRest : List (String × Json) → Bool
  | [] => true
  | [("station_id", .jstr t)] => decide (t ≠ "")
  | [("page", p)] => goodSubPage p
  | [("station_id", .jstr t), ("page", p)] => decide (t ≠ "") && goodSubPage p
  | _ => false
end

/-- The shape of `normTab` output: trimmed label, then either a client
page (positive integer rows, non-null `client_page`) or a normalized
direct-access page. -/
def goodTab : Json → Bool
  | .jobj [("label", .jstr l), ("page", pg)] =>
    decide (jsTrim l = l) &&
    (match pg with
     | .jobj [("rows", .jnum r e), ("client_page", cp)] =>
       decide (1 ≤ r) && decide (e = 0) && decide (cp ≠ .jnull)
     | _ => goodSubPage pg)
  | _ => false

theorem dropWhile_head_false (p : Char → Bool) :
    ∀ (l : List Char) c rest, l.dropWhile p = c :: rest → p c = false := by
  intro l
  induction l with
  | nil => intro c rest h; simp at h
  | cons a t ih =>
    intro c rest h
    rw [List.dropWhile_cons] at h
    by_cases hp : p a
    · rw [if_pos hp] at h
      exact ih c rest h
    · rw [if_neg hp] at h
      cases h
      exact Bool.of_not_eq_true hp

theorem dropWhile_idem (p : Char → Bool) (l : List Char) :
    (l.dropWhile p).dropWhile p = l.dropWhile p := by
  rcases h : l.dropWhile p with - | ⟨c, rest⟩
  · simp
  · have hc := dropWhile_head_false p l c rest h
    rw [List.dropWhile_cons, if_neg (by simp [hc])]

theorem jsTrim_idem (s : String) : jsTrim (jsTrim s) = jsTrim s := by
  unfold jsTrim
  set p := isTrimWs with hp
  set cs := s.data with hcs
  have hsuf : (cs.dropWhile p).reverse.dropWhile p <:+ (cs.dropWhile p).reverse :=
    List.dropWhile_suffix p
  obtain ⟨u, hu⟩ := hsuf
  set D := ((cs.dropWhile p).reverse.dropWhile p).reverse with hD
  have hpref : cs.dropWhile p = D ++ u.reverse := by
    have := congrArg List.reverse hu
    simpa [hD] using this.symm
  have claim1 : D.dropWhile p = D := by
    rcases hDc : D with - | ⟨d, D'⟩
    · simp
    · have hh : cs.dropWhile p = d :: (D' ++ u.reverse) := by
        rw [hpref, hDc]; simp
      have hd := dropWhile_head_false p cs d _ hh
      rw [List.dropWhile_cons, if_neg (by simp [hd])]
  have claim2 : D.reverse.dropWhile p = D.reverse := by
    have hrev : D.reverse = (cs.dropWhile p).reverse.dropWhile p := by
      rw [hD, List.reverse_reverse]
    rw [hrev]
    exact dropWhile_idem p _
  show (⟨((D.dropWhile p).reverse.dropWhile p).reverse⟩ : String) = ⟨D⟩
  rw [claim1, claim2, List.reverse_reverse]

theorem rowsOf_pos (o : Option Json) (r : Int) (h : rowsOf o = some r) : 1 ≤ r := by
  rcases o with - | pg
  · simp [rowsOf] at h
    omega
  · cases pg <;> simp [rowsOf] at h <;> try omega
    case jobj fs =>
      rcases hf : fieldGet fs "rows" with - | v
      · rw [hf] at h; simp at h; omega
      · rw [hf] at h
        cases v <;> simp at h <;> omega

theorem clientOf_ne_null (o : Option Json) (cp : Json) (h : clientOf o = some cp) :
    cp ≠ .jnull := by
  rcases o with - | pg
  · simp [clientOf] at h
  · cases pg <;> simp [clientOf] at h
    case jobj fs =>
      rcases hf : fieldGet fs "client_page" with - | v
      · rw [hf] at h; simp at h
      · rw [hf] at h
        by_cases hn : v = .jnull
        · simp [hn] at h
        · simp [hn] at h
          subst h
          exact hn

theorem labelStrings_map (l : List Json) :
    labelStrings (l.map (fun x => .jstr (jsToString x))) = true := by
  induction l with
  | nil => rfl
  | cons a t ih => simp [labelStrings, ih]

theorem labelStrings_normKeyLabel (k : Json) :
    labelStrings (normKeyLabel k) = true := by
  unfold normKeyLabel
  split
  · exact labelStrings_map _
  · rfl

theorem normKeyLabel_len (k : Json) : (normKeyLabel k).length ≤ 3 := by
  unfold normKeyLabel
  split
  · simp
  · simp

theorem labelStrings_map_id (l : List Json) (h : labelStrings l = true) :
    l.map (fun x => .jstr (jsToString x)) = l := by
  induction l with
  | nil => rfl
  | cons a t ih =>
    cases a <;> simp [labelStrings] at h
    case jstr s => simp [jsToString, ih h]

/-- The possible shapes of `normKeyStation`. -/
theorem normKeyStation_cases (k : Json) :
    normKeyStation k = [] ∨
    ∃ sid, jsGet k "station_id" = some sid ∧
      normKeyStation k = [("station_id", .jstr (jsToString sid))] := by
  rcases hsid : jsGet k "station_id" with - | sid
  · left
    simp [normKeyStation, hsid]
  · by_cases hc : sid ≠ .jnull ∧ sid ≠ .jstr ""
    · right
      exact ⟨sid, rfl, by simp [normKeyStation, hsid, hc]⟩
    · left
      simp [normKeyStation, hsid, hc]

/- Every output of the normalizer (below the tab level) whose
`station_id` entries are all non-empty strings satisfies the normal-form
predicates.  Proved by strong induction on `2 * sizeOf + rank`, the
measure of the mutual recursion. -/
theorem normStableAuxA : ∀ n : Nat,
    (∀ pg y, 2 * sizeOf pg + 1 ≤ n → normalizePage pg = some y →
       stationsOK y = true → goodSubPage y = true) ∧
    (∀ ks ys, 2 * sizeOf ks ≤ n → normKeys ks = some ys →
       stationsOKList ys = true → goodKeyList ys = true) ∧
    (∀ k y, 2 * sizeOf k ≤ n → normKey k = some y →
       stationsOK y = true → goodKey y = true) := by
  intro n
  induction n using Nat.strong_induction_on with
  | _ n ih =>
  refine ⟨?_, ?_, ?_⟩
  · intro pg y hsz hN hst
    simp only [normalizePage] at hN
    rcases hr : rowsOf (some pg) with - | rows
    · rw [hr] at hN; simp at hN
    · rw [hr] at hN
      rcases hk : keysOf (some pg) with - | keys
      · rw [hk] at hN; simp at hN
      · rw [hk] at hN
        simp at hN
        rcases hnk : normKeys keys with - | keys'
        · rw [hnk] at hN; simp at hN
        · rw [hnk] at hN
          simp at hN
          subst hN
          simp only [stationsOK, stationsOKFields, stationsOKList] at hst
          simp at hst
          have hkle := sizeOf_keysOf pg keys hk
          simp only [goodSubPage]
          simp
          refine ⟨rowsOf_pos _ _ hr, ?_⟩
          exact (ih (2 * sizeOf keys) (by omega)).2.1 keys keys' le_rfl hnk (by simp [hst])
  · intro ks ys hsz hN hst
    cases ks with
    | nil =>
      simp only [normKeys] at hN
      simp at hN
      subst hN
      rfl
    | cons k rest =>
      simp only [normKeys] at hN
      simp at hN
      rcases ha : normKey k with - | a
      · rw [ha] at hN; simp at hN
      · rw [ha] at hN
        simp at hN
        rcases hb : normKeys rest with - | b
        · rw [hb] at hN; simp at hN
        · rw [hb] at hN
          simp at hN
          subst hN
          simp only [stationsOKList] at hst
          simp at hst
          have hszc : sizeOf (k :: rest) = 1 + sizeOf k + sizeOf rest := by simp
          rw [hszc] at hsz
          simp only [goodKeyList]
          simp
          constructor
          · exact (ih (2 * sizeOf k) (by omega)).2.2 k a le_rfl ha hst.1
          · exact (ih (2 * sizeOf rest) (by omega)).2.1 rest b le_rfl hb hst.2
  · intro k y hsz hN hst
    by_cases hknull : k = .jnull
    · rw [hknull] at hN
      simp [normKey] at hN
    · simp only [normKey] at hN
      rw [if_neg hknull] at hN
      have hgoal : ∀ L : List (String × Json),
          goodKeyRest L = true →
          goodKey (.jobj (("label", .jarr (normKeyLabel k)) :: L)) = true := by
        intro L hrest
        simp only [goodKey]
        simp [labelStrings_normKeyLabel, normKeyLabel_len, hrest]
      rcases hpg : jsGet k "page" with - | pg
      · rw [hpg] at hN
        simp at hN
        subst hN
        rcases normKeyStation_cases k with hS | ⟨sid, hsid, hS⟩
        · rw [hS]
          exact hgoal [] rfl
        · rw [hS]
          rw [hS] at hst
          simp only [stationsOK, stationsOKFields, stationsOKList] at hst
          simp at hst
          exact hgoal _ (by simp [goodKeyRest, hst])
      · rw [hpg] at hN
        simp at hN
        by_cases hpn : pg = .jnull
        · rw [if_pos hpn] at hN
          simp at hN
          subst hN
          rcases normKeyStation_cases k with hS | ⟨sid, hsid, hS⟩
          · rw [hS]
            exact hgoal [] rfl
          · rw [hS]
            rw [hS] at hst
            simp only [stationsOK, stationsOKFields, stationsOKList] at hst
            simp at hst
            exact hgoal _ (by simp [goodKeyRest, hst])
        · rw [if_neg hpn] at hN
          rcases hnp : normalizePage pg with - | p'
          · rw [hnp] at hN; simp at hN
          · rw [hnp] at hN
            simp at hN
            subst hN
            have hpsz := sizeOf_jsGet k "page" pg hpg
            rcases normKeyStation_cases k with hS | ⟨sid, hsid, hS⟩
            · rw [hS]
              rw [hS] at hst
              simp only [stationsOK, stationsOKFields, stationsOKList] at hst
              simp at hst
              have hp' := (ih (2 * sizeOf pg + 1) (by omega)).1 pg p' le_rfl hnp
                (by simp [hst])
              exact hgoal _ (by simp [goodKeyRest, hp'])
            · rw [hS]
              rw [hS] at hst
              simp only [stationsOK, stationsOKFields, stationsOKList] at hst
              simp at hst
              have hp' := (ih (2 * sizeOf pg + 1) (by omega)).1 pg p' le_rfl hnp
                (by simp [hst])
              exact hgoal _ (by simp [goodKeyRest, hp', hst])

/- Every value in normal form is a fixed point of the normalizer (below
the tab level). -/
theorem normStableAuxB : ∀ n : Nat,
    (∀ p, sizeOf p ≤ n → goodSubPage p = true → normalizePage p = some p) ∧
    (∀ ks, sizeOf ks ≤ n → goodKeyList ks = true → normKeys ks = some ks) ∧
    (∀ k, sizeOf k ≤ n → goodKey k = true → normKey k = some k) := by
  intro n
  induction n using Nat.strong_induction_on with
  | _ n ih =>
  refine ⟨?_, ?_, ?_⟩
  · intro p hsz hg
    unfold goodSubPage at hg
    split at hg
    · rename_i r e ks
      simp at hg
      obtain ⟨⟨h1r, he⟩, hks⟩ := hg
      subst he
      have hszk : sizeOf ks < n := by
        simp at hsz
        omega
      have hnk := (ih (sizeOf ks) hszk).2.1 ks le_rfl hks
      have hrows : rowsOf (some (.jobj [("rows", .jnum r 0), ("keys", .jarr ks)])) = some r := by
        simp [rowsOf, fieldGet, Int.fdiv_one]
        omega
      have hkeys : keysOf (some (.jobj [("rows", .jnum r 0), ("keys", .jarr ks)])) = some ks := by
        simp [keysOf, fieldGet]
      simp only [normalizePage]
      rw [hrows, hkeys]
      simp [hnk]
    · simp at hg
  · intro ks hsz hg
    cases ks with
    | nil => simp [normKeys]
    | cons k rest =>
      simp only [goodKeyList] at hg
      simp at hg
      have hsc : sizeOf (k :: rest) = 1 + sizeOf k + sizeOf rest := by simp
      rw [hsc] at hsz
      have h1 := (ih (sizeOf k) (by omega)).2.2 k le_rfl hg.1
      have h2 := (ih (sizeOf rest) (by omega)).2.1 rest le_rfl hg.2
      simp [normKeys, h1, h2]
  · intro k hsz hg
    unfold goodKey at hg
    split at hg
    · rename_i ls rest
      simp at hg
      obtain ⟨⟨hls, hlen⟩, hrest⟩ := hg
      unfold goodKeyRest at hrest
      split at hrest
      · have hlab : normKeyLabel (.jobj [("label", .jarr ls)]) = ls := by
          simp [normKeyLabel, jsGet, fieldGet, List.take_of_length_le hlen,
            labelStrings_map_id ls hls]
        simp [normKey, jsGet, fieldGet, normKeyStation, hlab]
      · rename_i t
        simp at hrest
        have hlab : normKeyLabel (.jobj [("label", .jarr ls), ("station_id", .jstr t)]) = ls := by
          simp [normKeyLabel, jsGet, fieldGet, List.take_of_length_le hlen,
            labelStrings_map_id ls hls]
        simp [normKey, jsGet, fieldGet, normKeyStation, hlab, jsToString, hrest]
      · rename_i p
        have hpn : p ≠ .jnull := by
          intro h
          rw [h] at hrest
          simp [goodSubPage] at hrest
        have hpsz : sizeOf p < n := by
          simp at hsz
          omega
        have hnp := (ih (sizeOf p) hpsz).1 p le_rfl hrest
        have hlab : normKeyLabel (.jobj [("label", .jarr ls), ("page", p)]) = ls := by
          simp [normKeyLabel, jsGet, fieldGet, List.take_of_length_le hlen,
            labelStrings_map_id ls hls]
        simp [normKey, jsGet, fieldGet, normKeyStation, hlab, hpn, hnp]
      · rename_i t p
        simp at hrest
        obtain ⟨ht, hp⟩ := hrest
        have hpn : p ≠ .jnull := by
          intro h
          rw [h] at hp
          simp [goodSubPage] at hp
        have hpsz : sizeOf p < n := by
          simp at hsz
          omega
        have hnp := (ih (sizeOf p) hpsz).1 p le_rfl hp
        have hlab : normKeyLabel
            (.jobj [("label", .jarr ls), ("station_id", .jstr t), ("page", p)]) = ls := by
          simp [normKeyLabel, jsGet, fieldGet, List.take_of_length_le hlen,
            labelStrings_map_id ls hls]
        simp [normKey, jsGet, fieldGet, normKeyStation, hlab, jsToString, ht, hpn, hnp]
      · simp at hrest
    · simp at hg

theorem goodSubPage_shape (p : Json) (h : goodSubPage p = true) :
    ∃ r ks, p = .jobj [("rows", .jnum r 0), ("keys", .jarr ks)] ∧
      1 ≤ r ∧ goodKeyList ks = true := by
  unfold goodSubPage at h
  split at h
  · rename_i r e ks
    simp at h
    obtain ⟨⟨h1, he⟩, hk⟩ := h
    subst he
    exact ⟨r, ks, rfl, h1, hk⟩
  · simp at h

theorem normTab_good (t y : Json) (hN : normTab t = some y) (hst : stationsOK y = true) :
    goodTab y = true := by
  simp only [normTab] at hN
  rcases hl : jsGet t "label" with - | v
  · rw [hl] at hN; simp at hN
  · rw [hl] at hN
    cases v <;> simp at hN
    rename_i s
    rcases hc : clientOf (jsGet t "page") with - | cp
    · rw [hc] at hN
      rcases hr : rowsOf (jsGet t "page") with - | rows
      · rw [hr] at hN; simp at hN
      · rw [hr] at hN
        simp at hN
        rcases hk : keysOf (jsGet t "page") with - | keys
        · rw [hk] at hN; simp at hN
        · rw [hk] at hN
          simp at hN
          rcases hnk : normKeys keys with - | keys'
          · rw [hnk] at hN; simp at hN
          · rw [hnk] at hN
            simp at hN
            subst hN
            simp only [stationsOK, stationsOKFields, stationsOKList] at hst
            simp at hst
            have hgk := (normStableAuxA (2 * sizeOf keys)).2.1 keys keys' le_rfl hnk
              (by simp [hst])
            simp only [goodTab, goodSubPage]
            simp [jsTrim_idem, rowsOf_pos _ _ hr, hgk]
    · rw [hc] at hN
      rcases hr : rowsOf (jsGet t "page") with - | rows
      · rw [hr] at hN; simp at hN
      · rw [hr] at hN
        simp at hN
        subst hN
        simp only [goodTab]
        simp [jsTrim_idem, rowsOf_pos _ _ hr, clientOf_ne_null _ _ hc]

theorem normTab_stable (y : Json) (hg : goodTab y = true) : normTab y = some y := by
  unfold goodTab at hg
  split at hg
  · rename_i l pg
    simp at hg
    obtain ⟨hl, hinner⟩ := hg
    split at hinner
    · rename_i r e cp
      simp at hinner
      obtain ⟨⟨h1r, he⟩, hcp⟩ := hinner
      subst he
      have hclient : clientOf (some (.jobj [("rows", .jnum r 0), ("client_page", cp)])) =
          some cp := by
        simp [clientOf, fieldGet, hcp]
      have hrows : rowsOf (some (.jobj [("rows", .jnum r 0), ("client_page", cp)])) =
          some r := by
        simp [rowsOf, fieldGet, Int.fdiv_one]
        omega
      simp [normTab, jsGet, fieldGet, hclient, hrows, hl]
    · obtain ⟨r, ks, hpg, h1r, hks⟩ := goodSubPage_shape pg hinner
      subst hpg
      have hnk := (normStableAuxB (sizeOf ks)).2.1 ks le_rfl hks
      have hclient : clientOf (some (.jobj [("rows", .jnum r 0), ("keys", .jarr ks)])) =
          none := by
        simp [clientOf, fieldGet]
      have hrows : rowsOf (some (.jobj [("rows", .jnum r 0), ("keys", .jarr ks)])) =
          some r := by
        simp [rowsOf, fieldGet, Int.fdiv_one]
        omega
      have hkeys : keysOf (some (.jobj [("rows", .jnum r 0), ("keys", .jarr ks)])) =
          some ks := by
        simp [keysOf, fieldGet]
      simp [normTab, jsGet, fieldGet, hclient, hrows, hkeys, hnk, hl]
  · simp at hg

theorem normTabs_stable : ∀ ts ys, normTabs ts = some ys →
    stationsOKList ys = true → normTabs ys = some ys := by
  intro ts
  induction ts with
  | nil =>
    intro ys hN hst
    simp [normTabs] at hN
    subst hN
    simp [normTabs]
  | cons t rest ih =>
    intro ys hN hst
    simp only [normTabs] at hN
    rcases ha : normTab t with - | a
    · rw [ha] at hN; simp at hN
    · rw [ha] at hN
      simp at hN
      rcases hb : normTabs rest with - | b
      · rw [hb] at hN; simp at hN
      · rw [hb] at hN
        simp at hN
        subst hN
        simp only [stationsOKList] at hst
        simp at hst
        have ha' : normTab a = some a := normTab_stable a (normTab_good t a ha hst.1)
        have hb' := ih b hb hst.2
        simp [normTabs, ha', hb']

/-- C6, counterexample: the claim as stated is false.  The profile with
a key `(\x7b label: [], station_id: [] \x7d)` passes validation (the
validator never inspects key contents), but one normalization pass keeps
the exotic `station_id` (the strict guard `!== ''` lets a non-string
through) as the stringified `""`, which the second pass then drops:
`normalize (normalize x) ≠ normalize x`. -/
theorem c6_counterexample :
    validateProfile (.jobj [("type", .jstr "Tabbed"), ("id", .jstr "P"), ("tabs", .jarr [
      .jobj [("label", .jstr "T"), ("page", .jobj [("rows", .jnum 1 0), ("keys", .jarr [
        .jobj [("label", .jarr []), ("station_id", .jarr [])]])])]])]) = [] ∧
    (normalizeProfile (.jobj [("type", .jstr "Tabbed"), ("id", .jstr "P"), ("tabs", .jarr [
      .jobj [("label", .jstr "T"), ("page", .jobj [("rows", .jnum 1 0), ("keys", .jarr [
        .jobj [("label", .jarr []), ("station_id", .jarr [])]])])]])])).bind normalizeProfile ≠
    normalizeProfile (.jobj [("type", .jstr "Tabbed"), ("id", .jstr "P"), ("tabs", .jarr [
      .jobj [("label", .jstr "T"), ("page", .jobj [("rows", .jnum 1 0), ("keys", .jarr [
        .jobj [("label", .jarr []), ("station_id", .jarr [])]])])]])]) := by
  constructor
  · decide
  · simp [normalizeProfile, normTabs, normTab, normKeys, normKey, normalizePage,
      jsGet, fieldGet, rowsOf, keysOf, clientOf, normKeyLabel, normKeyStation,
      jsToString, jsJoinElems, jsJoinElem, jsTrim]

/-- C6, amended: normalization is idempotent on every valid input whose
normalized form has no empty `station_id` entry (`stationsOK`): if
`normalizeProfile j = some y` and every `station_id` in `y` is a
non-empty string, then `normalizeProfile y = some y`.  (Inputs outside
that condition — a `station_id` that stringifies to `""`, possible only
for exotic non-string values such as `[]` or `[""]` — are exactly the
idempotence counterexamples.) -/
theorem c6_normalize_idempotent (j y : Json) (hval : validateProfile j = [])
    (hN : normalizeProfile j = some y) (hst : stationsOK y = true) :
    normalizeProfile y = some y := by
  simp only [normalizeProfile] at hN
  rcases hid : jsGet j "id" with - | v
  · rw [hid] at hN; simp at hN
  · rw [hid] at hN
    cases v <;> simp at hN
    rename_i s
    rcases hts : jsGet j "tabs" with - | w
    · rw [hts] at hN; simp at hN
    · rw [hts] at hN
      cases w <;> simp at hN
      rename_i ts
      rcases hnt : normTabs ts with - | tabs'
      · rw [hnt] at hN; simp at hN
      · rw [hnt] at hN
        simp at hN
        subst hN
        simp only [stationsOK, stationsOKFields, stationsOKList] at hst
        simp at hst
        have h3 := normTabs_stable ts tabs' hnt (by simp [hst])
        simp [normalizeProfile, jsGet, fieldGet, h3, jsTrim_idem]

/-- Concrete instance of the amended C6: a normalized profile with a
real station id is a fixed point of normalization. -/
theorem c6_normalize_idempotent_witness :
    normalizeProfile (.jobj [("id", .jstr "P"), ("type", .jstr "Tabbed"), ("tabs", .jarr [
      .jobj [("label", .jstr "T"), ("page", .jobj [("rows", .jnum 2 0), ("keys", .jarr [
        .jobj [("label", .jarr [.jstr "A"]), ("station_id", .jstr "S")]])])]])]) =
    some (.jobj [("id", .jstr "P"), ("type", .jstr "Tabbed"), ("tabs", .jarr [
      .jobj [("label", .jstr "T"), ("page", .jobj [("rows", .jnum 2 0), ("keys", .jarr [
        .jobj [("label", .jarr [.jstr "A"]), ("station_id", .jstr "S")]])])]])]) := by
  apply c6_normalize_idempotent (.jobj [("type", .jstr "Tabbed"), ("id", .jstr " P "),
    ("tabs", .jarr [.jobj [("label", .jstr "T"), ("page", .jobj [("rows", .jnum 2 0),
      ("keys", .jarr [.jobj [("label", .jarr [.jstr "A"]), ("station_id", .jstr "S")]])])]])])
  · decide
  · simp [normalizeProfile, normTabs, normTab, normKeys, normKey, normalizePage,
      jsGet, fieldGet, rowsOf, keysOf, clientOf, normKeyLabel, normKeyStation,
      jsToString, jsJoinElems, jsJoinElem, jsTrim]
    decide
  · decide

/-! ## C5 — what normalization does to labels

Positional navigation into a (raw or normalized) profile, used to state
the label claim at every subpage depth: `getKeyAt j ti path ki` is the
key reached as `tabs[ti].page`, then `.keys[p].page` for each `p` in
`path`, then `.keys[ki]`. -/

def getPageJ : Json → List Nat → Option Json
  | pg, [] => some pg
  | pg, i :: rest =>
    match jsGet pg "keys" with
    | some (.jarr ks) =>
      match ks[i]? with
      | some k =>
        match jsGet k "page" with
        | some sub => getPageJ sub rest
        | none => none
      | none => none
    | _ => none

def navKeys (pg : Json) (path : List Nat) : Option (List Json) :=
  (getPageJ pg path).bind (fun q =>
    match jsGet q "keys" with
    | some (.jarr ks) => some ks
    | _ => none)

def getKeyAt (j : Json) (ti : Nat) (path : List Nat) (ki : Nat) : Option Json :=
  match jsGet j "tabs" with
  | some (.jarr ts) =>
    match ts[ti]? with
    | some t =>
      match jsGet t "page" with
      | some pg => (navKeys pg path).bind (fun ks => ks[ki]?)
      | none => none
    | none => none
  | _ => none

theorem navKeys_null (path : List Nat) : navKeys .jnull path = none := by
  cases path <;> simp [navKeys, getPageJ, jsGet]

theorem navKeys_clientpage (path : List Nat) (rows : Int) (cp : Json) :
    navKeys (.jobj [("rows", .jnum rows 0), ("client_page", cp)]) path = none := by
  cases path <;> simp [navKeys, getPageJ, jsGet, fieldGet]

theorem navKeys_cons (pg : Json) (i : Nat) (rest : List Nat) :
    navKeys pg (i :: rest) =
      (match jsGet pg "keys" with
       | some (.jarr ks0) =>
         match ks0[i]? with
         | some k =>
           match jsGet k "page" with
           | some sub => navKeys sub rest
           | none => none
         | none => none
       | _ => none) := by
  rcases h : jsGet pg "keys" with - | v
  · simp [navKeys, getPageJ, h]
  · cases v <;> simp [navKeys, getPageJ, h]
    rename_i ks0
    rcases h2 : ks0[i]? with - | k
    · simp [h2]
    · rcases h3 : jsGet k "page" with - | sub
      · simp [h2, h3]
      · simp [navKeys, h2, h3]

theorem normKeys_pointwise : ∀ ks ys, normKeys ks = some ys →
    ∀ (i : Nat) (k : Json), ks[i]? = some k →
      ∃ y, ys[i]? = some y ∧ normKey k = some y := by
  intro ks
  induction ks with
  | nil =>
    intro ys h i k hk
    simp at hk
  | cons a rest ih =>
    intro ys h i k hk
    simp only [normKeys] at h
    rcases ha : normKey a with - | a'
    · rw [ha] at h; simp at h
    · rw [ha] at h
      simp at h
      rcases hb : normKeys rest with - | b'
      · rw [hb] at h; simp at h
      · rw [hb] at h
        simp at h
        subst h
        cases i with
        | zero =>
          simp at hk
          subst hk
          exact ⟨a', by simp, ha⟩
        | succ m =>
          rw [List.getElem?_cons_succ] at hk
          obtain ⟨y, hy, hny⟩ := ih b' hb m k hk
          refine ⟨y, ?_, hny⟩
          rw [List.getElem?_cons_succ]
          exact hy

theorem normTabs_pointwise : ∀ ts ys, normTabs ts = some ys →
    ∀ (i : Nat) (t : Json), ts[i]? = some t →
      ∃ y, ys[i]? = some y ∧ normTab t = some y := by
  intro ts
  induction ts with
  | nil =>
    intro ys h i t ht
    simp at ht
  | cons a rest ih =>
    intro ys h i t ht
    simp only [normTabs] at h
    rcases ha : normTab a with - | a'
    · rw [ha] at h; simp at h
    · rw [ha] at h
      simp at h
      rcases hb : normTabs rest with - | b'
      · rw [hb] at h; simp at h
      · rw [hb] at h
        simp at h
        subst h
        cases i with
        | zero =>
          simp at ht
          subst ht
          exact ⟨a', by simp, ha⟩
        | succ m =>
          rw [List.getElem?_cons_succ] at ht
          obtain ⟨y, hy, hny⟩ := ih b' hb m t ht
          refine ⟨y, ?_, hny⟩
          rw [List.getElem?_cons_succ]
          exact hy

/-- A successfully normalized key carries `label: <stringified,
3-truncated input label entries>` — in particular the entries are *not*
trimmed. -/
theorem normKey_label (k y : Json) (h : normKey k = some y) :
    jsGet y "label" = some (.jarr (normKeyLabel k)) := by
  simp only [normKey] at h
  by_cases hk0 : k = .jnull
  · rw [if_pos hk0] at h
    simp at h
  · rw [if_neg hk0] at h
    rcases hpg : jsGet k "page" with - | pg
    · rw [hpg] at h
      simp at h
      subst h
      rcases normKeyStation_cases k with hS | ⟨sid, hsid, hS⟩ <;> rw [hS] <;>
        simp [jsGet, fieldGet]
    · rw [hpg] at h
      simp at h
      by_cases hpn : pg = .jnull
      · rw [if_pos hpn] at h
        simp at h
        subst h
        rcases normKeyStation_cases k with hS | ⟨sid, hsid, hS⟩ <;> rw [hS] <;>
          simp [jsGet, fieldGet]
      · rw [if_neg hpn] at h
        rcases hnp : normalizePage pg with - | p'
        · rw [hnp] at h; simp at h
        · rw [hnp] at h
          simp at h
          subst h
          rcases normKeyStation_cases k with hS | ⟨sid, hsid, hS⟩ <;> rw [hS] <;>
            simp [jsGet, fieldGet]

/-- A normalized key's `page` entry is the normalization of the source
key's (non-null) `page`. -/
theorem normKey_page (k y sub : Json) (h : normKey k = some y)
    (hpg : jsGet k "page" = some sub) (hnn : sub ≠ .jnull) :
    ∃ sub', normalizePage sub = some sub' ∧ jsGet y "page" = some sub' := by
  have hk0 : k ≠ .jnull := by
    intro he
    rw [he] at hpg
    simp [jsGet] at hpg
  simp only [normKey] at h
  rw [if_neg hk0, hpg] at h
  simp at h
  rw [if_neg hnn] at h
  rcases hnp : normalizePage sub with - | sub'
  · rw [hnp] at h; simp at h
  · rw [hnp] at h
    simp at h
    subst h
    refine ⟨sub', rfl, ?_⟩
    rcases normKeyStation_cases k with hS | ⟨sid, hsid, hS⟩ <;> rw [hS] <;>
      simp [jsGet, fieldGet]

/-- Navigation commutes with page normalization: any key list reachable
in the source page is reachable at the same position in the normalized
page, with the key list normalized pointwise. -/
theorem navKeys_norm : ∀ (path : List Nat) (pg pg' : Json) (ks : List Json),
    normalizePage pg = some pg' → navKeys pg path = some ks →
    ∃ ks', navKeys pg' path = some ks' ∧ normKeys ks = some ks' := by
  intro path
  induction path with
  | nil =>
    intro pg pg' ks hnp hnav
    cases pg <;> try simp [navKeys, getPageJ, jsGet] at hnav
    case jobj fs =>
      rcases hjk : fieldGet fs "keys" with - | v
      · rw [hjk] at hnav; simp at hnav
      · rw [hjk] at hnav
        cases v <;> simp at hnav
        rename_i ks0
        subst hnav
        simp only [normalizePage] at hnp
        rcases hr : rowsOf (some (.jobj fs)) with - | rows
        · rw [hr] at hnp; simp at hnp
        · rw [hr] at hnp
          have hk : keysOf (some (.jobj fs)) = some ks0 := by
            simp [keysOf, hjk]
          rw [hk] at hnp
          simp at hnp
          rcases hnk : normKeys ks0 with - | keys'
          · rw [hnk] at hnp; simp at hnp
          · rw [hnk] at hnp
            simp at hnp
            subst hnp
            refine ⟨keys', ?_, ?_⟩
            · simp [navKeys, getPageJ, jsGet, fieldGet]
            · rfl
  | cons i rest ih =>
    intro pg pg' ks hnp hnav
    rw [navKeys_cons] at hnav
    rcases hjk : jsGet pg "keys" with - | v
    · rw [hjk] at hnav; simp at hnav
    · rw [hjk] at hnav
      cases v <;> simp at hnav
      rename_i ks0
      rcases hki : ks0[i]? with - | k
      · rw [hki] at hnav; simp at hnav
      · rw [hki] at hnav
        simp at hnav
        rcases hkp : jsGet k "page" with - | sub
        · rw [hkp] at hnav; simp at hnav
        · rw [hkp] at hnav
          simp at hnav
          cases pg <;> simp [jsGet] at hjk
          rename_i fs
          simp only [normalizePage] at hnp
          rcases hr : rowsOf (some (.jobj fs)) with - | rows
          · rw [hr] at hnp; simp at hnp
          · rw [hr] at hnp
            have hk : keysOf (some (.jobj fs)) = some ks0 := by
              simp [keysOf, hjk]
            rw [hk] at hnp
            simp at hnp
            rcases hnk : normKeys ks0 with - | keys'
            · rw [hnk] at hnp; simp at hnp
            · rw [hnk] at hnp
              simp at hnp
              subst hnp
              obtain ⟨yk, hyk, hnkey⟩ := normKeys_pointwise ks0 keys' hnk i k hki
              by_cases hsn : sub = .jnull
              · rw [hsn, navKeys_null] at hnav
                simp at hnav
              · obtain ⟨sub', hnsub, hysub⟩ := normKey_page k yk sub hnkey hkp hsn
                obtain ⟨ks', hks', hnks⟩ := ih sub sub' ks hnsub hnav
                refine ⟨ks', ?_, hnks⟩
                have h1 : jsGet (.jobj [("rows", .jnum rows 0),
                    ("keys", .jarr keys')]) "keys" = some (.jarr keys') := by
                  simp [jsGet, fieldGet]
                rw [navKeys_cons, h1]
                simp [hyk, hysub]
                exact hks'

/-- What `normTab` guarantees: the source tab has a string label, the
output carries its trimmed form, and the output page is either a client
page or the normalization of the source page. -/
theorem normTab_parts (t y : Json) (h : normTab t = some y) :
    ∃ l pgy, jsGet t "label" = some (.jstr l) ∧
      jsGet y "label" = some (.jstr (jsTrim l)) ∧
      jsGet y "page" = some pgy ∧
      ((∃ rows cp, pgy = .jobj [("rows", .jnum rows 0), ("client_page", cp)]) ∨
       (∀ pg, jsGet t "page" = some pg → normalizePage pg = some pgy)) := by
  simp only [normTab] at h
  rcases hl : jsGet t "label" with - | v
  · rw [hl] at h; simp at h
  · rw [hl] at h
    cases v <;> simp at h
    rename_i s
    rcases hc : clientOf (jsGet t "page") with - | cp
    · rw [hc] at h
      rcases hr : rowsOf (jsGet t "page") with - | rows
      · rw [hr] at h; simp at h
      · rw [hr] at h
        simp at h
        rcases hk : keysOf (jsGet t "page") with - | keys
        · rw [hk] at h; simp at h
        · rw [hk] at h
          simp at h
          rcases hnk : normKeys keys with - | keys'
          · rw [hnk] at h; simp at h
          · rw [hnk] at h
            simp at h
            subst h
            refine ⟨s, .jobj [("rows", .jnum rows 0), ("keys", .jarr keys')],
              rfl, by simp [jsGet, fieldGet], by simp [jsGet, fieldGet], Or.inr ?_⟩
            intro pg hpg
            rw [hpg] at hr hk
            simp only [normalizePage]
            rw [hr, hk]
            simp [hnk]
    · rw [hc] at h
      rcases hr : rowsOf (jsGet t "page") with - | rows
      · rw [hr] at h; simp at h
      · rw [hr] at h
        simp at h
        subst h
        exact ⟨s, .jobj [("rows", .jnum rows 0), ("client_page", cp)],
          rfl, by simp [jsGet, fieldGet], by simp [jsGet, fieldGet],
          Or.inl ⟨rows, cp, rfl⟩⟩

/-- C5, counterexample: the claim as stated is false.  On a valid
profile whose key label line is `" A "`, normalization keeps the line
as-is (`String(l)`, no trim): the normalized output's key-label line is
`" A "`, not its trimmed form. -/
theorem c5_counterexample :
    validateProfile (.jobj [("type", .jstr "Tabbed"), ("id", .jstr "P"), ("tabs", .jarr [
      .jobj [("label", .jstr "T"), ("page", .jobj [("rows", .jnum 1 0), ("keys", .jarr [
        .jobj [("label", .jarr [.jstr " A "])]])])]])]) = [] ∧
    normalizeProfile (.jobj [("type", .jstr "Tabbed"), ("id", .jstr "P"), ("tabs", .jarr [
      .jobj [("label", .jstr "T"), ("page", .jobj [("rows", .jnum 1 0), ("keys", .jarr [
        .jobj [("label", .jarr [.jstr " A "])]])])]])]) =
      some (.jobj [("id", .jstr "P"), ("type", .jstr "Tabbed"), ("tabs", .jarr [
        .jobj [("label", .jstr "T"), ("page", .jobj [("rows", .jnum 1 0), ("keys", .jarr [
          .jobj [("label", .jarr [.jstr " A "])]])])]])]) ∧
    getKeyAt (.jobj [("type", .jstr "Tabbed"), ("id", .jstr "P"), ("tabs", .jarr [
      .jobj [("label", .jstr "T"), ("page", .jobj [("rows", .jnum 1 0), ("keys", .jarr [
        .jobj [("label", .jarr [.jstr " A "])]])])]])]) 0 [] 0 =
      some (.jobj [("label", .jarr [.jstr " A "])]) ∧
    getKeyAt (.jobj [("id", .jstr "P"), ("type", .jstr "Tabbed"), ("tabs", .jarr [
      .jobj [("label", .jstr "T"), ("page", .jobj [("rows", .jnum 1 0), ("keys", .jarr [
        .jobj [("label", .jarr [.jstr " A "])]])])]])]) 0 [] 0 =
      some (.jobj [("label", .jarr [.jstr " A "])]) ∧
    Json.jstr " A " ≠ .jstr (jsTrim " A ") := by
  refine ⟨by decide, ?_, by decide, by decide, by decide⟩
  simp [normalizeProfile, normTabs, normTab, normKeys, normKey, normalizePage,
    jsGet, fieldGet, rowsOf, keysOf, clientOf, normKeyLabel, normKeyStation,
    jsToString, jsJoinElems, jsJoinElem, jsTrim]
  decide

/-- C5, amended: normalization trims the profile id and every tab
label, but key-label lines (at every subpage depth) are *stringified*
(`String(l)`), truncated to 3 entries, and **not** trimmed: if both the
source and the normalized profile resolve a key at the same position,
the normalized key's label is the stringified, 3-truncated source label
list, entries unchanged. -/
theorem c5_normalize_labels (j y : Json) (hN : normalizeProfile j = some y) :
    (∀ s, jsGet j "id" = some (.jstr s) → jsGet y "id" = some (.jstr (jsTrim s))) ∧
    (∀ ts (i : Nat) t l ys yt, jsGet j "tabs" = some (.jarr ts) → ts[i]? = some t →
       jsGet t "label" = some (.jstr l) →
       jsGet y "tabs" = some (.jarr ys) → ys[i]? = some yt →
       jsGet yt "label" = some (.jstr (jsTrim l))) ∧
    (∀ (ti : Nat) (path : List Nat) (ki : Nat) kin kout,
       getKeyAt j ti path ki = some kin → getKeyAt y ti path ki = some kout →
       jsGet kout "label" = some (.jarr
         (match jsGet kin "label" with
          | some (.jarr ls) => (ls.take 3).map (fun x => .jstr (jsToString x))
          | _ => ([] : List Json)))) := by
  simp only [normalizeProfile] at hN
  rcases hid : jsGet j "id" with - | v
  · rw [hid] at hN; simp at hN
  · rw [hid] at hN
    cases v <;> simp at hN
    rename_i s0
    rcases hts : jsGet j "tabs" with - | w
    · rw [hts] at hN; simp at hN
    · rw [hts] at hN
      cases w <;> simp at hN
      rename_i ts
      rcases hnt : normTabs ts with - | tabs'
      · rw [hnt] at hN; simp at hN
      · rw [hnt] at hN
        simp at hN
        subst hN
        refine ⟨?_, ?_, ?_⟩
        · intro s hs
          simp at hs
          subst hs
          simp [jsGet, fieldGet]
        · intro ts0 i t l ys yt h1 h2 h3 h4 h5
          simp at h1
          subst h1
          simp [jsGet, fieldGet] at h4
          subst h4
          obtain ⟨yt', hyt', hntab⟩ := normTabs_pointwise ts tabs' hnt i t h2
          rw [hyt'] at h5
          simp at h5
          subst h5
          obtain ⟨l', pgy, hl', hylab, hypg, hbranch⟩ := normTab_parts t yt' hntab
          rw [hl'] at h3
          simp at h3
          subst h3
          exact hylab
        · intro ti path ki kin kout h1 h2
          unfold getKeyAt at h1 h2
          rw [hts] at h1
          simp at h1
          have hyt2 : jsGet (.jobj [("id", .jstr (jsTrim s0)), ("type", .jstr "Tabbed"),
              ("tabs", .jarr tabs')]) "tabs" = some (.jarr tabs') := by
            simp [jsGet, fieldGet]
          rw [hyt2] at h2
          simp at h2
          rcases hti : ts[ti]? with - | t
          · rw [hti] at h1; simp at h1
          · rw [hti] at h1
            simp at h1
            obtain ⟨yt, hyti, hntab⟩ := normTabs_pointwise ts tabs' hnt ti t hti
            rw [hyti] at h2
            simp at h2
            rcases hpg : jsGet t "page" with - | pg
            · rw [hpg] at h1; simp at h1
            · rw [hpg] at h1
              simp at h1
              obtain ⟨l, pgy, hl, hylab, hypg, hbranch⟩ := normTab_parts t yt hntab
              rw [hypg] at h2
              simp at h2
              rcases hnv : navKeys pg path with - | ksIn
              · rw [hnv] at h1; simp at h1
              · rw [hnv] at h1
                simp at h1
                rcases hbranch with ⟨rows, cp, hcl⟩ | hdirect
                · rw [hcl, navKeys_clientpage] at h2
                  simp at h2
                · have hnp := hdirect pg hpg
                  obtain ⟨ks', hks', hnks⟩ := navKeys_norm path pg pgy ksIn hnp hnv
                  rw [hks'] at h2
                  simp at h2
                  obtain ⟨yk, hyk, hnkey⟩ := normKeys_pointwise ksIn ks' hnks ki kin h1
                  rw [hyk] at h2
                  simp at h2
                  subst h2
                  have hmatch : (match jsGet kin "label" with
                      | some (.jarr ls) => (ls.take 3).map (fun x => Json.jstr (jsToString x))
                      | _ => ([] : List Json)) = normKeyLabel kin := by
                    rcases hkl : jsGet kin "label" with - | v2
                    · simp [normKeyLabel, hkl]
                    · cases v2 <;> simp [normKeyLabel, hkl]
                  rw [hmatch]
                  exact normKey_label kin _ hnkey

/-- Concrete instance of the amended C5: the id `" P "` is trimmed to
`"P"` while the key-label lines `" A "` and `true` become `" A "`
(untrimmed) and `"true"` (stringified). -/
theorem c5_normalize_labels_witness :
    jsGet (.jobj [("id", .jstr "P"), ("type", .jstr "Tabbed"), ("tabs", .jarr [
      .jobj [("label", .jstr "T"), ("page", .jobj [("rows", .jnum 1 0), ("keys", .jarr [
        .jobj [("label", .jarr [.jstr " A ", .jstr "true"])]])])]])]) "id" =
      some (.jstr (jsTrim " P ")) ∧
    jsGet (.jobj [("label", .jarr [.jstr " A ", .jstr "true"])]) "label" =
      some (.jarr [.jstr " A ", .jstr "true"]) := by
  have h := c5_normalize_labels
    (.jobj [("type", .jstr "Tabbed"), ("id", .jstr " P "), ("tabs", .jarr [
      .jobj [("label", .jstr " T "), ("page", .jobj [("rows", .jnum 1 0), ("keys", .jarr [
        .jobj [("label", .jarr [.jstr " A ", .jbool true])]])])]])])
    (.jobj [("id", .jstr "P"), ("type", .jstr "Tabbed"), ("tabs", .jarr [
      .jobj [("label", .jstr "T"), ("page", .jobj [("rows", .jnum 1 0), ("keys", .jarr [
        .jobj [("label", .jarr [.jstr " A ", .jstr "true"])]])])]])])
    (by simp [normalizeProfile, normTabs, normTab, normKeys, normKey, normalizePage,
          jsGet, fieldGet, rowsOf, keysOf, clientOf, normKeyLabel, normKeyStation,
          jsToString, jsJoinElems, jsJoinElem, jsTrim]
        decide)
  constructor
  · exact h.1 " P " (by decide)
  · have h3 := h.2.2 0 [] 0 (.jobj [("label", .jarr [.jstr " A ", .jbool true])])
      (.jobj [("label", .jarr [.jstr " A ", .jstr "true"])]) (by decide) (by decide)
    have hmatcheval : (match jsGet (.jobj [("label",
          .jarr [.jstr " A ", .jbool true])]) "label" with
        | some (.jarr ls) => (ls.take 3).map (fun x => Json.jstr (jsToString x))
        | _ => ([] : List Json)) = [.jstr " A ", .jstr "true"] := by
      simp [jsGet, fieldGet, jsToString]
    rw [hmatcheval] at h3
    exact h3

/-! ## C7 — inline vs. exploded arrays in the serializer

The property concerns `formatObject`'s per-entry body (`fmtEntry`): an
array value of only primitives is rendered inline exactly when
indent + `"key": ` prefix + compact form fit in 80 UTF-16 units, and is
otherwise exploded one element per line (`fmtElems`); an array with any
non-primitive element is always exploded. -/

theorem hexDigit_ne_nl (m : Nat) (h : m < 16) : hexDigit m ≠ '\n' := by
  interval_cases m <;> decide

theorem digitChar_ne_nl (m : Nat) (h : m < 10) : digitChar m ≠ '\n' := by
  interval_cases m <;> decide

theorem escChar_nn (c : Char) : '\n' ∉ escChar c := by
  unfold escChar
  split_ifs with h1 h2 h3 h4 h5 h6 h7 h8
  · decide
  · decide
  · decide
  · decide
  · decide
  · decide
  · decide
  · intro hmem
    simp only [List.mem_cons, List.not_mem_nil, or_false] at hmem
    rcases hmem with h | h | h | h | h | h
    · exact absurd h (by decide)
    · exact absurd h (by decide)
    · exact absurd h (by decide)
    · exact absurd h (by decide)
    · exact absurd h (hexDigit_ne_nl (c.toNat / 16) (by omega)).symm
    · exact absurd h (hexDigit_ne_nl (c.toNat % 16) (by omega)).symm
  · intro hmem
    simp only [List.mem_cons, List.not_mem_nil, or_false] at hmem
    exact h3 hmem.symm

theorem escBody_nn : ∀ cs, '\n' ∉ escBody cs := by
  intro cs
  induction cs with
  | nil => simp [escBody]
  | cons c rest ih =>
    simp only [escBody]
    intro hmem
    rcases List.mem_append.mp hmem with h | h
    · exact escChar_nn c h
    · exact ih h

theorem jsQuote_nn (s : String) : '\n' ∉ (jsQuote s).data := by
  intro hmem
  simp only [jsQuote, List.mem_cons, List.mem_append, List.mem_singleton] at hmem
  rcases hmem with h | h | h
  · exact absurd h (by decide)
  · exact escBody_nn _ h
  · exact absurd h (by decide)

theorem natDigitsAux_nn : ∀ n acc, (∀ c ∈ acc, c ≠ '\n') →
    ∀ c ∈ natDigitsAux n acc, c ≠ '\n' := by
  intro n
  induction n using Nat.strong_induction_on with
  | _ n ih =>
  intro acc hacc c hc
  match n with
  | 0 =>
    simp only [natDigitsAux] at hc
    exact hacc c hc
  | m + 1 =>
    simp only [natDigitsAux] at hc
    refine ih ((m + 1) / 10) (Nat.div_lt_self (Nat.succ_pos m) (by omega)) _ ?_ c hc
    intro c' hc'
    rcases List.mem_cons.mp hc' with h | h
    · subst h
      exact digitChar_ne_nl _ (Nat.mod_lt _ (by omega))
    · exact hacc c' h

theorem natDigits_nn (n : Nat) : ∀ c ∈ natDigits n, c ≠ '\n' := by
  unfold natDigits
  split
  · intro c hc
    simp at hc
    subst hc
    decide
  · exact natDigitsAux_nn n [] (by simp)

theorem intRepr_nn (m : Int) : '\n' ∉ (intRepr m).data := by
  unfold intRepr
  split
  · intro hmem
    rw [String.data_append] at hmem
    rcases List.mem_append.mp hmem with h | h
    · simp at h
    · exact natDigits_nn _ _ h rfl
  · intro hmem
    exact natDigits_nn _ _ hmem rfl

theorem numToString_nn (m : Int) (e : Nat) : '\n' ∉ (numToString m e).data := by
  have hds : ∀ c ∈ (List.replicate (e + 1 - (natDigits m.natAbs).length) '0' ++
      natDigits m.natAbs), c ≠ '\n' := by
    intro c hc
    rcases List.mem_append.mp hc with h | h
    · rw [List.eq_of_mem_replicate h]
      decide
    · exact natDigits_nn _ _ h
  unfold numToString
  split
  · exact intRepr_nn m
  · intro hmem
    by_cases hm : m < 0 <;> simp [hm, String.data_append] at hmem <;>
      rcases hmem with h | h
    · exact hds _ (List.mem_of_mem_take h) rfl
    · exact hds _ (List.mem_of_mem_drop h) rfl
    · exact hds _ (List.mem_of_mem_take h) rfl
    · exact hds _ (List.mem_of_mem_drop h) rfl

theorem stringifyCompact_prim_nn (v : Json) (h : isPrimitive v = true) :
    '\n' ∉ (stringifyCompact v).data := by
  cases v <;> simp [isPrimitive] at h <;> simp only [stringifyCompact]
  · decide
  · rename_i b
    cases b <;> decide
  · exact numToString_nn _ _
  · exact jsQuote_nn _

theorem formatInline_prim (v : Json) (h : isPrimitive v = true) :
    formatInline v = stringifyCompact v := by
  cases v <;> simp [isPrimitive] at h <;> simp [formatInline]

theorem inlineElems_nn : ∀ l : List Json, (∀ x ∈ l, isPrimitive x = true) →
    '\n' ∉ (inlineElems l).data := by
  intro l
  induction l with
  | nil =>
    intro h
    simp [inlineElems]
  | cons x rest ih =>
    intro h
    have hx := h x (by simp)
    cases rest with
    | nil =>
      simp only [inlineElems]
      rw [formatInline_prim x hx]
      exact stringifyCompact_prim_nn x hx
    | cons y t =>
      simp only [inlineElems]
      rw [formatInline_prim x hx]
      intro hmem
      rw [String.data_append, String.data_append] at hmem
      rcases List.mem_append.mp hmem with hmem2 | hmem2
      · rcases List.mem_append.mp hmem2 with h3 | h3
        · exact stringifyCompact_prim_nn x hx h3
        · simp at h3
      · exact ih (fun z hz => h z (by simp [hz])) hmem2

theorem indentRepeat_nn (d : Nat) : '\n' ∉ (indentRepeat d).data := by
  intro hmem
  simp only [indentRepeat] at hmem
  exact absurd (List.eq_of_mem_replicate hmem) (by decide)

theorem nn_append (a b : String) (ha : '\n' ∉ a.data) (hb : '\n' ∉ b.data) :
    '\n' ∉ (a ++ b).data := by
  intro h
  rw [String.data_append] at h
  rcases List.mem_append.mp h with h | h
  · exact ha h
  · exact hb h

/-- C7: an object entry whose value is an array of primitives only is
rendered inline as `[a, b, c]` exactly when indentation + `"key": `
prefix + compact array fit in 80 UTF-16 units — the inline rendering is
a single line (no LF) — and is otherwise exploded with one element per
line (`fmtElems`); an array with any non-primitive element is always
exploded, its elements recursively formatted. -/
theorem c7_array_rendering (k : String) (l : List Json) (depth : Nat) (comma : Bool) :
    (l.all isPrimitive = true →
       (strLen16 (indentRepeat (depth + 1)) + strLen16 (jsQuote k ++ ": ") +
           strLen16 ("[" ++ inlineElems l ++ "]") ≤ 80 →
         fmtEntry k (.jarr l) depth comma =
           indentRepeat (depth + 1) ++ (jsQuote k ++ ": ") ++
             ("[" ++ inlineElems l ++ "]") ++ (if comma then "," else "") ∧
         '\n' ∉ (fmtEntry k (.jarr l) depth comma).data) ∧
       (80 < strLen16 (indentRepeat (depth + 1)) + strLen16 (jsQuote k ++ ": ") +
           strLen16 ("[" ++ inlineElems l ++ "]") →
         fmtEntry k (.jarr l) depth comma =
           indentRepeat (depth + 1) ++ (jsQuote k ++ ": ") ++ "[" ++ "\n" ++
             fmtElems l (depth + 2) ++ "\n" ++ indentRepeat (depth + 1) ++ "]" ++
             (if comma then "," else ""))) ∧
    (l.any (fun x => !isPrimitive x) = true →
       fmtEntry k (.jarr l) depth comma =
         indentRepeat (depth + 1) ++ (jsQuote k ++ ": ") ++ "[" ++ "\n" ++
           fmtElems l (depth + 2) ++ "\n" ++ indentRepeat (depth + 1) ++ "]" ++
           (if comma then "," else "")) := by
  refine ⟨fun hall => ?_, fun hany => ?_⟩
  · have hany' : l.any (fun x => !isPrimitive x) = false := by
      rw [Bool.eq_false_iff]
      intro hc
      rw [List.any_eq_true] at hc
      obtain ⟨x, hx, hpx⟩ := hc
      have := List.all_eq_true.mp hall x hx
      simp [this] at hpx
    constructor
    · intro hfit
      have heq : fmtEntry k (.jarr l) depth comma =
          indentRepeat (depth + 1) ++ (jsQuote k ++ ": ") ++
            ("[" ++ inlineElems l ++ "]") ++ (if comma then "," else "") := by
        simp only [fmtEntry, hany']
        rw [if_neg (by simp)]
        rw [if_pos (by omega :
          (strLen16 ("[" ++ inlineElems l ++ "]") : Int) ≤
            80 - strLen16 (jsQuote k ++ ": ") - strLen16 (indentRepeat (depth + 1)))]
      refine ⟨heq, ?_⟩
      rw [heq]
      refine nn_append _ _ (nn_append _ _ (nn_append _ _ ?_ ?_) ?_) ?_
      · exact indentRepeat_nn _
      · refine nn_append _ _ (jsQuote_nn _) (by decide)
      · refine nn_append _ _ (nn_append _ _ (by decide) ?_) (by decide)
        exact inlineElems_nn l (fun x hx => List.all_eq_true.mp hall x hx)
      · cases comma <;> decide
    · intro hlong
      simp only [fmtEntry, hany']
      rw [if_neg (by simp)]
      rw [if_neg (by omega :
        ¬ (strLen16 ("[" ++ inlineElems l ++ "]") : Int) ≤
          80 - strLen16 (jsQuote k ++ ": ") - strLen16 (indentRepeat (depth + 1)))]
  · simp only [fmtEntry, hany]
    rw [if_pos trivial]

/-- Concrete instances of C7: `"label": ["A"]` fits and is inline (one
line); the same entry with a 100-character string explodes; `[obj]`
explodes regardless of width. -/
theorem c7_array_rendering_witness :
    fmtEntry "label" (.jarr [.jstr "A"]) 0 true =
      indentRepeat 1 ++ (jsQuote "label" ++ ": ") ++
        ("[" ++ inlineElems [.jstr "A"] ++ "]") ++ "," ∧
    fmtEntry "label" (.jarr [.jstr ⟨List.replicate 100 'a'⟩]) 0 true =
      indentRepeat 1 ++ (jsQuote "label" ++ ": ") ++ "[" ++ "\n" ++
        fmtElems [.jstr ⟨List.replicate 100 'a'⟩] 2 ++ "\n" ++ indentRepeat 1 ++ "]" ++ "," ∧
    fmtEntry "label" (.jarr [.jobj []]) 0 true =
      indentRepeat 1 ++ (jsQuote "label" ++ ": ") ++ "[" ++ "\n" ++
        fmtElems [.jobj []] 2 ++ "\n" ++ indentRepeat 1 ++ "]" ++ "," := by
  refine ⟨?_, ?_, ?_⟩
  · exact (((c7_array_rendering "label" [.jstr "A"] 0 true).1 (by decide)).1 (by decide)).1
  · exact ((c7_array_rendering "label" [.jstr ⟨List.replicate 100 'a'⟩] 0 true).1
      (by decide)).2 (by decide)
  · exact (c7_array_rendering "label" [.jobj []] 0 true).2 (by decide)

/-! ## C1 — the serialize/parse round trip

Machinery: the JSON texts produced by the three printers
(`stringifyCompact`, `formatInline`, `format`) are characterized by a
rendering relation (`RVal`/`RElems`/`RFields`), the parser is proven
correct on every rendered text, and each printer is proven to render. -/

def allWs : List Char → Prop := fun w => ∀ c ∈ w, isWs c = true

/-- Characters that could extend a number token. -/
def isNumCont (c : Char) : Bool :=
  isDigit c || c = '.' || c = 'e' || c = 'E'

/-- The continuation after a rendered value must not extend a number
token (whitespace, `,`, `]`, `}` or end of input all qualify). -/
def delimOk : List Char → Prop := fun rest =>
  match rest with
  | [] => True
  | c :: _ => isNumCont c = false

theorem skipWs_allWs_append (w : List Char) (hw : allWs w) (x : List Char) :
    skipWs (w ++ x) = skipWs x := by
  induction w with
  | nil => rfl
  | cons c t ih =>
    have hc := hw c (by simp)
    simp only [List.cons_append, skipWs]
    rw [if_pos hc]
    exact ih (fun c' hc' => hw c' (by simp [hc']))

theorem skipWs_nonws (c : Char) (rest : List Char) (hc : isWs c = false) :
    skipWs (c :: rest) = c :: rest := by
  simp only [skipWs]
  rw [if_neg (by simp [hc])]

theorem delimOk_ws_append (w : List Char) (hw : allWs w) (x : List Char)
    (hx : delimOk x) : delimOk (w ++ x) := by
  cases w with
  | nil => exact hx
  | cons c t =>
    have hc := hw c (by simp)
    show isNumCont c = false
    simp only [isWs, Bool.or_eq_true, decide_eq_true_eq] at hc
    rcases hc with ((h | h) | h) | h <;> subst h <;> decide

theorem hexVal_hexDigit (n : Nat) (h : n < 16) : hexVal (hexDigit n) = some n := by
  interval_cases n <;> decide

/-- `parseStrBody` inverts `escBody`: reading the escaped body plus a
closing quote returns the original characters. -/
theorem parseStrBody_escBody : ∀ cs rest,
    parseStrBody (escBody cs ++ '"' :: rest) = some (cs, rest) := by
  intro cs
  induction cs with
  | nil =>
    intro rest
    simp only [escBody, List.nil_append]
    rw [parseStrBody.eq_def]
    simp
  | cons c t ih =>
    intro rest
    simp only [escBody, List.append_assoc]
    by_cases h1 : c = '"'
    · subst h1
      rw [show escChar '"' = ['\\', '"'] from by decide]
      simp only [List.cons_append, List.nil_append]
      rw [parseStrBody.eq_def]
      simp [escDecode, ih]
    · by_cases h2 : c = '\\'
      · subst h2
        rw [show escChar '\\' = ['\\', '\\'] from by decide]
        simp only [List.cons_append, List.nil_append]
        rw [parseStrBody.eq_def]
        simp [escDecode, ih]
      · by_cases h3 : c = '\n'
        · subst h3
          rw [show escChar '\n' = ['\\', 'n'] from by decide]
          simp only [List.cons_append, List.nil_append]
          rw [parseStrBody.eq_def]
          simp [escDecode, ih]
        · by_cases h4 : c = '\r'
          · subst h4
            rw [show escChar '\r' = ['\\', 'r'] from by decide]
            simp only [List.cons_append, List.nil_append]
            rw [parseStrBody.eq_def]
            simp [escDecode, ih]
          · by_cases h5 : c = '\t'
            · subst h5
              rw [show escChar '\t' = ['\\', 't'] from by decide]
              simp only [List.cons_append, List.nil_append]
              rw [parseStrBody.eq_def]
              simp [escDecode, ih]
            · by_cases h6 : c.toNat = 8
              · have hc : c = Char.ofNat 8 := by
                  have := Char.ofNat_toNat c
                  rw [h6] at this
                  exact this.symm
                subst hc
                rw [show escChar (Char.ofNat 8) = ['\\', 'b'] from by decide]
                simp only [List.cons_append, List.nil_append]
                rw [parseStrBody.eq_def]
                simp [escDecode, ih]
              · by_cases h7 : c.toNat = 12
                · have hc : c = Char.ofNat 12 := by
                    have := Char.ofNat_toNat c
                    rw [h7] at this
                    exact this.symm
                  subst hc
                  rw [show escChar (Char.ofNat 12) = ['\\', 'f'] from by decide]
                  simp only [List.cons_append, List.nil_append]
                  rw [parseStrBody.eq_def]
                  simp [escDecode, ih]
                · by_cases h8 : c.toNat < 32
                  · rw [show escChar c = ['\\', 'u', '0', '0', hexDigit (c.toNat / 16),
                        hexDigit (c.toNat % 16)] from by
                      simp [escChar, h1, h2, h3, h4, h5, h6, h7, h8]]
                    simp only [List.cons_append, List.nil_append]
                    rw [parseStrBody.eq_def]
                    have hvalid : c.toNat.isValidChar := c.valid
                    have h0 : hexVal '0' = some 0 := by decide
                    have hhi := hexVal_hexDigit (c.toNat / 16) (by omega)
                    have hlo := hexVal_hexDigit (c.toNat % 16) (by omega)
                    simp [h0, hhi, hlo, Nat.div_add_mod, hvalid, Char.ofNat_toNat, ih]
                    have hdm : c.toNat / 16 * 16 + c.toNat % 16 = c.toNat := by omega
                    rw [hdm, if_pos hvalid]
                    exact Char.ofNat_toNat c
                  · rw [show escChar c = [c] from by
                      simp [escChar, h1, h2, h3, h4, h5, h6, h7, h8]]
                    simp only [List.cons_append, List.nil_append]
                    rw [parseStrBody.eq_def]
                    simp [h1, h2, h8, ih]

theorem digitVal_digitChar (m : Nat) (h : m < 10) : digitVal (digitChar m) = m := by
  interval_cases m <;> decide

theorem isDigit_digitChar (m : Nat) (h : m < 10) : isDigit (digitChar m) = true := by
  interval_cases m <;> decide

theorem digitsVal_acc : ∀ (ds : List Char) (a : Nat),
    digitsVal a ds = a * 10 ^ ds.length + digitsVal 0 ds := by
  intro ds
  induction ds with
  | nil =>
    intro a
    show a = a * 10 ^ 0 + 0
    simp
  | cons c rest ih =>
    intro a
    show digitsVal (a * 10 + digitVal c) rest =
      a * 10 ^ (c :: rest).length + digitsVal (0 * 10 + digitVal c) rest
    rw [ih (a * 10 + digitVal c)]
    conv_rhs => rw [ih]
    simp only [List.length_cons]
    ring

theorem natDigitsAux_val : ∀ n acc,
    digitsVal 0 (natDigitsAux n acc) = n * 10 ^ acc.length + digitsVal 0 acc := by
  intro n
  induction n using Nat.strong_induction_on with
  | _ n ih =>
  intro acc
  match n with
  | 0 =>
    simp only [natDigitsAux]
    simp
  | m + 1 =>
    simp only [natDigitsAux]
    rw [ih ((m + 1) / 10) (Nat.div_lt_self (Nat.succ_pos m) (by omega))]
    rw [show digitsVal 0 (digitChar ((m + 1) % 10) :: acc) =
      digitsVal (0 * 10 + digitVal (digitChar ((m + 1) % 10))) acc from rfl]
    rw [digitsVal_acc acc (0 * 10 + digitVal (digitChar ((m + 1) % 10)))]
    rw [digitVal_digitChar _ (Nat.mod_lt _ (by omega))]
    simp only [List.length_cons]
    have hdm : (m + 1) / 10 * 10 + (m + 1) % 10 = m + 1 := by omega
    calc (m + 1) / 10 * 10 ^ (acc.length + 1) +
          ((0 * 10 + (m + 1) % 10) * 10 ^ acc.length + digitsVal 0 acc)
        = ((m + 1) / 10 * 10 + (m + 1) % 10) * 10 ^ acc.length + digitsVal 0 acc := by ring
      _ = (m + 1) * 10 ^ acc.length + digitsVal 0 acc := by rw [hdm]

theorem digitsVal_natDigits (n : Nat) : digitsVal 0 (natDigits n) = n := by
  unfold natDigits
  split
  · rename_i h
    subst h
    decide
  · rw [natDigitsAux_val]
    show n * 10 ^ 0 + 0 = n
    simp

theorem natDigitsAux_digit : ∀ n acc, (∀ c ∈ acc, isDigit c = true) →
    ∀ c ∈ natDigitsAux n acc, isDigit c = true := by
  intro n
  induction n using Nat.strong_induction_on with
  | _ n ih =>
  intro acc hacc c hc
  match n with
  | 0 =>
    simp only [natDigitsAux] at hc
    exact hacc c hc
  | m + 1 =>
    simp only [natDigitsAux] at hc
    refine ih ((m + 1) / 10) (Nat.div_lt_self (Nat.succ_pos m) (by omega)) _ ?_ c hc
    intro c' hc'
    rcases List.mem_cons.mp hc' with h | h
    · subst h
      exact isDigit_digitChar _ (Nat.mod_lt _ (by omega))
    · exact hacc c' h

theorem natDigits_digit (n : Nat) : ∀ c ∈ natDigits n, isDigit c = true := by
  unfold natDigits
  split
  · intro c hc
    simp at hc
    subst hc
    decide
  · exact natDigitsAux_digit n [] (by simp)

theorem natDigitsAux_len : ∀ n acc, acc.length ≤ (natDigitsAux n acc).length := by
  intro n
  induction n using Nat.strong_induction_on with
  | _ n ih =>
  intro acc
  match n with
  | 0 =>
    simp [natDigitsAux]
  | m + 1 =>
    simp only [natDigitsAux]
    have := ih ((m + 1) / 10) (Nat.div_lt_self (Nat.succ_pos m) (by omega))
      (digitChar ((m + 1) % 10) :: acc)
    simp at this
    omega

theorem natDigits_ne_nil (n : Nat) : natDigits n ≠ [] := by
  unfold natDigits
  split
  · simp
  · rename_i hn
    match n, hn with
    | m + 1, _ =>
      simp only [natDigitsAux]
      intro h
      have := natDigitsAux_len ((m + 1) / 10) (digitChar ((m + 1) % 10) :: [])
      rw [h] at this
      simp at this

/-- The head of the continuation is not a digit. -/
def notDigitHead : List Char → Prop := fun rest =>
  match rest with
  | [] => True
  | c :: _ => isDigit c = false

theorem delimOk_notDigit (rest : List Char) (h : delimOk rest) : notDigitHead rest := by
  cases rest with
  | nil => trivial
  | cons c t =>
    show isDigit c = false
    have h' : isNumCont c = false := h
    simp [isNumCont] at h'
    exact h'.1.1.1

theorem takeDigits_spec : ∀ (ds rest : List Char), (∀ c ∈ ds, isDigit c = true) →
    notDigitHead rest → takeDigits (ds ++ rest) = (ds, rest) := by
  intro ds
  induction ds with
  | nil =>
    intro rest hds hrest
    cases rest with
    | nil => rfl
    | cons c t =>
      have hc : isDigit c = false := hrest
      simp [takeDigits, hc]
  | cons d ds' ih =>
    intro rest hds hrest
    have hd := hds d (by simp)
    simp only [List.cons_append, takeDigits, hd, if_true, List.append_eq]
    rw [ih rest (fun c hc => hds c (by simp [hc])) hrest]

theorem digitsVal_append (a b : List Char) :
    digitsVal 0 (a ++ b) = digitsVal 0 a * 10 ^ b.length + digitsVal 0 b := by
  have step : ∀ (a : List Char) (x : Nat), digitsVal x (a ++ b) = digitsVal (digitsVal x a) b := by
    intro a
    induction a with
    | nil => intro x; rfl
    | cons c t ih =>
      intro x
      show digitsVal (x * 10 + digitVal c) (t ++ b) = digitsVal (digitsVal x (c :: t)) b
      exact ih _
  rw [step a 0, digitsVal_acc]

theorem digitsVal_zeros (k : Nat) : digitsVal 0 (List.replicate k '0') = 0 := by
  induction k with
  | zero => rfl
  | succ n ih =>
    show digitsVal (0 * 10 + digitVal '0') (List.replicate n '0') = 0
    have h0 : (0 * 10 + digitVal '0') = 0 := by decide
    rw [h0]
    exact ih

theorem parseFracPart_nodot (cs : List Char) (h : ∀ r, cs ≠ '.' :: r) :
    parseFracPart cs = some ([], cs) := by
  rw [parseFracPart.eq_def]
  split
  · rename_i r
    exact absurd rfl (h r)
  · rfl

theorem parseExpPart_noexp (cs : List Char)
    (h : ∀ c t, cs = c :: t → c ≠ 'e' ∧ c ≠ 'E') :
    parseExpPart cs = some (0, cs) := by
  cases cs with
  | nil => rfl
  | cons c t =>
    obtain ⟨h1, h2⟩ := h c t rfl
    rw [parseExpPart.eq_def]
    simp [h1, h2]

/-- `parseNum` inverts `numToString`, as long as the continuation does
not extend the number token. -/
theorem parseNum_numToString (m : Int) (e : Nat) (rest : List Char) (hdel : delimOk rest) :
    parseNum ((numToString m e).data ++ rest) = some (.jnum m e, rest) := by
  have hnd := delimOk_notDigit rest hdel
  have hdot : ∀ r, rest ≠ '.' :: r := by
    intro r he
    subst he
    have h9 : isNumCont '.' = false := hdel
    exact absurd h9 (by decide)
  have hexp : ∀ c t, rest = c :: t → c ≠ 'e' ∧ c ≠ 'E' := by
    intro c t hct
    subst hct
    have h9 : isNumCont c = false := hdel
    constructor
    · intro hc
      subst hc
      exact absurd h9 (by decide)
    · intro hc
      subst hc
      exact absurd h9 (by decide)
  obtain ⟨d, ds, hds⟩ : ∃ d ds, natDigits m.natAbs = d :: ds := by
    rcases hh : natDigits m.natAbs with - | ⟨d, ds⟩
    · exact absurd hh (natDigits_ne_nil _)
    · exact ⟨d, ds, rfl⟩
  have hdsdig : ∀ c ∈ d :: ds, isDigit c = true := by
    rw [← hds]
    exact natDigits_digit _
  have hddig : isDigit d = true := hdsdig d (by simp)
  have hdned : d ≠ '-' := by
    intro heq
    rw [heq] at hddig
    exact absurd hddig (by decide)
  by_cases he : e = 0
  · subst he
    rw [show numToString m 0 = intRepr m from by simp [numToString]]
    unfold intRepr
    by_cases hm : m < 0
    · rw [if_pos hm, String.data_append]
      rw [show ("-" : String).data = ['-'] from rfl]
      rw [show (⟨natDigits m.natAbs⟩ : String).data = natDigits m.natAbs from rfl]
      rw [hds]
      rw [parseNum.eq_def]
      have htd : takeDigits (d :: (ds ++ rest)) = (d :: ds, rest) := by
        rw [← List.cons_append]
        exact takeDigits_spec (d :: ds) rest hdsdig hnd
      simp only [List.cons_append, List.nil_append, List.head?_cons, List.tail_cons]
      simp [htd, parseFracPart_nodot rest hdot, parseExpPart_noexp rest hexp]
      rw [← hds, digitsVal_natDigits]
      omega
    · rw [if_neg hm]
      rw [show (⟨natDigits m.natAbs⟩ : String).data = natDigits m.natAbs from rfl]
      rw [hds]
      rw [parseNum.eq_def]
      have htd : takeDigits (d :: (ds ++ rest)) = (d :: ds, rest) := by
        rw [← List.cons_append]
        exact takeDigits_spec (d :: ds) rest hdsdig hnd
      simp only [List.cons_append, List.nil_append, List.head?_cons, List.tail_cons]
      simp [htd, parseFracPart_nodot rest hdot, parseExpPart_noexp rest hexp, hdned]
      rw [← hds, digitsVal_natDigits]
      omega
  · have hnd1 : 1 ≤ (natDigits m.natAbs).length := by
      rcases hh : natDigits m.natAbs with - | ⟨x, xs⟩
      · exact absurd hh (natDigits_ne_nil _)
      · simp
    have hL : (List.replicate (e + 1 - (natDigits m.natAbs).length) '0' ++
        natDigits m.natAbs).length = e + 1 - (natDigits m.natAbs).length +
        (natDigits m.natAbs).length := by
      simp
    have hLe : e + 1 ≤ (List.replicate (e + 1 - (natDigits m.natAbs).length) '0' ++
        natDigits m.natAbs).length ∨ (e + 1 - (natDigits m.natAbs).length = 0 ∧
        e + 1 ≤ (natDigits m.natAbs).length + 1) := by
      omega
    have hds0dig : ∀ c ∈ List.replicate (e + 1 - (natDigits m.natAbs).length) '0' ++
        natDigits m.natAbs, isDigit c = true := by
      intro c hc
      rcases List.mem_append.mp hc with h | h
      · rw [List.eq_of_mem_replicate h]
        decide
      · exact natDigits_digit _ c h
    rw [show numToString m e = (if m < 0 then "-" else "") ++
        ⟨(List.replicate (e + 1 - (natDigits m.natAbs).length) '0' ++
          natDigits m.natAbs).take
          ((List.replicate (e + 1 - (natDigits m.natAbs).length) '0' ++
            natDigits m.natAbs).length - e)⟩ ++ "." ++
        ⟨(List.replicate (e + 1 - (natDigits m.natAbs).length) '0' ++
          natDigits m.natAbs).drop
          ((List.replicate (e + 1 - (natDigits m.natAbs).length) '0' ++
            natDigits m.natAbs).length - e)⟩ from by
      rw [numToString]
      rw [if_neg he]]
    have hLge : e + 1 ≤ (List.replicate (e + 1 - (natDigits m.natAbs).length) '0' ++
        natDigits m.natAbs).length := by
      rw [hL]
      omega
    have htklen : ((List.replicate (e + 1 - (natDigits m.natAbs).length) '0' ++
        natDigits m.natAbs).take
        ((List.replicate (e + 1 - (natDigits m.natAbs).length) '0' ++
          natDigits m.natAbs).length - e)).length =
        (List.replicate (e + 1 - (natDigits m.natAbs).length) '0' ++
          natDigits m.natAbs).length - e := by
      rw [List.length_take]
      omega
    have hdplen : ((List.replicate (e + 1 - (natDigits m.natAbs).length) '0' ++
        natDigits m.natAbs).drop
        ((List.replicate (e + 1 - (natDigits m.natAbs).length) '0' ++
          natDigits m.natAbs).length - e)).length = e := by
      rw [List.length_drop]
      omega
    rcases htk : (List.replicate (e + 1 - (natDigits m.natAbs).length) '0' ++
        natDigits m.natAbs).take
        ((List.replicate (e + 1 - (natDigits m.natAbs).length) '0' ++
          natDigits m.natAbs).length - e) with - | ⟨dt, tr⟩
    · rw [htk] at htklen
      simp at htklen
      omega
    rcases hdp : (List.replicate (e + 1 - (natDigits m.natAbs).length) '0' ++
        natDigits m.natAbs).drop
        ((List.replicate (e + 1 - (natDigits m.natAbs).length) '0' ++
          natDigits m.natAbs).length - e) with - | ⟨dd, dr⟩
    · rw [hdp] at hdplen
      simp at hdplen
      omega
    have htkdig : ∀ c ∈ dt :: tr, isDigit c = true := by
      rw [← htk]
      intro c hc
      exact hds0dig c (List.mem_of_mem_take hc)
    have hdpdig : ∀ c ∈ dd :: dr, isDigit c = true := by
      rw [← hdp]
      intro c hc
      exact hds0dig c (List.mem_of_mem_drop hc)
    have htd1 : takeDigits (dt :: (tr ++ ('.' :: (dd :: (dr ++ rest))))) =
        (dt :: tr, '.' :: (dd :: (dr ++ rest))) := by
      have h0 := takeDigits_spec (dt :: tr) ('.' :: ((dd :: dr) ++ rest)) htkdig
        (by show isDigit '.' = false; decide)
      simpa using h0
    have htd2 : takeDigits (dd :: (dr ++ rest)) = (dd :: dr, rest) := by
      have h0 := takeDigits_spec (dd :: dr) rest hdpdig hnd
      simpa using h0
    have hval : digitsVal 0 (dt :: (tr ++ (dd :: dr))) = m.natAbs := by
      rw [show dt :: (tr ++ (dd :: dr)) = (dt :: tr) ++ (dd :: dr) from by simp]
      rw [← htk, ← hdp, List.take_append_drop, digitsVal_append, digitsVal_zeros,
        digitsVal_natDigits]
      simp
    have hfrac : parseFracPart ('.' :: (dd :: (dr ++ rest))) = some (dd :: dr, rest) := by
      rw [parseFracPart.eq_def]
      simp [htd2]
    have hfplen : (dd :: dr).length = e := by
      rw [← hdp]
      exact hdplen
    have hcond : ¬((e : Int) ≤ 0) := by omega
    by_cases hm : m < 0
    · rw [if_pos hm]
      rw [String.data_append, String.data_append, String.data_append]
      rw [show ("-" : String).data = ['-'] from rfl,
        show ("." : String).data = ['.'] from rfl]
      dsimp only
      rw [parseNum.eq_def]
      simp only [List.cons_append, List.nil_append, List.append_assoc,
        List.head?_cons, List.tail_cons]
      simp [htd1, hfrac, parseExpPart_noexp rest hexp, hval, hfplen, hcond,
        abs_of_neg hm]
    · rw [if_neg hm]
      rw [String.data_append, String.data_append, String.data_append]
      rw [show ("" : String).data = [] from rfl,
        show ("." : String).data = ['.'] from rfl]
      dsimp only
      have hdtne : dt ≠ '-' := by
        intro heq
        have h9 := htkdig dt (by simp)
        rw [heq] at h9
        exact absurd h9 (by decide)
      rw [parseNum.eq_def]
      simp only [List.cons_append, List.nil_append, List.append_assoc,
        List.head?_cons, List.tail_cons]
      simp [htd1, hfrac, parseExpPart_noexp rest hexp, hval, hfplen, hcond, hdtne,
        abs_of_nonneg (not_lt.mp hm)]

/-! ### Rendering relations -/

mutual
inductive RVal : Json → List Char → Prop where
  | rnull : RVal .jnull ['n', 'u', 'l', 'l']
  | rtrue : RVal (.jbool true) ['t', 'r', 'u', 'e']
  | rfalse : RVal (.jbool false) ['f', 'a', 'l', 's', 'e']
  | rnum (m : Int) (e : Nat) : RVal (.jnum m e) (numToString m e).data
  | rstr (s : String) : RVal (.jstr s) ('"' :: (escBody s.data ++ ['"']))
  | rarrnil (w : List Char) : allWs w → RVal (.jarr []) ('[' :: (w ++ [']']))
  | rarr (v : Json) (vs : List Json) (w cs : List Char) :
      allWs w → RElems (v :: vs) cs → RVal (.jarr (v :: vs)) ('[' :: (w ++ cs))
  | robjnil (w : List Char) : allWs w → RVal (.jobj []) (obChar :: (w ++ [cbChar]))
  | robj (kv : String × Json) (fs : List (String × Json)) (w cs : List Char) :
      allWs w → RFields (kv :: fs) cs → RVal (.jobj (kv :: fs)) (obChar :: (w ++ cs))

inductive RElems : List Json → List Char → Prop where
  | single (v : Json) (c w : List Char) :
      RVal v c → allWs w → RElems [v] (c ++ (w ++ [']']))
  | cons (v : Json) (vs : List Json) (c w1 w2 cs : List Char) :
      RVal v c → allWs w1 → allWs w2 → RElems vs cs →
      RElems (v :: vs) (c ++ (w1 ++ (',' :: (w2 ++ cs))))

inductive RFields : List (String × Json) → List Char → Prop where
  | single (k : List Char) (v : Json) (c w1 w2 w3 : List Char) :
      RVal v c → allWs w1 → allWs w2 → allWs w3 →
      RFields [(⟨k⟩, v)]
        ('"' :: (escBody k ++ ('"' :: (w1 ++ (':' :: (w2 ++ (c ++ (w3 ++ [cbChar]))))))))
  | cons (k : List Char) (v : Json) (fs : List (String × Json)) (c w1 w2 w3 w4 cs : List Char) :
      RVal v c → allWs w1 → allWs w2 → allWs w3 → allWs w4 → RFields fs cs →
      RFields ((⟨k⟩, v) :: fs)
        ('"' :: (escBody k ++ ('"' :: (w1 ++ (':' :: (w2 ++ (c ++ (w3 ++ (',' :: (w4 ++ cs))))))))))
end

theorem allWs_nil : allWs ([] : List Char) := by
  intro c hc
  simp at hc

/-- A decimal digit is none of the parser dispatch characters. -/
theorem isDigit_facts (c : Char) (hc : isDigit c = true) :
    isWs c = false ∧ c ≠ ']' ∧ c ≠ obChar ∧ c ≠ '[' ∧ c ≠ '"' ∧
      c ≠ 't' ∧ c ≠ 'f' ∧ c ≠ 'n' ∧ c ≠ cbChar := by
  simp only [isDigit, Bool.and_eq_true, decide_eq_true_eq] at hc
  obtain ⟨h1, h2⟩ := hc
  have hne : ∀ (d : Char), d.toNat < 48 ∨ 57 < d.toNat → c ≠ d := by
    intro d hd he
    subst he
    omega
  refine ⟨?_, hne ']' (by decide), hne obChar (by decide), hne '[' (by decide),
    hne '"' (by decide), hne 't' (by decide), hne 'f' (by decide), hne 'n' (by decide),
    hne cbChar (by decide)⟩
  simp [isWs, hne ' ' (by decide), hne '\t' (by decide), hne '\n' (by decide),
    hne '\r' (by decide)]

/-- The first character of a rendered number is a minus sign or digit. -/
theorem numToString_head (m : Int) (e : Nat) :
    ∃ d t, (numToString m e).data = d :: t ∧ (d = '-' ∨ isDigit d = true) := by
  by_cases he : e = 0
  · subst he
    rw [show numToString m 0 = intRepr m from by simp [numToString]]
    unfold intRepr
    rcases hh : natDigits m.natAbs with - | ⟨d, ds⟩
    · exact absurd hh (natDigits_ne_nil _)
    by_cases hm : m < 0
    · rw [if_pos hm]
      refine ⟨'-', d :: ds, ?_, Or.inl rfl⟩
      rw [String.data_append]
      rfl
    · rw [if_neg hm]
      exact ⟨d, ds, rfl, Or.inr (natDigits_digit _ d (by rw [hh]; simp))⟩
  · have hds0dig : ∀ c ∈ List.replicate (e + 1 - (natDigits m.natAbs).length) '0' ++
        natDigits m.natAbs, isDigit c = true := by
      intro c hc
      rcases List.mem_append.mp hc with h | h
      · rw [List.eq_of_mem_replicate h]
        decide
      · exact natDigits_digit _ c h
    have hnd1 : 1 ≤ (natDigits m.natAbs).length := by
      rcases hh : natDigits m.natAbs with - | ⟨x, xs⟩
      · exact absurd hh (natDigits_ne_nil _)
      · simp
    rw [show numToString m e = (if m < 0 then "-" else "") ++
        ⟨(List.replicate (e + 1 - (natDigits m.natAbs).length) '0' ++
          natDigits m.natAbs).take
          ((List.replicate (e + 1 - (natDigits m.natAbs).length) '0' ++
            natDigits m.natAbs).length - e)⟩ ++ "." ++
        ⟨(List.replicate (e + 1 - (natDigits m.natAbs).length) '0' ++
          natDigits m.natAbs).drop
          ((List.replicate (e + 1 - (natDigits m.natAbs).length) '0' ++
            natDigits m.natAbs).length - e)⟩ from by
      rw [numToString]
      rw [if_neg he]]
    rcases htk : (List.replicate (e + 1 - (natDigits m.natAbs).length) '0' ++
        natDigits m.natAbs).take
        ((List.replicate (e + 1 - (natDigits m.natAbs).length) '0' ++
          natDigits m.natAbs).length - e) with - | ⟨dt, tr⟩
    · have hc := congrArg List.length htk
      simp [List.length_take] at hc
      omega
    have hdt : isDigit dt = true := by
      have hmem : dt ∈ (List.replicate (e + 1 - (natDigits m.natAbs).length) '0' ++
          natDigits m.natAbs).take
          ((List.replicate (e + 1 - (natDigits m.natAbs).length) '0' ++
            natDigits m.natAbs).length - e) := by
        rw [htk]
        simp
      exact hds0dig dt (List.mem_of_mem_take hmem)
    by_cases hm : m < 0
    · rw [if_pos hm]
      refine ⟨'-', dt :: (tr ++ '.' ::
        (List.replicate (e + 1 - (natDigits m.natAbs).length) '0' ++
          natDigits m.natAbs).drop
          ((List.replicate (e + 1 - (natDigits m.natAbs).length) '0' ++
            natDigits m.natAbs).length - e)), ?_, Or.inl rfl⟩
      rw [String.data_append, String.data_append, String.data_append,
        show ("-" : String).data = ['-'] from rfl,
        show ("." : String).data = ['.'] from rfl]
      simp
    · rw [if_neg hm]
      refine ⟨dt, tr ++ '.' ::
        (List.replicate (e + 1 - (natDigits m.natAbs).length) '0' ++
          natDigits m.natAbs).drop
          ((List.replicate (e + 1 - (natDigits m.natAbs).length) '0' ++
            natDigits m.natAbs).length - e), ?_, Or.inr hdt⟩
      rw [String.data_append, String.data_append, String.data_append,
        show ("" : String).data = [] from rfl,
        show ("." : String).data = ['.'] from rfl]
      simp

/-- Rendered values start with a non-whitespace character that is not a
closing bracket. -/
theorem rval_head (v : Json) (c : List Char) (h : RVal v c) :
    ∃ d t, c = d :: t ∧ isWs d = false ∧ d ≠ ']' := by
  cases h with
  | rnull => exact ⟨'n', _, rfl, by decide, by decide⟩
  | rtrue => exact ⟨'t', _, rfl, by decide, by decide⟩
  | rfalse => exact ⟨'f', _, rfl, by decide, by decide⟩
  | rnum m e =>
    obtain ⟨d, t, hdt, hd⟩ := numToString_head m e
    refine ⟨d, t, hdt, ?_, ?_⟩
    · rcases hd with h | h
      · subst h; decide
      · exact (isDigit_facts d h).1
    · rcases hd with h | h
      · subst h; decide
      · exact (isDigit_facts d h).2.1
  | rstr s => exact ⟨'"', _, rfl, by decide, by decide⟩
  | rarrnil w hw => exact ⟨'[', _, rfl, by decide, by decide⟩
  | rarr v vs w cs hw hE => exact ⟨'[', _, rfl, by decide, by decide⟩
  | robjnil w hw => exact ⟨obChar, _, rfl, by decide, by decide⟩
  | robj kv fs w cs hw hF => exact ⟨obChar, _, rfl, by decide, by decide⟩

/-- Rendered element lists start with the first value: non-whitespace,
not a closing bracket. -/
theorem relems_head (vs : List Json) (c : List Char) (h : RElems vs c) :
    ∃ d t, c = d :: t ∧ isWs d = false ∧ d ≠ ']' := by
  cases h with
  | single v cv w hR hw =>
    obtain ⟨d, t, hdt, h1, h2⟩ := rval_head v cv hR
    exact ⟨d, t ++ (w ++ [']']), by rw [hdt]; rfl, h1, h2⟩
  | cons v vs cv w1 w2 cs hR hw1 hw2 hE =>
    obtain ⟨d, t, hdt, h1, h2⟩ := rval_head v cv hR
    exact ⟨d, t ++ (w1 ++ (',' :: (w2 ++ cs))), by rw [hdt]; rfl, h1, h2⟩

/-- Rendered field lists start with a double quote. -/
theorem rfields_head (fs : List (String × Json)) (c : List Char) (h : RFields fs c) :
    ∃ t, c = '"' :: t := by
  cases h with
  | single k v c w1 w2 w3 => exact ⟨_, rfl⟩
  | cons k v fs c w1 w2 w3 w4 cs => exact ⟨_, rfl⟩


/-- Parser soundness on rendered texts: with enough fuel, any rendered
value (with arbitrary leading JSON whitespace and a continuation that
cannot extend a number token) parses back to exactly itself. -/
theorem parse_sound : ∀ fuel,
    (∀ v c w rest, RVal v c → allWs w → delimOk rest → w.length + c.length < fuel →
      parseVal fuel (w ++ (c ++ rest)) = some (v, rest)) ∧
    (∀ vs c w rest, RElems vs c → allWs w → w.length + c.length < fuel →
      parseElems fuel (w ++ (c ++ rest)) = some (vs, rest)) ∧
    (∀ fs c w rest, RFields fs c → allWs w → w.length + c.length < fuel →
      parseFields fuel (w ++ (c ++ rest)) = some (fs, rest)) := by
  intro fuel
  induction fuel with
  | zero =>
    refine ⟨?_, ?_, ?_⟩
    · intro v c w rest _ _ _ hlen
      omega
    · intro vs c w rest _ _ hlen
      omega
    · intro fs c w rest _ _ hlen
      omega
  | succ F ih =>
    obtain ⟨ihV, ihE, ihF⟩ := ih
    have hV : ∀ v c w rest, RVal v c → allWs w → delimOk rest →
        w.length + c.length < F + 1 →
        parseVal (F + 1) (w ++ (c ++ rest)) = some (v, rest) := by
      intro v c w rest hR hw hdel hlen
      cases hR with
      | rnull =>
        rw [parseVal.eq_def]
        simp [skipWs_allWs_append w hw, skipWs, isWs, obChar]
      | rtrue =>
        rw [parseVal.eq_def]
        simp [skipWs_allWs_append w hw, skipWs, isWs, obChar]
      | rfalse =>
        rw [parseVal.eq_def]
        simp [skipWs_allWs_append w hw, skipWs, isWs, obChar]
      | rnum m e =>
        obtain ⟨d, t, hdt, hd⟩ := numToString_head m e
        have hw1 : isWs d = false := by
          rcases hd with h | h
          · subst h; decide
          · exact (isDigit_facts d h).1
        obtain ⟨⟨⟨hd1, hd2⟩, hd3⟩, hd4⟩ :
            ((d ≠ ' ' ∧ d ≠ '\t') ∧ d ≠ '\n') ∧ d ≠ '\r' := by
          simp only [isWs, Bool.or_eq_false_iff, decide_eq_false_iff_not] at hw1
          exact ⟨⟨⟨hw1.1.1.1, hw1.1.1.2⟩, hw1.1.2⟩, hw1.2⟩
        have hfacts : d ≠ obChar ∧ d ≠ '[' ∧ d ≠ '"' ∧ d ≠ 't' ∧ d ≠ 'f' ∧ d ≠ 'n' := by
          rcases hd with h | h
          · subst h
            refine ⟨by decide, by decide, by decide, by decide, by decide, by decide⟩
          · have hf := isDigit_facts d h
            exact ⟨hf.2.2.1, hf.2.2.2.1, hf.2.2.2.2.1, hf.2.2.2.2.2.1,
              hf.2.2.2.2.2.2.1, hf.2.2.2.2.2.2.2.1⟩
        have hpn := parseNum_numToString m e rest hdel
        rw [hdt] at hpn
        simp only [List.cons_append] at hpn
        rw [parseVal.eq_def]
        rw [hdt]
        simp [skipWs_allWs_append w hw, skipWs, isWs, hd1, hd2, hd3, hd4,
          hfacts.1, hfacts.2.1, hfacts.2.2.1, hfacts.2.2.2.1, hfacts.2.2.2.2.1,
          hfacts.2.2.2.2.2, hpn]
      | rstr s =>
        rw [parseVal.eq_def]
        simp [skipWs_allWs_append w hw, skipWs, isWs, obChar, parseStrBody_escBody]
      | rarrnil w2 hw2 =>
        rw [parseVal.eq_def]
        simp [skipWs_allWs_append w hw, skipWs, isWs, obChar,
          skipWs_allWs_append w2 hw2]
      | rarr v vs w2 ce hw2 hE =>
        obtain ⟨d, t, hdt, hdw, hdne⟩ := relems_head _ _ hE
        obtain ⟨⟨⟨hd1, hd2⟩, hd3⟩, hd4⟩ :
            ((d ≠ ' ' ∧ d ≠ '\t') ∧ d ≠ '\n') ∧ d ≠ '\r' := by
          simp only [isWs, Bool.or_eq_false_iff, decide_eq_false_iff_not] at hdw
          exact ⟨⟨⟨hdw.1.1.1, hdw.1.1.2⟩, hdw.1.2⟩, hdw.2⟩
        simp only [List.length_cons, List.length_append] at hlen
        have hpe := ihE (v :: vs) ce [] rest hE allWs_nil (by simp; omega)
        simp only [List.nil_append] at hpe
        rw [hdt] at hpe
        simp only [List.cons_append] at hpe
        rw [parseVal.eq_def]
        rw [hdt]
        simp [skipWs_allWs_append w hw, skipWs, isWs, obChar,
          skipWs_allWs_append w2 hw2, hd1, hd2, hd3, hd4, hdne, hpe]
      | robjnil w2 hw2 =>
        rw [parseVal.eq_def]
        simp [skipWs_allWs_append w hw, skipWs, isWs, obChar, cbChar,
          skipWs_allWs_append w2 hw2]
      | robj kv fs w2 cf hw2 hF =>
        obtain ⟨t, hdt⟩ := rfields_head _ _ hF
        simp only [List.length_cons, List.length_append] at hlen
        have hpf := ihF (kv :: fs) cf [] rest hF allWs_nil (by simp; omega)
        simp only [List.nil_append] at hpf
        rw [hdt] at hpf
        simp only [List.cons_append] at hpf
        rw [parseVal.eq_def]
        rw [hdt]
        simp [skipWs_allWs_append w hw, skipWs, isWs, obChar, cbChar,
          skipWs_allWs_append w2 hw2, hpf]
    have hE : ∀ vs c w rest, RElems vs c → allWs w → w.length + c.length < F + 1 →
        parseElems (F + 1) (w ++ (c ++ rest)) = some (vs, rest) := by
      intro vs c w rest hEl hw hlen
      cases hEl with
      | single v cv w2 hR hw2 =>
        simp only [List.length_append, List.length_cons] at hlen
        have hv := hV v cv w (w2 ++ (']' :: rest)) hR hw
          (delimOk_ws_append w2 hw2 _ (by show isNumCont ']' = false; decide))
          (by omega)
        rw [parseElems.eq_def]
        rw [show w ++ ((cv ++ (w2 ++ [']'])) ++ rest) =
          w ++ (cv ++ (w2 ++ (']' :: rest))) from by simp]
        simp [hv, skipWs_allWs_append w2 hw2, skipWs, isWs]
      | cons v vs2 cv w1 w2 cs hR hw1 hw2 hE2 =>
        obtain ⟨d0, t0, hdt0, -, -⟩ := rval_head v cv hR
        have hcv1 : 1 ≤ cv.length := by
          rw [hdt0]
          simp
        simp only [List.length_append, List.length_cons] at hlen
        have hv := hV v cv w (w1 ++ (',' :: (w2 ++ (cs ++ rest)))) hR hw
          (delimOk_ws_append w1 hw1 _ (by show isNumCont ',' = false; decide))
          (by omega)
        have hrec := ihE vs2 cs w2 rest hE2 hw2 (by omega)
        rw [parseElems.eq_def]
        rw [show w ++ ((cv ++ (w1 ++ (',' :: (w2 ++ cs)))) ++ rest) =
          w ++ (cv ++ (w1 ++ (',' :: (w2 ++ (cs ++ rest))))) from by simp]
        simp [hv, skipWs_allWs_append w1 hw1, skipWs, isWs, hrec]
    have hF : ∀ fs c w rest, RFields fs c → allWs w → w.length + c.length < F + 1 →
        parseFields (F + 1) (w ++ (c ++ rest)) = some (fs, rest) := by
      intro fs c w rest hFl hw hlen
      cases hFl with
      | single k v cv w1 w2 w3 hR hw1 hw2 hw3 =>
        simp only [List.length_append, List.length_cons] at hlen
        have hv := hV v cv w2 (w3 ++ (cbChar :: rest)) hR hw2
          (delimOk_ws_append w3 hw3 _ (by show isNumCont cbChar = false; decide))
          (by omega)
        simp only [cbChar] at hv
        rw [parseFields.eq_def]
        rw [show w ++ (('"' :: (escBody k ++ ('"' :: (w1 ++ (':' ::
            (w2 ++ (cv ++ (w3 ++ [cbChar])))))))) ++ rest) =
          w ++ ('"' :: (escBody k ++ ('"' :: (w1 ++ (':' ::
            (w2 ++ (cv ++ (w3 ++ (cbChar :: rest))))))))) from by simp]
        simp [skipWs_allWs_append w hw, skipWs, isWs, parseStrBody_escBody,
          skipWs_allWs_append w1 hw1, hv, skipWs_allWs_append w3 hw3, cbChar, obChar]
      | cons k v fs2 cv w1 w2 w3 w4 cs hR hw1 hw2 hw3 hw4 hF2 =>
        obtain ⟨d0, t0, hdt0, -, -⟩ := rval_head v cv hR
        have hcv1 : 1 ≤ cv.length := by
          rw [hdt0]
          simp
        simp only [List.length_append, List.length_cons] at hlen
        have hv := hV v cv w2 (w3 ++ (',' :: (w4 ++ (cs ++ rest)))) hR hw2
          (delimOk_ws_append w3 hw3 _ (by show isNumCont ',' = false; decide))
          (by omega)
        have hrec := ihF fs2 cs w4 rest hF2 hw4 (by omega)
        rw [parseFields.eq_def]
        rw [show w ++ (('"' :: (escBody k ++ ('"' :: (w1 ++ (':' ::
            (w2 ++ (cv ++ (w3 ++ (',' :: (w4 ++ cs)))))))))) ++ rest) =
          w ++ ('"' :: (escBody k ++ ('"' :: (w1 ++ (':' ::
            (w2 ++ (cv ++ (w3 ++ (',' :: (w4 ++ (cs ++ rest))))))))))) from by simp]
        simp [skipWs_allWs_append w hw, skipWs, isWs, parseStrBody_escBody,
          skipWs_allWs_append w1 hw1, hv, skipWs_allWs_append w3 hw3, hrec,
          cbChar, obChar]
    exact ⟨hV, hE, hF⟩

theorem allWs_append (a b : List Char) (ha : allWs a) (hb : allWs b) : allWs (a ++ b) := by
  intro c hc
  rcases List.mem_append.mp hc with h | h
  · exact ha c h
  · exact hb c h

theorem allWs_indent (d : Nat) : allWs (indentRepeat d).data := by
  intro c hc
  have : c = ' ' := List.eq_of_mem_replicate hc
  subst this
  decide

theorem allWs_nl : allWs ['\n'] := by
  intro c hc
  simp at hc
  subst hc
  decide

theorem allWs_nl_cons (w : List Char) (hw : allWs w) : allWs ('\n' :: w) := by
  intro c hc
  rcases List.mem_cons.mp hc with h | h
  · subst h
    decide
  · exact hw c h

/-- `JSON.stringify`-compact element lists render. -/
theorem compactElems_relems : ∀ (l : List Json), l ≠ [] →
    (∀ v ∈ l, RVal v (stringifyCompact v).data) →
    RElems l ((compactElems l).data ++ [']']) := by
  intro l
  induction l with
  | nil => intro h; exact absurd rfl h
  | cons x rest ih =>
    intro _ hR
    cases rest with
    | nil =>
      have h1 : RElems [x] ((stringifyCompact x).data ++ ([] ++ [']'])) :=
        RElems.single x _ [] (hR x (by simp)) allWs_nil
      simpa [compactElems] using h1
    | cons y ys =>
      have h2 := ih (by simp) (fun v hv => hR v (by simp at hv ⊢; tauto))
      have h1 : RElems (x :: y :: ys) ((stringifyCompact x).data ++
          ([] ++ (',' :: ([] ++ ((compactElems (y :: ys)).data ++ [']']))))) :=
        RElems.cons x (y :: ys) _ [] [] _ (hR x (by simp)) allWs_nil allWs_nil h2
      simpa [compactElems, String.data_append] using h1

/-- `formatInline` element lists render. -/
theorem inlineElems_relems : ∀ (l : List Json), l ≠ [] →
    (∀ v ∈ l, RVal v (formatInline v).data) →
    RElems l ((inlineElems l).data ++ [']']) := by
  intro l
  induction l with
  | nil => intro h; exact absurd rfl h
  | cons x rest ih =>
    intro _ hR
    cases rest with
    | nil =>
      have h1 : RElems [x] ((formatInline x).data ++ ([] ++ [']'])) :=
        RElems.single x _ [] (hR x (by simp)) allWs_nil
      simpa [inlineElems] using h1
    | cons y ys =>
      have h2 := ih (by simp) (fun v hv => hR v (by simp at hv ⊢; tauto))
      have h1 : RElems (x :: y :: ys) ((formatInline x).data ++
          ([] ++ (',' :: ([' '] ++ ((inlineElems (y :: ys)).data ++ [']']))))) :=
        RElems.cons x (y :: ys) _ [] [' '] _ (hR x (by simp)) allWs_nil
          (by intro c hc; simp at hc; subst hc; decide) h2
      simpa [inlineElems, String.data_append] using h1

/-- `JSON.stringify`-compact field lists render. -/
theorem compactFields_rfields : ∀ (fs : List (String × Json)), fs ≠ [] →
    (∀ kv ∈ fs, RVal kv.2 (stringifyCompact kv.2).data) →
    RFields fs ((compactFields fs).data ++ [cbChar]) := by
  intro fs
  induction fs with
  | nil => intro h; exact absurd rfl h
  | cons kv rest ih =>
    obtain ⟨k, v⟩ := kv
    intro _ hR
    cases rest with
    | nil =>
      have h1 : RFields [(⟨k.data⟩, v)]
          ('"' :: (escBody k.data ++ ('"' :: ([] ++ (':' :: ([] ++
            ((stringifyCompact v).data ++ ([] ++ [cbChar])))))))) :=
        RFields.single k.data v _ [] [] [] (hR (k, v) (by simp)) allWs_nil allWs_nil
          allWs_nil
      simpa [compactFields, jsQuote, String.data_append] using h1
    | cons kv2 rest2 =>
      have h2 := ih (by simp) (fun x hx => hR x (by simp at hx ⊢; tauto))
      have h1 : RFields ((⟨k.data⟩, v) :: (kv2 :: rest2))
          ('"' :: (escBody k.data ++ ('"' :: ([] ++ (':' :: ([] ++
            ((stringifyCompact v).data ++ ([] ++ (',' :: ([] ++
              ((compactFields (kv2 :: rest2)).data ++ [cbChar]))))))))))) :=
        RFields.cons k.data v (kv2 :: rest2) _ [] [] [] [] _ (hR (k, v) (by simp))
          allWs_nil allWs_nil allWs_nil allWs_nil h2
      simpa [compactFields, jsQuote, String.data_append] using h1

/-- `fmtElems` output, followed by trailing whitespace and the closing
bracket, splits into leading whitespace plus a rendered element list. -/
theorem fmtElems_relems : ∀ (l : List Json) d w', l ≠ [] → allWs w' →
    (∀ v ∈ l, RVal v (format v d).data) →
    ∃ w ce, allWs w ∧ (fmtElems l d).data ++ (w' ++ [']']) = w ++ ce ∧ RElems l ce := by
  intro l
  induction l with
  | nil => intro d w' h; exact absurd rfl h
  | cons x rest ih =>
    intro d w' _ hw hR
    cases rest with
    | nil =>
      refine ⟨(indentRepeat d).data, (format x d).data ++ (w' ++ [']']),
        allWs_indent d, ?_, RElems.single x _ w' (hR x (by simp)) hw⟩
      simp [fmtElems, String.data_append]
    | cons y ys =>
      obtain ⟨w2, ce2, hw2, heq2, hE2⟩ := ih d w' (by simp) hw
        (fun v hv => hR v (by simp at hv ⊢; tauto))
      refine ⟨(indentRepeat d).data,
        (format x d).data ++ ([] ++ (',' :: (('\n' :: w2) ++ ce2))),
        allWs_indent d, ?_,
        RElems.cons x (y :: ys) _ [] ('\n' :: w2) _ (hR x (by simp)) allWs_nil
          (allWs_nl_cons w2 hw2) hE2⟩
      rw [show fmtElems (x :: y :: ys) d = indentRepeat d ++ format x d ++ "," ++
        "\n" ++ fmtElems (y :: ys) d from by simp [fmtElems]]
      simp only [String.data_append, List.append_assoc, List.cons_append,
        List.nil_append]
      rw [heq2]

/-- `formatObject` output, followed by trailing whitespace and the
closing brace, splits into leading whitespace plus a rendered field
list.  The hypothesis packages the per-entry `fmtEntry` decomposition. -/
theorem formatObject_rfields : ∀ (fs : List (String × Json)) d w', fs ≠ [] → allWs w' →
    (∀ kv ∈ fs, ∃ c, RVal kv.2 c ∧ ∀ comma,
      (fmtEntry kv.1 kv.2 d comma).data = (indentRepeat (d + 1)).data ++
        ('"' :: (escBody kv.1.data ++ ('"' :: (':' :: (' ' ::
          (c ++ (if comma then [','] else [])))))))) →
    ∃ w cf, allWs w ∧ (formatObject fs d).data ++ (w' ++ [cbChar]) = w ++ cf ∧
      RFields fs cf := by
  intro fs
  induction fs with
  | nil => intro d w' h; exact absurd rfl h
  | cons kv rest ih =>
    obtain ⟨k, v⟩ := kv
    intro d w' _ hw hR
    obtain ⟨c, hc, heq⟩ := hR (k, v) (by simp)
    cases rest with
    | nil =>
      refine ⟨(indentRepeat (d + 1)).data,
        '"' :: (escBody k.data ++ ('"' :: ([] ++ (':' :: ([' '] ++
          (c ++ (w' ++ [cbChar]))))))),
        allWs_indent (d + 1), ?_,
        RFields.single k.data v c [] [' '] w' hc allWs_nil
          (by intro z hz; simp at hz; subst hz; decide) hw⟩
      rw [show formatObject [(k, v)] d = fmtEntry k v d false from by simp [formatObject]]
      rw [heq false]
      simp
    | cons kv2 rest2 =>
      obtain ⟨w2, cf2, hw2, heq2, hF2⟩ := ih d w' (by simp) hw
        (fun x hx => hR x (by simp at hx ⊢; tauto))
      refine ⟨(indentRepeat (d + 1)).data,
        '"' :: (escBody k.data ++ ('"' :: ([] ++ (':' :: ([' '] ++
          (c ++ ([] ++ (',' :: (('\n' :: w2) ++ cf2))))))))),
        allWs_indent (d + 1), ?_,
        RFields.cons k.data v (kv2 :: rest2) c [] [' '] [] ('\n' :: w2) cf2 hc
          allWs_nil (by intro z hz; simp at hz; subst hz; decide) allWs_nil
          (allWs_nl_cons w2 hw2) hF2⟩
      rw [show formatObject ((k, v) :: (kv2 :: rest2)) d = fmtEntry k v d true ++
        "\n" ++ formatObject (kv2 :: rest2) d from by simp [formatObject]]
      simp only [String.data_append]
      rw [heq true]
      simp only [List.cons_append, List.nil_append, List.append_assoc]
      rw [heq2]
      simp

/-- All three printers produce rendered texts (strong induction on the
value size); the fourth conjunct decomposes a printed object entry. -/
theorem printers_render : ∀ n,
    (∀ v, sizeOf v ≤ n → RVal v (stringifyCompact v).data) ∧
    (∀ v, sizeOf v ≤ n → RVal v (formatInline v).data) ∧
    (∀ v, sizeOf v ≤ n → ∀ d, RVal v (format v d).data) ∧
    (∀ v, sizeOf v ≤ n → ∀ (k : String) d, ∃ c, RVal v c ∧ ∀ comma,
      (fmtEntry k v d comma).data = (indentRepeat (d + 1)).data ++
        ('"' :: (escBody k.data ++ ('"' :: (':' :: (' ' ::
          (c ++ (if comma then [','] else [])))))))) := by
  intro n
  induction n using Nat.strong_induction_on with
  | _ n ih =>
    have hS1 : ∀ v, sizeOf v ≤ n → RVal v (stringifyCompact v).data := by
      intro v hv
      cases v with
      | jnull => exact RVal.rnull
      | jbool b =>
        cases b
        · exact RVal.rfalse
        · exact RVal.rtrue
      | jnum m e => exact RVal.rnum m e
      | jstr s => exact RVal.rstr s
      | jarr l =>
        cases l with
        | nil => exact RVal.rarrnil [] allWs_nil
        | cons x xs =>
          have hmem : ∀ z ∈ x :: xs, RVal z (stringifyCompact z).data := by
            intro z hz
            have hlt : sizeOf z < sizeOf (Json.jarr (x :: xs)) := by
              have := sizeOf_mem_list hz
              simp only [Json.jarr.sizeOf_spec]
              omega
            exact (ih (sizeOf z) (by omega)).1 z le_rfl
          exact RVal.rarr x xs [] _ allWs_nil
            (compactElems_relems (x :: xs) (by simp) hmem)
      | jobj fs =>
        cases fs with
        | nil => exact RVal.robjnil [] allWs_nil
        | cons kv gs =>
          have hmem : ∀ z ∈ kv :: gs, RVal z.2 (stringifyCompact z.2).data := by
            intro z hz
            have hlt : sizeOf z.2 < sizeOf (Json.jobj (kv :: gs)) := by
              have h1 := List.sizeOf_lt_of_mem hz
              obtain ⟨a, b⟩ := z
              simp only [Json.jobj.sizeOf_spec]
              simp at h1 ⊢
              omega
            exact (ih (sizeOf z.2) (by omega)).1 z.2 le_rfl
          exact RVal.robj kv gs [] _ allWs_nil
            (compactFields_rfields (kv :: gs) (by simp) hmem)
    have hS3 : ∀ v, sizeOf v ≤ n → RVal v (formatInline v).data := by
      intro v hv
      cases v with
      | jnull => exact hS1 _ hv
      | jbool b => exact hS1 _ hv
      | jnum m e => exact hS1 _ hv
      | jstr s => exact hS1 _ hv
      | jobj fs => exact hS1 _ hv
      | jarr l =>
        cases l with
        | nil => exact RVal.rarrnil [] allWs_nil
        | cons x xs =>
          have hmem : ∀ z ∈ x :: xs, RVal z (formatInline z).data := by
            intro z hz
            have hlt : sizeOf z < sizeOf (Json.jarr (x :: xs)) := by
              have := sizeOf_mem_list hz
              simp only [Json.jarr.sizeOf_spec]
              omega
            exact (ih (sizeOf z) (by omega)).2.1 z le_rfl
          exact RVal.rarr x xs [] _ allWs_nil
            (inlineElems_relems (x :: xs) (by simp) hmem)
    have hS2 : ∀ v, sizeOf v ≤ n → ∀ d, RVal v (format v d).data := by
      intro v hv
      cases v with
      | jnull => intro d; exact hS1 _ hv
      | jbool b => intro d; exact hS1 _ hv
      | jnum m e => intro d; exact hS1 _ hv
      | jstr s => intro d; exact hS1 _ hv
      | jarr l =>
        intro d
        cases l with
        | nil => exact RVal.rarrnil [] allWs_nil
        | cons x xs =>
          have hmem2 : ∀ z ∈ x :: xs, RVal z (format z (d + 1)).data := by
            intro z hz
            have hlt : sizeOf z < sizeOf (Json.jarr (x :: xs)) := by
              have := sizeOf_mem_list hz
              simp only [Json.jarr.sizeOf_spec]
              omega
            exact (ih (sizeOf z) (by omega)).2.2.1 z le_rfl (d + 1)
          have hmem3 : ∀ z ∈ x :: xs, RVal z (formatInline z).data := by
            intro z hz
            have hlt : sizeOf z < sizeOf (Json.jarr (x :: xs)) := by
              have := sizeOf_mem_list hz
              simp only [Json.jarr.sizeOf_spec]
              omega
            exact (ih (sizeOf z) (by omega)).2.1 z le_rfl
          by_cases hany : (x :: xs).any (fun z => !isPrimitive z) = true
          · have hfmt : format (.jarr (x :: xs)) d = "[" ++ "\n" ++
                fmtElems (x :: xs) (d + 1) ++ "\n" ++ indentRepeat d ++ "]" := by
              simp [format, hany]
            obtain ⟨w, ce, hw, heq, hE⟩ := fmtElems_relems (x :: xs) (d + 1)
              ('\n' :: (indentRepeat d).data) (by simp)
              (allWs_nl_cons _ (allWs_indent d)) hmem2
            simp only [List.cons_append, List.append_assoc] at heq
            rw [hfmt]
            have htext : ("[" ++ "\n" ++ fmtElems (x :: xs) (d + 1) ++ "\n" ++
                indentRepeat d ++ "]").data = '[' :: (('\n' :: w) ++ ce) := by
              simp [← heq]
            rw [htext]
            exact RVal.rarr x xs ('\n' :: w) ce (allWs_nl_cons w hw) hE
          · by_cases hfit : strLen16 ("[" ++ inlineElems (x :: xs) ++ "]") ≤ 80
            · have hfmt : format (.jarr (x :: xs)) d =
                  "[" ++ inlineElems (x :: xs) ++ "]" := by
                simp [format, hany, hfit]
              rw [hfmt]
              exact RVal.rarr x xs [] _ allWs_nil
                (inlineElems_relems (x :: xs) (by simp) hmem3)
            · have hfmt : format (.jarr (x :: xs)) d = "[" ++ "\n" ++
                  fmtElems (x :: xs) (d + 1) ++ "\n" ++ indentRepeat d ++ "]" := by
                simp [format, hany, hfit]
              obtain ⟨w, ce, hw, heq, hE⟩ := fmtElems_relems (x :: xs) (d + 1)
                ('\n' :: (indentRepeat d).data) (by simp)
                (allWs_nl_cons _ (allWs_indent d)) hmem2
              simp only [List.cons_append, List.append_assoc] at heq
              rw [hfmt]
              have htext : ("[" ++ "\n" ++ fmtElems (x :: xs) (d + 1) ++ "\n" ++
                  indentRepeat d ++ "]").data = '[' :: (('\n' :: w) ++ ce) := by
                simp [← heq]
              rw [htext]
              exact RVal.rarr x xs ('\n' :: w) ce (allWs_nl_cons w hw) hE
      | jobj fs =>
        intro d
        cases fs with
        | nil =>
          exact RVal.robjnil ('\n' :: ('\n' :: (indentRepeat d).data))
            (allWs_nl_cons _ (allWs_nl_cons _ (allWs_indent d)))
        | cons kv gs =>
          have hmem4 : ∀ z ∈ kv :: gs, ∃ c, RVal z.2 c ∧ ∀ comma,
              (fmtEntry z.1 z.2 d comma).data = (indentRepeat (d + 1)).data ++
                ('"' :: (escBody z.1.data ++ ('"' :: (':' :: (' ' ::
                  (c ++ (if comma then [','] else []))))))) := by
            intro z hz
            have hlt : sizeOf z.2 < sizeOf (Json.jobj (kv :: gs)) := by
              have h1 := List.sizeOf_lt_of_mem hz
              obtain ⟨a, b⟩ := z
              simp only [Json.jobj.sizeOf_spec]
              simp at h1 ⊢
              omega
            exact (ih (sizeOf z.2) (by omega)).2.2.2 z.2 le_rfl z.1 d
          obtain ⟨w, cf, hw, heq, hF⟩ := formatObject_rfields (kv :: gs) d
            ('\n' :: (indentRepeat d).data) (by simp)
            (allWs_nl_cons _ (allWs_indent d)) hmem4
          simp only [List.cons_append, List.append_assoc] at heq
          have hfmt : format (.jobj (kv :: gs)) d = obStr ++ "\n" ++
              formatObject (kv :: gs) d ++ "\n" ++ indentRepeat d ++ cbStr := by
            simp [format]
          rw [hfmt]
          have htext : (obStr ++ "\n" ++ formatObject (kv :: gs) d ++ "\n" ++
              indentRepeat d ++ cbStr).data = obChar :: (('\n' :: w) ++ cf) := by
            simp [show obStr.data = [obChar] from rfl,
              show cbStr.data = [cbChar] from rfl, ← heq]
          rw [htext]
          exact RVal.robj kv gs ('\n' :: w) cf (allWs_nl_cons w hw) hF
    have hS4 : ∀ v, sizeOf v ≤ n → ∀ (k : String) d, ∃ c, RVal v c ∧ ∀ comma,
        (fmtEntry k v d comma).data = (indentRepeat (d + 1)).data ++
          ('"' :: (escBody k.data ++ ('"' :: (':' :: (' ' ::
            (c ++ (if comma then [','] else []))))))) := by
      intro v hv k d
      cases v with
      | jnull =>
        refine ⟨_, hS1 .jnull hv, ?_⟩
        intro comma
        cases comma
        · simp [fmtEntry, jsQuote, String.data_append]
        · simp [fmtEntry, jsQuote, String.data_append]
      | jbool b =>
        refine ⟨_, hS1 (.jbool b) hv, ?_⟩
        intro comma
        cases comma
        · simp [fmtEntry, jsQuote, String.data_append]
        · simp [fmtEntry, jsQuote, String.data_append]
      | jnum m e =>
        refine ⟨_, hS1 (.jnum m e) hv, ?_⟩
        intro comma
        cases comma
        · simp [fmtEntry, jsQuote, String.data_append]
        · simp [fmtEntry, jsQuote, String.data_append]
      | jstr s =>
        refine ⟨_, hS1 (.jstr s) hv, ?_⟩
        intro comma
        cases comma
        · simp [fmtEntry, jsQuote, String.data_append]
        · simp [fmtEntry, jsQuote, String.data_append]
      | jobj gs =>
        refine ⟨(format (.jobj gs) (d + 1)).data, hS2 (.jobj gs) hv (d + 1), ?_⟩
        intro comma
        cases comma
        · simp [fmtEntry, format, jsQuote, String.data_append]
        · simp [fmtEntry, format, jsQuote, String.data_append]
      | jarr l =>
        have hmem2 : ∀ z ∈ l, RVal z (format z (d + 2)).data := by
          intro z hz
          have hlt : sizeOf z < sizeOf (Json.jarr l) := by
            have := sizeOf_mem_list hz
            simp only [Json.jarr.sizeOf_spec]
            omega
          exact (ih (sizeOf z) (by omega)).2.2.1 z le_rfl (d + 2)
        have hmem3 : ∀ z ∈ l, RVal z (formatInline z).data := by
          intro z hz
          have hlt : sizeOf z < sizeOf (Json.jarr l) := by
            have := sizeOf_mem_list hz
            simp only [Json.jarr.sizeOf_spec]
            omega
          exact (ih (sizeOf z) (by omega)).2.1 z le_rfl
        by_cases hany : l.any (fun z => !isPrimitive z) = true
        · have hlne : l ≠ [] := by
            intro h
            rw [h] at hany
            simp at hany
          obtain ⟨x, xs, rfl⟩ : ∃ x xs, l = x :: xs := by
            cases l with
            | nil => exact absurd rfl hlne
            | cons a b => exact ⟨a, b, rfl⟩
          obtain ⟨w, ce, hw, heq, hE⟩ := fmtElems_relems (x :: xs) (d + 2)
            ('\n' :: (indentRepeat (d + 1)).data) (by simp)
            (allWs_nl_cons _ (allWs_indent (d + 1))) hmem2
          simp only [List.cons_append, List.append_assoc] at heq
          refine ⟨'[' :: (('\n' :: w) ++ ce),
            RVal.rarr x xs ('\n' :: w) ce (allWs_nl_cons w hw) hE, ?_⟩
          intro comma
          have hfe : fmtEntry k (.jarr (x :: xs)) d comma = indentRepeat (d + 1) ++
              (jsQuote k ++ ": ") ++ "[" ++ "\n" ++ fmtElems (x :: xs) (d + 2) ++
              "\n" ++ indentRepeat (d + 1) ++ "]" ++
              (if comma then "," else "") := by
            simp [fmtEntry, hany]
          rw [hfe]
          cases comma
          · simp only [String.data_append]
            rw [show (jsQuote k).data = '"' :: (escBody k.data ++ ['"']) from rfl]
            simp [← heq]
          · simp only [String.data_append]
            rw [show (jsQuote k).data = '"' :: (escBody k.data ++ ['"']) from rfl]
            simp [← heq]
        · by_cases hfit : (strLen16 ("[" ++ inlineElems l ++ "]") : Int) ≤
              80 - strLen16 (jsQuote k ++ ": ") - strLen16 (indentRepeat (d + 1))
          · refine ⟨("[" ++ inlineElems l ++ "]").data, ?_, ?_⟩
            · cases l with
              | nil => exact RVal.rarrnil [] allWs_nil
              | cons x xs =>
                exact RVal.rarr x xs [] _ allWs_nil
                  (inlineElems_relems (x :: xs) (by simp)
                    (fun z hz => hmem3 z hz))
            · intro comma
              have hfe : fmtEntry k (.jarr l) d comma = indentRepeat (d + 1) ++
                  (jsQuote k ++ ": ") ++ ("[" ++ inlineElems l ++ "]") ++
                  (if comma then "," else "") := by
                simp [fmtEntry, hany, hfit]
              rw [hfe]
              cases comma
              · simp [jsQuote, String.data_append]
              · simp [jsQuote, String.data_append]
          · have hlne2 : ∃ c2, RVal (.jarr l) c2 ∧
                ("[" ++ "\n" ++ fmtElems l (d + 2) ++ "\n" ++ indentRepeat (d + 1) ++
                  "]").data = c2 := by
              cases l with
              | nil =>
                refine ⟨'[' :: (('\n' :: ('\n' :: (indentRepeat (d + 1)).data)) ++ [']']),
                  RVal.rarrnil _ (allWs_nl_cons _ (allWs_nl_cons _
                    (allWs_indent (d + 1)))), ?_⟩
                simp [fmtElems, String.data_append]
              | cons x xs =>
                obtain ⟨w, ce, hw, heq, hE⟩ := fmtElems_relems (x :: xs) (d + 2)
                  ('\n' :: (indentRepeat (d + 1)).data) (by simp)
                  (allWs_nl_cons _ (allWs_indent (d + 1))) hmem2
                simp only [List.cons_append, List.append_assoc] at heq
                refine ⟨'[' :: (('\n' :: w) ++ ce),
                  RVal.rarr x xs ('\n' :: w) ce (allWs_nl_cons w hw) hE, ?_⟩
                simp [← heq]
            obtain ⟨c2, hc2, heqc2⟩ := hlne2
            refine ⟨c2, hc2, ?_⟩
            intro comma
            have hfe : fmtEntry k (.jarr l) d comma = indentRepeat (d + 1) ++
                (jsQuote k ++ ": ") ++ "[" ++ "\n" ++ fmtElems l (d + 2) ++
                "\n" ++ indentRepeat (d + 1) ++ "]" ++
                (if comma then "," else "") := by
              simp [fmtEntry, hany, hfit]
            rw [hfe]
            rw [← heqc2]
            cases comma
            · simp [jsQuote, String.data_append]
            · simp [jsQuote, String.data_append]
    exact ⟨hS1, hS3, hS2, hS4⟩

/-- `format` output renders. -/
theorem format_rval (v : Json) (d : Nat) : RVal v (format v d).data :=
  (printers_render (sizeOf v)).2.2.1 v le_rfl d

/-- Round trip: parsing the canonical text (with its trailing newline)
returns exactly the printed value. -/
theorem format_parse (v : Json) : jsonParse (format v 0 ++ "\n") = some v := by
  have hp := (parse_sound ((format v 0).data.length + 1 + 1)).1 v (format v 0).data []
    ['\n'] (format_rval v 0) allWs_nil (by show isNumCont '\n' = false; decide)
    (by simp; omega)
  simp only [List.nil_append] at hp
  simp only [jsonParse]
  rw [show (format v 0 ++ "\n").data = (format v 0).data ++ ['\n'] from by simp]
  rw [show ((format v 0).data ++ ['\n']).length = (format v 0).data.length + 1 from by simp]
  rw [hp]
  simp [skipWs, isWs]


/-! ### The serializer is the identity on normalized profiles -/

/-- `normTabs` output tabs are good (under `stationsOKList`). -/
theorem normTabs_good : ∀ ts ys, normTabs ts = some ys → stationsOKList ys = true →
    ∀ t ∈ ys, goodTab t = true := by
  intro ts
  induction ts with
  | nil =>
    intro ys hN hst t ht
    simp [normTabs] at hN
    subst hN
    simp at ht
  | cons a rest ih =>
    intro ys hN hst t ht
    simp only [normTabs] at hN
    rcases ha : normTab a with - | a2
    · rw [ha] at hN; simp at hN
    · rw [ha] at hN
      simp at hN
      rcases hb : normTabs rest with - | b
      · rw [hb] at hN; simp at hN
      · rw [hb] at hN
        simp at hN
        subst hN
        simp only [stationsOKList] at hst
        simp at hst
        rcases List.mem_cons.mp ht with rfl | ht2
        · exact normTab_good a t ha hst.1
        · exact ih b hb hst.2 t ht2

/-- `pageToJson`, `keysToJson` and `keyToJson` are the identity on the
normalizer's image (strong induction on size). -/
theorem toJson_stableAux : ∀ n,
    (∀ p, sizeOf p ≤ n → goodSubPage p = true → pageToJson p = p) ∧
    (∀ ks : List Json, sizeOf ks ≤ n → goodKeyList ks = true → keysToJson ks = ks) ∧
    (∀ k, sizeOf k ≤ n → goodKey k = true → keyToJson k = k) := by
  intro n
  induction n using Nat.strong_induction_on with
  | _ n ih =>
    have hP : ∀ p, sizeOf p ≤ n → goodSubPage p = true → pageToJson p = p := by
      intro p hsz hg
      obtain ⟨r, ks, rfl, h1r, hks⟩ := goodSubPage_shape p hg
      have hszks : sizeOf ks < n := by
        simp at hsz
        omega
      have hkeq := (ih (sizeOf ks) hszks).2.1 ks le_rfl hks
      have hcp : jsGet (Json.jobj [("rows", .jnum r 0), ("keys", .jarr ks)])
          "client_page" = none := by
        simp [jsGet, fieldGet]
      have hk : jsGet (Json.jobj [("rows", .jnum r 0), ("keys", .jarr ks)])
          "keys" = some (.jarr ks) := by
        simp [jsGet, fieldGet]
      have hr : jsGet (Json.jobj [("rows", .jnum r 0), ("keys", .jarr ks)])
          "rows" = some (.jnum r 0) := by
        simp [jsGet, fieldGet]
      simp [pageToJson, hcp, hk, hr]
      split
      · rename_i l h
        rw [hk] at h
        simp at h
        subst h
        simp [hkeq]
      · rename_i h
        rw [hk] at h
        simp at h
    have hK : ∀ ks : List Json, sizeOf ks ≤ n → goodKeyList ks = true →
        keysToJson ks = ks := by
      intro ks hsz hg
      cases ks with
      | nil => simp [keysToJson]
      | cons k rest =>
        simp only [goodKeyList, Bool.and_eq_true] at hg
        have hs1 : sizeOf k < n := by
          simp at hsz
          omega
        have hs2 : sizeOf rest < n := by
          simp at hsz
          omega
        have h1 := (ih (sizeOf k) hs1).2.2 k le_rfl hg.1
        have h2 := (ih (sizeOf rest) hs2).2.1 rest le_rfl hg.2
        simp [keysToJson, h1, h2]
    have hKey : ∀ k, sizeOf k ≤ n → goodKey k = true → keyToJson k = k := by
      intro k hsz hg
      unfold goodKey at hg
      split at hg
      · rename_i ls rest
        simp only [Bool.and_eq_true, decide_eq_true_eq] at hg
        obtain ⟨⟨hls, hlen⟩, hrest⟩ := hg
        unfold goodKeyRest at hrest
        split at hrest
        · have hlab : jsGet (Json.jobj [("label", .jarr ls)]) "label" =
              some (.jarr ls) := by
            simp [jsGet, fieldGet]
          have hsid : jsGet (Json.jobj [("label", .jarr ls)]) "station_id" = none := by
            simp [jsGet, fieldGet]
          have hpg : jsGet (Json.jobj [("label", .jarr ls)]) "page" = none := by
            simp [jsGet, fieldGet]
          simp [keyToJson, hlab, hsid, hpg]
          split
          · rename_i pg h
            rw [hpg] at h
            simp at h
          · rfl
        · rename_i t
          simp only [decide_eq_true_eq] at hrest
          have hlab : jsGet (Json.jobj [("label", .jarr ls), ("station_id", .jstr t)])
              "label" = some (.jarr ls) := by
            simp [jsGet, fieldGet]
          have hsid : jsGet (Json.jobj [("label", .jarr ls), ("station_id", .jstr t)])
              "station_id" = some (.jstr t) := by
            simp [jsGet, fieldGet]
          have hpg : jsGet (Json.jobj [("label", .jarr ls), ("station_id", .jstr t)])
              "page" = none := by
            simp [jsGet, fieldGet]
          simp [keyToJson, hlab, hsid, hpg, hrest]
          split
          · rename_i pg h
            rw [hpg] at h
            simp at h
          · rfl
        · rename_i p
          have hszp : sizeOf p ≤ n := by
            simp at hsz
            omega
          have hpfix := hP p hszp hrest
          obtain ⟨r2, ks2, hps, -, -⟩ := goodSubPage_shape p hrest
          have hlab : jsGet (Json.jobj [("label", .jarr ls), ("page", p)])
              "label" = some (.jarr ls) := by
            simp [jsGet, fieldGet]
          have hsid : jsGet (Json.jobj [("label", .jarr ls), ("page", p)])
              "station_id" = none := by
            simp [jsGet, fieldGet]
          have hpg : jsGet (Json.jobj [("label", .jarr ls), ("page", p)])
              "page" = some p := by
            simp [jsGet, fieldGet]
          simp [keyToJson, hlab, hsid, hpg]
          split
          · rename_i pg h
            rw [hpg] at h
            simp at h
            subst h
            rw [if_neg (by simp [hps])]
            simp [hpfix]
          · rename_i h
            rw [hpg] at h
            simp at h
        · rename_i t p
          simp only [Bool.and_eq_true, decide_eq_true_eq] at hrest
          obtain ⟨ht, hgp⟩ := hrest
          have hszp : sizeOf p ≤ n := by
            simp at hsz
            omega
          have hpfix := hP p hszp hgp
          obtain ⟨r2, ks2, hps, -, -⟩ := goodSubPage_shape p hgp
          have hlab : jsGet (Json.jobj [("label", .jarr ls), ("station_id", .jstr t),
              ("page", p)]) "label" = some (.jarr ls) := by
            simp [jsGet, fieldGet]
          have hsid : jsGet (Json.jobj [("label", .jarr ls), ("station_id", .jstr t),
              ("page", p)]) "station_id" = some (.jstr t) := by
            simp [jsGet, fieldGet]
          have hpg : jsGet (Json.jobj [("label", .jarr ls), ("station_id", .jstr t),
              ("page", p)]) "page" = some p := by
            simp [jsGet, fieldGet]
          simp [keyToJson, hlab, hsid, hpg, ht]
          split
          · rename_i pg h
            rw [hpg] at h
            simp at h
            subst h
            rw [if_neg (by simp [hps])]
            simp [hpfix]
          · rename_i h
            rw [hpg] at h
            simp at h
        · simp at hrest
      · simp at hg
    exact ⟨hP, hK, hKey⟩

/-- `tabToJson` is the identity on good tabs. -/
theorem tabToJson_stable (t : Json) (hg : goodTab t = true) : tabToJson t = t := by
  unfold goodTab at hg
  split at hg
  · rename_i l pg
    simp only [Bool.and_eq_true, decide_eq_true_eq] at hg
    obtain ⟨hl, hinner⟩ := hg
    have hlab : jsGet (Json.jobj [("label", .jstr l), ("page", pg)]) "label" =
        some (.jstr l) := by
      simp [jsGet, fieldGet]
    have hpg : jsGet (Json.jobj [("label", .jstr l), ("page", pg)]) "page" =
        some pg := by
      simp [jsGet, fieldGet]
    have hpfix : pageToJson pg = pg := by
      split at hinner
      · rename_i r e cp
        simp only [Bool.and_eq_true, decide_eq_true_eq] at hinner
        obtain ⟨⟨h1r, he⟩, hcp⟩ := hinner
        subst he
        have hc : jsGet (Json.jobj [("rows", .jnum r 0), ("client_page", cp)])
            "client_page" = some cp := by
          simp [jsGet, fieldGet]
        have hr : jsGet (Json.jobj [("rows", .jnum r 0), ("client_page", cp)])
            "rows" = some (.jnum r 0) := by
          simp [jsGet, fieldGet]
        simp [pageToJson, hc, hr, hcp]
      · exact (toJson_stableAux (sizeOf pg)).1 pg le_rfl hinner
    simp [tabToJson, hlab, hpg, hpfix]
  · simp at hg

/-- `profileToJson` is the identity on normalized profiles whose tabs
are all good. -/
theorem profileToJson_stable (i : String) (ts : List Json)
    (hts : ∀ t ∈ ts, goodTab t = true) :
    profileToJson (.jobj [("id", .jstr i), ("type", .jstr "Tabbed"),
      ("tabs", .jarr ts)]) =
    .jobj [("id", .jstr i), ("type", .jstr "Tabbed"), ("tabs", .jarr ts)] := by
  have hmap : ts.map tabToJson = ts := by
    induction ts with
    | nil => rfl
    | cons a b ihb =>
      rw [List.map_cons, tabToJson_stable a (hts a (by simp)),
        ihb (fun t ht => hts t (by simp [ht]))]
  simp [profileToJson, jsGet, fieldGet, hmap]

/-- The shape of `normalizeProfile` output. -/
theorem normalizeProfile_shape (x y : Json) (hN : normalizeProfile x = some y) :
    ∃ s ts tabs', jsGet x "id" = some (.jstr s) ∧ jsGet x "tabs" = some (.jarr ts) ∧
      normTabs ts = some tabs' ∧
      y = .jobj [("id", .jstr (jsTrim s)), ("type", .jstr "Tabbed"),
        ("tabs", .jarr tabs')] := by
  simp only [normalizeProfile] at hN
  rcases hid : jsGet x "id" with - | v
  · rw [hid] at hN; simp at hN
  · rw [hid] at hN
    cases v <;> simp at hN
    rename_i s
    rcases hts : jsGet x "tabs" with - | w
    · rw [hts] at hN; simp at hN
    · rw [hts] at hN
      cases w <;> simp at hN
      rename_i ts
      rcases hnt : normTabs ts with - | tabs'
      · rw [hnt] at hN; simp at hN
      · rw [hnt] at hN
        simp at hN
        exact ⟨s, ts, tabs', rfl, rfl, hnt, hN.symm⟩

/-- C1, counterexample: the round trip
`normalize(parse(serialize(normalize(p)))) == normalize(p)` fails on a
valid profile with the exotic key `(\x7b label: [], station_id: [] \x7d)`:
normalization keeps its `station_id` as the stringified `""` (the guard
`!== ''` is strict), the canonical serializer then *drops* the empty
`station_id` field (`keyToJson` keeps it only when it is neither `null`
nor `''`), so the re-parsed profile re-normalizes to a different value. -/
theorem c1_counterexample :
    validateProfile (.jobj [("type", .jstr "Tabbed"), ("id", .jstr "P"), ("tabs", .jarr [
      .jobj [("label", .jstr "T"), ("page", .jobj [("rows", .jnum 1 0), ("keys", .jarr [
        .jobj [("label", .jarr []), ("station_id", .jarr [])]])])]])]) = [] ∧
    (normalizeProfile (.jobj [("type", .jstr "Tabbed"), ("id", .jstr "P"), ("tabs", .jarr [
      .jobj [("label", .jstr "T"), ("page", .jobj [("rows", .jnum 1 0), ("keys", .jarr [
        .jobj [("label", .jarr []), ("station_id", .jarr [])]])])]])])).bind
      (fun y => (jsonParse (serializeProfile y)).bind normalizeProfile) ≠
    normalizeProfile (.jobj [("type", .jstr "Tabbed"), ("id", .jstr "P"), ("tabs", .jarr [
      .jobj [("label", .jstr "T"), ("page", .jobj [("rows", .jnum 1 0), ("keys", .jarr [
        .jobj [("label", .jarr []), ("station_id", .jarr [])]])])]])]) := by
  constructor
  · decide
  · have h1 : normalizeProfile (.jobj [("type", .jstr "Tabbed"), ("id", .jstr "P"),
        ("tabs", .jarr [.jobj [("label", .jstr "T"), ("page", .jobj [("rows", .jnum 1 0),
          ("keys", .jarr [.jobj [("label", .jarr []), ("station_id", .jarr [])]])])]])]) =
        some (.jobj [("id", .jstr "P"), ("type", .jstr "Tabbed"), ("tabs", .jarr [
          .jobj [("label", .jstr "T"), ("page", .jobj [("rows", .jnum 1 0),
            ("keys", .jarr [.jobj [("label", .jarr []),
              ("station_id", .jstr "")]])])]])]) := by
      simp [normalizeProfile, normTabs, normTab, normKeys, normKey, normalizePage,
        jsGet, fieldGet, rowsOf, keysOf, clientOf, normKeyLabel, normKeyStation,
        jsToString, jsJoinElems, jsJoinElem, jsTrim]
      decide
    rw [h1]
    have h2 : profileToJson (.jobj [("id", .jstr "P"), ("type", .jstr "Tabbed"),
        ("tabs", .jarr [.jobj [("label", .jstr "T"), ("page", .jobj [("rows", .jnum 1 0),
          ("keys", .jarr [.jobj [("label", .jarr []),
            ("station_id", .jstr "")]])])]])]) =
        .jobj [("id", .jstr "P"), ("type", .jstr "Tabbed"), ("tabs", .jarr [
          .jobj [("label", .jstr "T"), ("page", .jobj [("rows", .jnum 1 0),
            ("keys", .jarr [.jobj [("label", .jarr [])]])])]])] := by
      simp [profileToJson, tabToJson, pageToJson, keysToJson, keyToJson, jsGet, fieldGet]
    have h3 : jsonParse (serializeProfile (.jobj [("id", .jstr "P"),
        ("type", .jstr "Tabbed"), ("tabs", .jarr [.jobj [("label", .jstr "T"),
          ("page", .jobj [("rows", .jnum 1 0), ("keys", .jarr [.jobj [("label", .jarr []),
            ("station_id", .jstr "")]])])]])])) =
        some (profileToJson (.jobj [("id", .jstr "P"), ("type", .jstr "Tabbed"),
          ("tabs", .jarr [.jobj [("label", .jstr "T"), ("page", .jobj [("rows", .jnum 1 0),
            ("keys", .jarr [.jobj [("label", .jarr []),
              ("station_id", .jstr "")]])])]])])) :=
      format_parse _
    rw [Option.some_bind]
    rw [h3, h2]
    have h4 : normalizeProfile (.jobj [("id", .jstr "P"), ("type", .jstr "Tabbed"),
        ("tabs", .jarr [.jobj [("label", .jstr "T"), ("page", .jobj [("rows", .jnum 1 0),
          ("keys", .jarr [.jobj [("label", .jarr [])]])])]])]) =
        some (.jobj [("id", .jstr "P"), ("type", .jstr "Tabbed"), ("tabs", .jarr [
          .jobj [("label", .jstr "T"), ("page", .jobj [("rows", .jnum 1 0),
            ("keys", .jarr [.jobj [("label", .jarr [])]])])]])]) := by
      simp [normalizeProfile, normTabs, normTab, normKeys, normKey, normalizePage,
        jsGet, fieldGet, rowsOf, keysOf, clientOf, normKeyLabel, normKeyStation,
        jsToString, jsJoinElems, jsJoinElem, jsTrim]
      decide
    rw [Option.some_bind, h4]
    simp

/-- C1, amended: for every valid profile `x` whose normalized form `y`
has no empty `station_id` entry (`stationsOK y`), serializing `y` with
the canonical serializer, re-parsing the text as JSON and normalizing
again yields exactly `y`:
`normalize(parse(serialize(normalize(x)))) = normalize(x)`. -/
theorem c1_roundtrip (x y : Json) (hval : validateProfile x = [])
    (hN : normalizeProfile x = some y) (hst : stationsOK y = true) :
    (jsonParse (serializeProfile y)).bind normalizeProfile = some y := by
  obtain ⟨s, ts, tabs', hid, hts, hnt, rfl⟩ := normalizeProfile_shape x y hN
  simp only [stationsOK, stationsOKFields, stationsOKList] at hst
  simp at hst
  have hstl : stationsOKList tabs' = true := by simp [hst]
  have hgood := normTabs_good ts tabs' hnt hstl
  have hpj := profileToJson_stable (jsTrim s) tabs' hgood
  have hjp : jsonParse (serializeProfile (.jobj [("id", .jstr (jsTrim s)),
      ("type", .jstr "Tabbed"), ("tabs", .jarr tabs')])) =
      some (profileToJson (.jobj [("id", .jstr (jsTrim s)),
        ("type", .jstr "Tabbed"), ("tabs", .jarr tabs')])) :=
    format_parse _
  rw [hjp, hpj, Option.some_bind]
  have h3 := normTabs_stable ts tabs' hnt hstl
  simp [normalizeProfile, jsGet, fieldGet, h3, jsTrim_idem]

/-- Concrete instance of the amended C1: the serialize/parse/normalize
round trip fixes the normalized form of a simple valid profile. -/
theorem c1_roundtrip_witness :
    validateProfile (.jobj [("type", .jstr "Tabbed"), ("id", .jstr " P "), ("tabs", .jarr [
      .jobj [("label", .jstr "T"), ("page", .jobj [("rows", .jnum 2 0), ("keys", .jarr [
        .jobj [("label", .jarr [.jstr "A"]), ("station_id", .jstr "S")]])])]])]) = [] ∧
    stationsOK (.jobj [("id", .jstr "P"), ("type", .jstr "Tabbed"), ("tabs", .jarr [
      .jobj [("label", .jstr "T"), ("page", .jobj [("rows", .jnum 2 0), ("keys", .jarr [
        .jobj [("label", .jarr [.jstr "A"]), ("station_id", .jstr "S")]])])]])]) = true ∧
    (jsonParse (serializeProfile (.jobj [("id", .jstr "P"), ("type", .jstr "Tabbed"),
      ("tabs", .jarr [.jobj [("label", .jstr "T"), ("page", .jobj [("rows", .jnum 2 0),
        ("keys", .jarr [.jobj [("label", .jarr [.jstr "A"]),
          ("station_id", .jstr "S")]])])]])]))).bind normalizeProfile =
    some (.jobj [("id", .jstr "P"), ("type", .jstr "Tabbed"), ("tabs", .jarr [
      .jobj [("label", .jstr "T"), ("page", .jobj [("rows", .jnum 2 0), ("keys", .jarr [
        .jobj [("label", .jarr [.jstr "A"]), ("station_id", .jstr "S")]])])]])]) := by
  have hn : normalizeProfile (.jobj [("type", .jstr "Tabbed"), ("id", .jstr " P "),
      ("tabs", .jarr [.jobj [("label", .jstr "T"), ("page", .jobj [("rows", .jnum 2 0),
        ("keys", .jarr [.jobj [("label", .jarr [.jstr "A"]),
          ("station_id", .jstr "S")]])])]])]) =
      some (.jobj [("id", .jstr "P"), ("type", .jstr "Tabbed"), ("tabs", .jarr [
        .jobj [("label", .jstr "T"), ("page", .jobj [("rows", .jnum 2 0), ("keys", .jarr [
          .jobj [("label", .jarr [.jstr "A"]), ("station_id", .jstr "S")]])])]])]) := by
    simp [normalizeProfile, normTabs, normTab, normKeys, normKey, normalizePage,
      jsGet, fieldGet, rowsOf, keysOf, clientOf, normKeyLabel, normKeyStation,
      jsToString, jsJoinElems, jsJoinElem, jsTrim]
    decide
  exact ⟨by decide, by decide, c1_roundtrip _ _ (by decide) hn (by decide)⟩

/-- Concrete instance of C8: an object with the right `type` but
missing `id` and non-array `tabs` reports both errors together; with a
wrong `type`, only the single `type` error. -/
theorem c8_validation_witness :
    (⟨"id", "Profile id must be a non-empty string"⟩ ∈
       validateProfile (.jobj [("type", .jstr "Tabbed"), ("tabs", .jnum 7 0)]) ∧
     ⟨"tabs", "Profile must have at least one tab"⟩ ∈
       validateProfile (.jobj [("type", .jstr "Tabbed"), ("tabs", .jnum 7 0)])) ∧
    validateProfile (.jobj [("type", .jstr "X")]) =
      [⟨"type", "Only Tabbed profiles are supported"⟩] := by
  have h := c8_validation (.jobj [("type", .jstr "Tabbed"), ("tabs", .jnum 7 0)]) (by decide)
  have h2 := c8_validation (.jobj [("type", .jstr "X")]) (by decide)
  refine ⟨⟨?_, ?_⟩, h2.1 (by decide)⟩
  · exact (h.2 (by decide)).1.mpr (by rintro ⟨s, hs, -⟩; simp [jsGet, fieldGet] at hs)
  · exact (h.2 (by decide)).2.1.mpr (by rintro ⟨ts, hts, -⟩; simp [jsGet, fieldGet] at hts)

end Vacs
